import Mathlib

/-!
# Block storage with an intrusive active list (`bucket_storage.hpp`)

A shallow embedding of `Stack`, `Element`, `DeletedCell`, `Block`,
`BucketStorage` and `BucketStorage::Iterator`.

Memory is explicit.  Every `Block` object lives in a list of cells addressed by
its position; the element array a block allocates is kept inside the cell and is
addressed by `(block, offset)`.  `~Block` never releases the element array, so
the array of a released block stays readable and writable, while any access to
the `Block` object itself after `delete` is a fault.  Operations return
`Except Fault _`: a fault is an execution the language leaves undefined (a null
or out-of-bounds access, an access to released storage), a thrown exception, or
a loop that never exits.
-/

namespace Bucket

/-- Number of values of `std::size_t`; arithmetic on `size_type` is taken modulo this. -/
def wordSize : Nat := 18446744073709551616

/-- Ways an operation can fail to return. -/
inductive Fault where
  | nullDeref
  | outOfBounds
  | useAfterFree
  | emptyStack
  | invalidArgument
  | divByZero
  | diverges
  | fuel
  deriving DecidableEq, Repr

/-- Address of an element: the array of block cell `blk`, offset `idx`.  The offset may
lie past the array (`current_node_ + 1`); reading through such an address faults. -/
structure EPtr where
  blk : Nat
  idx : Nat
  deriving DecidableEq, Repr

/-- Struct `Element<T>`: `value_` is the owned object (`none` is the null pointer). -/
structure Element (α : Type) where
  value_ : Option α
  is_active_ : Bool
  index_ : Nat
  next_ : Option EPtr
  previous_ : Option EPtr
  deriving DecidableEq, Repr

/-- A default-constructed `Element`. -/
def Element.fresh {α : Type} : Element α :=
  { value_ := none, is_active_ := false, index_ := 0, next_ := none, previous_ := none }

/-- Method `Element::clear`: drops the value and both links, leaves `is_active_` and `index_`. -/
def Element.clear {α : Type} (e : Element α) : Element α :=
  { e with value_ := none, next_ := none, previous_ := none }

/-- Struct `DeletedCell<T>`. -/
structure DeletedCell where
  left_ : Option EPtr
  position_ : Option EPtr
  right_ : Option EPtr
  deriving DecidableEq, Repr

/-- Class `Stack<T>`.  `nodes` are the allocated nodes reachable from `current_`, top first.
`stale` counts chain entries below them whose nodes have already been deleted: the
compiler-generated copy assignment copies `current_` and `size_` only, and the destructor of
the source then deletes every node.  `size_` always equals the number of chain entries, since
`add` and `pop` change both together. -/
structure Stack (α : Type) where
  nodes : List α
  stale : Nat
  deriving DecidableEq, Repr

namespace Stack

/-- A default-constructed stack. -/
def new {α : Type} : Stack α := { nodes := [], stale := 0 }

/-- Method `Stack::size`. -/
def size {α : Type} (s : Stack α) : Nat := s.nodes.length + s.stale

/-- Method `Stack::empty`: `size_ == 0`. -/
def empty {α : Type} (s : Stack α) : Bool := s.size == 0

/-- Method `Stack::add`. -/
def add {α : Type} (s : Stack α) (v : α) : Stack α := { s with nodes := v :: s.nodes }

/-- Method `Stack::top`: throws on `current_ == nullptr`, otherwise reads the top node. -/
def top {α : Type} (s : Stack α) : Except Fault α :=
  match s.nodes with
  | v :: _ => .ok v
  | [] => if s.stale = 0 then .error .emptyStack else .error .useAfterFree

/-- Method `Stack::pop`: nothing on `current_ == nullptr`, otherwise unlinks and deletes the top node. -/
def pop {α : Type} (s : Stack α) : Except Fault (Stack α) :=
  match s.nodes with
  | _ :: t => .ok { s with nodes := t }
  | [] => if s.stale = 0 then .ok s else .error .useAfterFree

/-- Copy assignment followed by the destruction of the source: the target keeps the chain
length but none of the nodes. -/
def copyThenDestroySource {α : Type} (src : Stack α) : Stack α :=
  { nodes := [], stale := src.size }

/-- Destructor `~Stack`: `while (current_) pop();`.  It deletes every node of the chain, so a
chain with entries already deleted is deleted twice. -/
def destroy {α : Type} (s : Stack α) : Except Fault Unit :=
  if s.stale = 0 then .ok () else .error .useAfterFree

/-- Caller code: `add` of each value in order. -/
def addAll {α : Type} (s : Stack α) : List α → Stack α
  | [] => s
  | v :: vs => (s.add v).addAll vs

/-- Caller loop: `n` rounds of `out.push_back(s.top()); s.pop();`.  Returns the values read
and the stack left. -/
def drain {α : Type} : Nat → Stack α → Except Fault (List α × Stack α)
  | 0, s => .ok ([], s)
  | n + 1, s => do
    let v ← s.top
    let s1 ← s.pop
    let r ← drain n s1
    .ok (v :: r.1, r.2)

end Stack

/-- A call of one of the two mutating methods of `Stack`. -/
inductive StackOp (α : Type) where
  | push (v : α)
  | pop
  deriving DecidableEq, Repr

/-- Caller code: a sequence of `add` and `pop` calls on a stack. -/
def Stack.applyAll {α : Type} : Stack α → List (StackOp α) → Except Fault (Stack α)
  | s, [] => .ok s
  | s, .push v :: ops => (s.add v).applyAll ops
  | s, .pop :: ops => s.pop >>= fun s1 => s1.applyAll ops

/-- Struct `Block<T>` together with the array `elements_` points to.  `released` records
that the `Block` object has been deleted. -/
structure Block (α : Type) where
  next_ : Option Nat
  previous_ : Option Nat
  elements_ : List (Element α)
  deleted_cells_ : Stack DeletedCell
  block_capacity_ : Nat
  released : Bool
  deriving DecidableEq, Repr

/-- Result of `new block_type()` followed by `setElements(new element_type[cap])` and
`setBlockCapacity(cap)`. -/
def Block.fresh {α : Type} (cap : Nat) : Block α :=
  { next_ := none, previous_ := none, elements_ := List.replicate cap Element.fresh,
    deleted_cells_ := Stack.new, block_capacity_ := cap, released := false }

/-- The store of block cells. -/
abbrev Heap (α : Type) := List (Block α)

/-- Dereference of a `Block*`. -/
def blockAt {α : Type} (h : Heap α) (b : Option Nat) : Except Fault (Block α) :=
  match b with
  | none => .error .nullDeref
  | some i =>
    match h[i]? with
    | none => .error .useAfterFree
    | some blk => if blk.released then .error .useAfterFree else .ok blk

/-- Write through a `Block*`. -/
def updBlock {α : Type} (h : Heap α) (b : Option Nat) (f : Block α → Block α) :
    Except Fault (Heap α) :=
  match b with
  | none => .error .nullDeref
  | some i =>
    match h[i]? with
    | none => .error .useAfterFree
    | some blk => if blk.released then .error .useAfterFree else .ok (h.set i (f blk))

/-- Dereference of an `Element*`. -/
def elemAt {α : Type} (h : Heap α) (p : Option EPtr) : Except Fault (Element α) :=
  match p with
  | none => .error .nullDeref
  | some q =>
    match h[q.blk]? with
    | none => .error .outOfBounds
    | some blk =>
      match blk.elements_[q.idx]? with
      | none => .error .outOfBounds
      | some e => .ok e

/-- Write through an `Element*`. -/
def updElem {α : Type} (h : Heap α) (p : Option EPtr) (f : Element α → Element α) :
    Except Fault (Heap α) :=
  match p with
  | none => .error .nullDeref
  | some q =>
    match h[q.blk]? with
    | none => .error .outOfBounds
    | some blk =>
      match blk.elements_[q.idx]? with
      | none => .error .outOfBounds
      | some e => .ok (h.set q.blk { blk with elements_ := blk.elements_.set q.idx (f e) })

/-- Total number of elements in all arrays; bounds every walk over distinct elements. -/
def elemCount {α : Type} (h : Heap α) : Nat := (h.map fun b => b.elements_.length).sum

/-- The loop of `~Block`: from `element`, while its `index_` is nonzero, clear it and follow
the link it had.  Every visited element loses its link, so the loop stops within
`elemCount + 1` rounds. -/
def destroyWalk {α : Type} : Nat → Heap α → Option EPtr → Except Fault (Heap α)
  | 0, _, _ => .error .diverges
  | k + 1, h, el =>
    match el with
    | none => .ok h
    | some p => do
      let e ← elemAt h (some p)
      if e.index_ = 0 then .ok h
      else do
        let h1 ← updElem h (some p) Element.clear
        destroyWalk k h1 e.next_

/-- Expression `delete block`: runs `~Block` (clears `elements_[0]`, then walks from
`&elements_[1]`), destroys the tombstone stack and releases the object.  The element array is
not released. -/
def deleteBlock {α : Type} (h : Heap α) (b : Option Nat) : Except Fault (Heap α) := do
  let _ ← blockAt h b
  match b with
  | none => .error .nullDeref
  | some i => do
    let h1 ← updElem h (some ⟨i, 0⟩) Element.clear
    let h2 ← destroyWalk (elemCount h1 + 2) h1 (some ⟨i, 1⟩)
    updBlock h2 b fun blk =>
      { blk with previous_ := none, next_ := none, deleted_cells_ := Stack.new, released := true }

/-- Class `BucketStorage<T>::Iterator`.  The member `end_` always points at the
`last_object_` field of the storage the iterator was made from, so operations that read
`*end_` take that storage as an argument. -/
structure Iterator where
  current_node_ : Option EPtr
  current_block_ : Option Nat
  block_capacity_ : Nat
  current_position_ : Nat
  deriving DecidableEq, Repr

/-- Class `BucketStorage<T>`: its private fields plus the heap they point into. -/
structure BucketStorage (α : Type) where
  heap : Heap α
  last_deleting_ : Stack (Option Nat)
  head_block_ : Option Nat
  tail_block_ : Option Nat
  last_object_ : Option EPtr
  first_element_ : Option EPtr
  size_ : Nat
  block_capacity_ : Nat
  current_index_ : Nat
  deriving DecidableEq, Repr

/-- An address value: the array it points into (`none` for an address derived from the null
pointer) and the offset. -/
abbrev Addr := Option Nat × Nat

/-- Pointer arithmetic `p + 1`. -/
def EPtr.succ (p : EPtr) : EPtr := ⟨p.blk, p.idx + 1⟩

namespace Iterator

/-- Method `Iterator::getCurrent`: the node, or `*end_ + 1` when the node is null. -/
def getCurrent {α : Type} (s : BucketStorage α) (it : Iterator) : Addr :=
  match it.current_node_ with
  | some p => (some p.blk, p.idx)
  | none =>
    match s.last_object_ with
    | some q => (some q.blk, q.idx + 1)
    | none => (none, 1)

/-- Operator `==` on iterators. -/
def eq {α : Type} (s : BucketStorage α) (a b : Iterator) : Bool :=
  getCurrent s a == getCurrent s b

/-- The inner loop of `operator++`:
`while (node->getNext() && !node->isActive()) node = node->getNext();`.
The loop only reads, so once it has taken more rounds than there are elements it never exits. -/
def skipInactive {α : Type} : Nat → Heap α → EPtr → Except Fault EPtr
  | 0, _, _ => .error .diverges
  | k + 1, h, p => do
    let e ← elemAt h (some p)
    match e.next_ with
    | none => .ok p
    | some q => if e.is_active_ then .ok p else skipInactive k h q

/-- Prefix `operator++`. -/
def incr {α : Type} (s : BucketStorage α) (it : Iterator) : Except Fault Iterator :=
  match it.current_node_ with
  | none => .ok { it with current_node_ := s.last_object_ }
  | some p => do
    let e ← elemAt s.heap (some p)
    match e.next_ with
    | none =>
      .ok { it with current_node_ := some p.succ,
                    current_position_ := (it.current_position_ + 1) % wordSize }
    | some q => do
      let r ← skipInactive (elemCount s.heap + 1) s.heap q
      let er ← elemAt s.heap (some r)
      let blk ← (if er.index_ = 0 then (blockAt s.heap it.current_block_).map fun b => b.next_
                 else pure it.current_block_)
      .ok { it with current_node_ := some r, current_block_ := blk,
                    current_position_ := (it.current_position_ + 1) % wordSize }

/-- Prefix `operator--`. -/
def decr {α : Type} (s : BucketStorage α) (it : Iterator) : Except Fault Iterator :=
  match it.current_node_ with
  | none => .ok { it with current_node_ := s.last_object_ }
  | some p => do
    let e ← elemAt s.heap (some p)
    match e.previous_ with
    | none =>
      .ok { it with current_node_ := some p.succ,
                    current_position_ := (it.current_position_ + wordSize - 1) % wordSize }
    | some q => do
      let eq ← elemAt s.heap (some q)
      let en ← elemAt s.heap eq.next_
      let blk ← (if en.index_ = 0 then (blockAt s.heap it.current_block_).map fun b => b.previous_
                 else pure it.current_block_)
      .ok { it with current_node_ := some q, current_block_ := blk,
                    current_position_ := (it.current_position_ + wordSize - 1) % wordSize }

/-- Operator `*`: `*current_node_->getValue()`. -/
def deref {α : Type} (s : BucketStorage α) (it : Iterator) : Except Fault α := do
  let e ← elemAt s.heap it.current_node_
  match e.value_ with
  | none => .error .nullDeref
  | some v => .ok v

end Iterator

namespace BucketStorage

variable {α : Type}

/-- Method `initializationContainer`. -/
def initializationContainer (s : BucketStorage α) : BucketStorage α :=
  { s with heap := s.heap ++ [Block.fresh s.block_capacity_],
           head_block_ := some s.heap.length,
           tail_block_ := some s.heap.length }

/-- Constructor `BucketStorage(size_type block_capacity)`. -/
def construct (block_capacity : Nat) : Except Fault (BucketStorage α) :=
  if block_capacity = 0 then .error .invalidArgument
  else .ok (initializationContainer
    { heap := [], last_deleting_ := Stack.new, head_block_ := none, tail_block_ := none,
      last_object_ := none, first_element_ := none, size_ := 0,
      block_capacity_ := block_capacity, current_index_ := 0 })

/-- Method `begin`. -/
def begin (s : BucketStorage α) : Iterator :=
  { current_node_ := if s.head_block_.isSome then s.first_element_ else none,
    current_block_ := s.head_block_, block_capacity_ := s.block_capacity_,
    current_position_ := 0 }

/-- Method `end`. -/
def end_ (s : BucketStorage α) : Iterator :=
  { current_node_ := none, current_block_ := s.tail_block_,
    block_capacity_ := s.block_capacity_, current_position_ := s.current_index_ }

/-- Method `size`. -/
def size (s : BucketStorage α) : Nat := s.size_

/-- Method `empty`. -/
def empty (s : BucketStorage α) : Bool := s.size_ == 0

/-- Method `capacity`. -/
def capacity (s : BucketStorage α) : Except Fault Nat :=
  if s.size_ = 0 then .ok 0
  else if s.block_capacity_ = 0 then .error .divByZero
  else .ok ((s.block_capacity_ *
    (((s.current_index_ + wordSize - 1) % wordSize) / s.block_capacity_ + 1)) % wordSize)

/-- Method `addBlock`. -/
def addBlock (s : BucketStorage α) : Except Fault (BucketStorage α) := do
  let nb := s.heap.length
  let h0 := s.heap ++ [Block.fresh s.block_capacity_]
  let h1 ← updElem h0 (some ⟨nb, 0⟩) fun e => { e with previous_ := s.last_object_ }
  let h2 ← updElem h1 s.last_object_ fun e => { e with next_ := some ⟨nb, 0⟩ }
  let h3 ← updBlock h2 (some nb) fun b => { b with previous_ := s.tail_block_ }
  let h4 ← updBlock h3 s.tail_block_ fun b => { b with next_ := some nb }
  .ok { s with heap := h4, tail_block_ := some nb }

/-- Address `&block->getElement(k)`: reads `elements_` through the block pointer. -/
def elementAddr (h : Heap α) (b : Option Nat) (k : Nat) : Except Fault EPtr := do
  let _ ← blockAt h b
  match b with
  | none => .error .nullDeref
  | some i => .ok ⟨i, k⟩

/-- Method `insertBody`. -/
def insertBody (s : BucketStorage α) : Except Fault (BucketStorage α) :=
  if s.block_capacity_ = 0 then .error .divByZero
  else do
    let s1 ← (if s.current_index_ / s.block_capacity_ > 0 ∧
                 s.current_index_ % s.block_capacity_ = 0 then addBlock s else pure s)
    let s2 ← (match s1.first_element_ with
      | none => (elementAddr s1.heap s1.tail_block_ 0).map fun p =>
          { s1 with first_element_ := some p }
      | some _ => pure s1)
    let here ← elementAddr s2.heap s2.tail_block_ (s.current_index_ % s.block_capacity_)
    let h1 ← updElem s2.heap (some here) fun e =>
      { e with index_ := s.current_index_ % s.block_capacity_ }
    let h3 ← (if (s.current_index_ % s.block_capacity_ + 1) % s.block_capacity_ ≠ 0 then
        (updElem h1 (some here) fun e => { e with next_ := some here.succ }) >>= fun h2 =>
          updElem h2 (some here.succ) fun e => { e with previous_ := some here }
      else pure h1)
    .ok { s2 with heap := h3, last_object_ := some here,
                  current_index_ := (s2.current_index_ + 1) % wordSize }

/-- Method `insertInDeletedCellBody`. -/
def insertInDeletedCellBody (s : BucketStorage α) :
    Except Fault (BucketStorage α × Option EPtr) := do
  let top_block ← s.last_deleting_.top
  let ld ← s.last_deleting_.pop
  let blk ← blockAt s.heap top_block
  let cell ← blk.deleted_cells_.top
  let dc ← blk.deleted_cells_.pop
  let h0 ← updBlock s.heap top_block fun b => { b with deleted_cells_ := dc }
  let h1 ← updElem h0 cell.left_ fun e => { e with next_ := cell.position_ }
  let h2 ← updElem h1 cell.right_ fun e => { e with previous_ := cell.position_ }
  let h3 ← updElem h2 cell.position_ fun e => { e with previous_ := cell.left_ }
  let h4 ← updElem h3 cell.position_ fun e => { e with next_ := cell.left_ }
  .ok ({ s with heap := h4, last_deleting_ := ld }, cell.position_)

/-- Method `insertInDeletedCell`. -/
def insertInDeletedCell (s : BucketStorage α) (value : α) :
    Except Fault (BucketStorage α × Iterator) := do
  let r ← insertInDeletedCellBody s
  let h1 ← updElem r.1.heap r.2 fun e => { e with value_ := some value }
  let h2 ← updElem h1 r.2 fun e => { e with is_active_ := true }
  .ok ({ r.1 with heap := h2 },
       { current_node_ := r.2, current_block_ := r.1.head_block_,
         block_capacity_ := r.1.block_capacity_, current_position_ := 0 })

/-- Method `insert`. -/
def insert (s : BucketStorage α) (value : α) : Except Fault (BucketStorage α × Iterator) :=
  if !s.last_deleting_.empty then insertInDeletedCell s value
  else do
    let s1 ← insertBody s
    let here ← elementAddr s1.heap s1.tail_block_ (s.current_index_ % s.block_capacity_)
    let h1 ← updElem s1.heap (some here) fun e => { e with value_ := some value }
    let h2 ← updElem h1 (some here) fun e => { e with is_active_ := true }
    .ok ({ s1 with heap := h2, size_ := (s1.size_ + 1) % wordSize },
         { current_node_ := some here, current_block_ := s1.head_block_,
           block_capacity_ := s1.block_capacity_, current_position_ := 0 })

/-- The loop of `clear`: delete every block along the chain. -/
def clearLoop : Nat → Heap α → Option Nat → Except Fault (Heap α)
  | 0, _, _ => .error .diverges
  | k + 1, h, temp =>
    match temp with
    | none => .ok h
    | some i => do
      let blk ← blockAt h (some i)
      let h1 ← deleteBlock h (some i)
      clearLoop k h1 blk.next_

/-- Method `clear`. -/
def clear (s : BucketStorage α) : Except Fault (BucketStorage α) :=
  if s.head_block_.isNone ∨ s.size_ = 0 then .ok s
  else do
    let h1 ← clearLoop (s.heap.length + 1) s.heap s.head_block_
    .ok { s with heap := h1, head_block_ := none, tail_block_ := none, last_object_ := none,
                 first_element_ := none, size_ := 0 }

/-- The purge loop of `delBlock`: pop every entry of `last_deleting_`, pushing those that
differ from `block` onto the new stack. -/
def purgeLoop : Nat → Stack (Option Nat) → Stack (Option Nat) → Option Nat →
    Except Fault (Stack (Option Nat))
  | 0, _, _, _ => .error .diverges
  | k + 1, old, acc, block =>
    if old.empty then .ok acc
    else do
      let link ← old.top
      let old1 ← old.pop
      purgeLoop k old1 (if link ≠ block then acc.add link else acc) block

/-- The three relinking branches of `delBlock` (both neighbours, only a previous block, only
a next block), applied to the neighbours of the block being reclaimed. -/
def unlinkBlock (s : BucketStorage α) (prv nxt : Option Nat) : Except Fault (BucketStorage α) :=
  match prv, nxt with
  | some p, some n => do
    let h1 ← updBlock s.heap (some p) fun b => { b with next_ := some n }
    let h2 ← updBlock h1 (some n) fun b => { b with previous_ := some p }
    let pe ← elementAddr h2 (some p) ((s.block_capacity_ + wordSize - 1) % wordSize)
    let ne ← elementAddr h2 (some n) 0
    let h3 ← updElem h2 (some pe) fun e => { e with next_ := some ne }
    let h4 ← updElem h3 (some ne) fun e => { e with previous_ := some pe }
    pure { s with heap := h4 }
  | some p, none => do
    let h1 ← updBlock s.heap (some p) fun b => { b with next_ := none }
    let pe ← elementAddr h1 (some p) ((s.block_capacity_ + wordSize - 1) % wordSize)
    let h2 ← updElem h1 (some pe) fun e => { e with next_ := none }
    pure { s with heap := h2, last_object_ := some pe }
  | none, some n => do
    let h1 ← updBlock s.heap (some n) fun b => { b with previous_ := none }
    let ne ← elementAddr h1 (some n) 0
    let h2 ← updElem h1 (some ne) fun e => { e with previous_ := none }
    pure { s with heap := h2, head_block_ := some n, first_element_ := some ne }
  | none, none => pure s

/-- Method `delBlock`. -/
def delBlock (s : BucketStorage α) (block : Option Nat) : Except Fault (BucketStorage α) := do
  let blk ← blockAt s.heap block
  if blk.previous_.isNone ∧ blk.next_.isNone then
    (clear s).map initializationContainer
  else do
    let s1 ← unlinkBlock s blk.previous_ blk.next_
    let acc ← purgeLoop (s1.last_deleting_.size + 1) s1.last_deleting_ Stack.new block
    let h5 ← deleteBlock s1.heap block
    .ok { s1 with heap := h5, last_deleting_ := Stack.copyThenDestroySource acc,
                  current_index_ := (s1.current_index_ + wordSize - s1.block_capacity_ % wordSize)
                    % wordSize }

/-- Method `erase`. -/
def erase (s : BucketStorage α) (pos : Iterator) :
    Except Fault (BucketStorage α × Iterator) := do
  let block := pos.current_block_
  let cur := pos.current_node_
  let ld := s.last_deleting_.add block
  let _ ← blockAt s.heap block
  let e ← elemAt s.heap cur
  let h0 ← updBlock s.heap block fun b =>
    { b with deleted_cells_ := b.deleted_cells_.add ⟨e.previous_, cur, e.next_⟩ }
  let s1 ← (if cur ≠ s.first_element_ then
      (updElem h0 e.previous_ fun x => { x with next_ := e.next_ }) >>= fun h1 =>
      (match e.next_ with
        | some n => updElem h1 (some n) fun x => { x with previous_ := e.previous_ }
        | none => pure h1) >>= fun h2 =>
      pure { s with heap := h2, last_deleting_ := ld }
    else
      (updElem h0 e.next_ fun x => { x with previous_ := none }) >>= fun h1 =>
      pure { s with heap := h1, last_deleting_ := ld, first_element_ := e.next_ })
  let h3 ← updElem s1.heap cur fun x => { x with value_ := none }
  let h4 ← updElem h3 cur fun x => { x with is_active_ := false }
  let pos1 ← Iterator.incr
    { s1 with heap := h4, size_ := (s1.size_ + wordSize - 1) % wordSize } pos
  let blk ← blockAt h4 block
  if blk.deleted_cells_.size = s1.block_capacity_ then
    (delBlock { s1 with heap := h4, size_ := (s1.size_ + wordSize - 1) % wordSize } block).map
      fun s3 => (s3, pos1)
  else .ok ({ s1 with heap := h4, size_ := (s1.size_ + wordSize - 1) % wordSize }, pos1)

/-- The caller's loop `for (it = from; it != end(); ++it)`, recording the node visited at
each round.  Returns `Fault.fuel` when the loop has not ended after `n` rounds. -/
def visitFrom : Nat → BucketStorage α → Iterator → Except Fault (List (Option EPtr))
  | 0, _, _ => .error .fuel
  | n + 1, s, it =>
    if Iterator.eq s it (end_ s) then .ok []
    else do
      let it1 ← Iterator.incr s it
      let rest ← visitFrom n s it1
      .ok (it.current_node_ :: rest)

/-- The caller's loop `for (it = from; it != end(); ++it) out.push_back(*it)`. -/
def valuesFrom : Nat → BucketStorage α → Iterator → Except Fault (List α)
  | 0, _, _ => .error .fuel
  | n + 1, s, it =>
    if Iterator.eq s it (end_ s) then .ok []
    else do
      let v ← Iterator.deref s it
      let it1 ← Iterator.incr s it
      let rest ← valuesFrom n s it1
      .ok (v :: rest)

/-- Slots visited by a full iteration from `begin()`. -/
def visited (n : Nat) (s : BucketStorage α) : Except Fault (List (Option EPtr)) :=
  visitFrom n s (begin s)

/-- Values produced by a full iteration from `begin()`. -/
def values (n : Nat) (s : BucketStorage α) : Except Fault (List α) :=
  valuesFrom n s (begin s)

/-- Insert the values of a list in order. -/
def insertAll : BucketStorage α → List α → Except Fault (BucketStorage α)
  | s, [] => .ok s
  | s, v :: vs => do
    let r ← insert s v
    insertAll r.1 vs

/-- An iterator step applied `n` times in a row. -/
def stepN (f : Iterator → Except Fault Iterator) : Nat → Iterator → Except Fault Iterator
  | 0, it => .ok it
  | n + 1, it => f it >>= stepN f n

/-- Method `get_to_distance`: `distance` rounds of `++` when it is positive, otherwise
`-distance` rounds of `--`. -/
def get_to_distance (s : BucketStorage α) (iter : Iterator) (distance : Int) :
    Except Fault Iterator :=
  if distance > 0 then stepN (Iterator.incr s) distance.toNat iter
  else stepN (Iterator.decr s) (-distance).toNat iter

/-- Constructor `BucketStorage(size_type block_capacity)` run in a memory that already holds
the blocks `h` of other storages. -/
def constructIn (h : Heap α) (block_capacity : Nat) : Except Fault (BucketStorage α) :=
  if block_capacity = 0 then .error .invalidArgument
  else .ok (initializationContainer
    { heap := h, last_deleting_ := Stack.new, head_block_ := none, tail_block_ := none,
      last_object_ := none, first_element_ := none, size_ := 0,
      block_capacity_ := block_capacity, current_index_ := 0 })

/-- The loop shared by the copy constructor and `shrink_to_fit`:
`while (iter != end_) { if (active && value) dst.insert(*value); ++iter; }` where `iter` and
`end_` belong to `src`.  Both storages live in one memory, carried by `dst.heap`; the fields of
`src` do not change during the loop. -/
def transferLoop : Nat → BucketStorage α → BucketStorage α → Iterator →
    Except Fault (BucketStorage α)
  | 0, _, _, _ => .error .fuel
  | n + 1, src, dst, iter =>
    if Iterator.eq src iter (end_ src) then .ok dst
    else do
      let e ← elemAt dst.heap iter.current_node_
      let dst1 ← (match e.is_active_, e.value_ with
        | true, some v => (insert dst v).map fun r => r.1
        | _, _ => pure dst)
      let iter1 ← Iterator.incr { src with heap := dst1.heap } iter
      transferLoop n src dst1 iter1

/-- Copy constructor `BucketStorage(const BucketStorage& other)`.  The result carries the
memory after the copy; `other` keeps its fields and lives on in that memory. -/
def copyConstruct (fuel : Nat) (other : BucketStorage α) : Except Fault (BucketStorage α) :=
  if other.head_block_.isNone then
    .ok (initializationContainer
      { heap := other.heap, last_deleting_ := Stack.new, head_block_ := none,
        tail_block_ := none, last_object_ := none, first_element_ := none,
        size_ := other.size_, block_capacity_ := other.block_capacity_, current_index_ := 0 })
  else
    transferLoop fuel other
      (initializationContainer
        { heap := other.heap, last_deleting_ := Stack.new, head_block_ := none,
          tail_block_ := none, last_object_ := none, first_element_ := none,
          size_ := other.size_, block_capacity_ := other.block_capacity_, current_index_ := 0 })
      (begin other)

/-- Method `swap`: seven `std::swap` calls, on `head_block_`, `tail_block_`, `last_object_`,
`size_`, `block_capacity_`, `current_index_` and `first_element_`.  The result is the pair
(`*this`, `other`) after the call; the memory is not touched. -/
def swap (a b : BucketStorage α) : BucketStorage α × BucketStorage α :=
  ({ a with head_block_ := b.head_block_, tail_block_ := b.tail_block_,
            last_object_ := b.last_object_, size_ := b.size_,
            block_capacity_ := b.block_capacity_, current_index_ := b.current_index_,
            first_element_ := b.first_element_ },
   { b with head_block_ := a.head_block_, tail_block_ := a.tail_block_,
            last_object_ := a.last_object_, size_ := a.size_,
            block_capacity_ := a.block_capacity_, current_index_ := a.current_index_,
            first_element_ := a.first_element_ })

/-- Destructor `~BucketStorage`: `clear()`, then the member `last_deleting_` is destroyed.
Returns the memory left behind. -/
def destroy (s : BucketStorage α) : Except Fault (Heap α) := do
  let s1 ← clear s
  let _ ← s1.last_deleting_.destroy
  .ok s1.heap

/-- Method `shrink_to_fit`: build `new_storage`, move every active value into it, swap, and
destroy `new_storage` (which then holds the old fields) at the end of the scope. -/
def shrink_to_fit (fuel : Nat) (s : BucketStorage α) : Except Fault (BucketStorage α) := do
  let t0 ← constructIn s.heap s.block_capacity_
  let t ← transferLoop fuel s t0 (begin s)
  let h ← destroy (swap { s with heap := t.heap } t).2
  .ok { (swap { s with heap := t.heap } t).1 with heap := h }

end BucketStorage

/-- Equality of results is decidable when faults and values are. -/
instance decEqExcept {ε β : Type} [DecidableEq ε] [DecidableEq β] : DecidableEq (Except ε β)
  | .ok a, .ok b => if h : a = b then isTrue (congrArg Except.ok h)
      else isFalse fun h2 => h (Except.ok.inj h2)
  | .error a, .error b => if h : a = b then isTrue (congrArg Except.error h)
      else isFalse fun h2 => h (Except.error.inj h2)
  | .ok _, .error _ => isFalse fun h => Except.noConfusion h
  | .error _, .ok _ => isFalse fun h => Except.noConfusion h

/-! ## Concrete runs -/

namespace Run

open BucketStorage

/-- `Storage s(cap)` followed by `insert` of each value in order. -/
def filled (cap : Nat) (vs : List Nat) : Except Fault (BucketStorage Nat) := do
  let s ← construct cap
  insertAll s vs

/-- Result `begin()` advanced `k` times with `++`. -/
def advance (s : BucketStorage Nat) : Nat → Except Fault Iterator
  | 0 => .ok (begin s)
  | k + 1 => do
    let it ← advance s k
    Iterator.incr s it

/-- Run `Storage s(2)`; insert 1, 2; erase the iterator to 2 (`begin()` advanced once). -/
def eraseLastOfFullBlock : Except Fault (BucketStorage Nat × Iterator) := do
  let s ← filled 2 [1, 2]
  let it ← advance s 1
  erase s it

/-- Run `Storage s(3)`; insert 1, 2, 3; erase the iterator to 2; insert 4. -/
def reuseMiddle : Except Fault (BucketStorage Nat × Iterator) := do
  let s ← filled 3 [1, 2, 3]
  let it ← advance s 1
  let (s1, _) ← erase s it
  insert s1 4

/-- Run `Storage s(2)`; insert 1, 2, 3; erase the iterator to 2 (`begin()` advanced once);
insert 4. -/
def specScenario : Except Fault (BucketStorage Nat × Iterator) := do
  let s ← filled 2 [1, 2, 3]
  let it ← advance s 1
  let (s1, _) ← erase s it
  insert s1 4

/-- Run `Storage s(2)`; insert 1, 2, 3, 4; erase the iterator to 3 (`begin()` advanced twice),
keeping the storage and the iterator that erase returns. -/
def eraseThird : Except Fault (BucketStorage Nat × Iterator) := do
  let s ← filled 2 [1, 2, 3, 4]
  let it ← advance s 2
  erase s it

/-- Run `eraseThird`, then erase the iterator it returned (it references 4, the last live
element, and empties the tail block). -/
def eraseTailBlock : Except Fault (BucketStorage Nat × Iterator) := do
  let (s1, r) ← eraseThird
  erase s1 r

/-- Run `Storage s(2)`; insert 1, 2; erase `begin()`. -/
def eraseFirst : Except Fault (BucketStorage Nat × Iterator) := do
  let s ← filled 2 [1, 2]
  erase s (begin s)

/-- Run `Storage s(2)`; insert 1, 2; `it3 = insert(3)`; `erase(it3)`. -/
def eraseViaInsertIterator : Except Fault (BucketStorage Nat × Iterator) := do
  let s ← filled 2 [1, 2]
  let (s1, it3) ← insert s 3
  erase s1 it3

/-- Run `Storage s(2)`; insert 1, 2; `it3 = insert(3)`; `it4 = insert(4)`; `erase(it3)`;
`erase(it4)`: every element of the full second block is erased through the iterator its
insert returned.  The storage before the last erase is returned as well. -/
def eraseSecondBlockViaInsertIterators :
    Except Fault (BucketStorage Nat × BucketStorage Nat) := do
  let s ← filled 2 [1, 2]
  let (s1, it3) ← insert s 3
  let (s2, it4) ← insert s1 4
  let (s3, _) ← erase s2 it3
  let (s4, _) ← erase s3 it4
  .ok (s3, s4)

/-- Run `Storage s(2)`; insert 1, 2, 3; erase the iterator to 2; insert 4 (the run
`specScenario`); then `s.shrink_to_fit()` with the given bound on the rounds of its loop. -/
def shrinkAfterReuse (fuel : Nat) : Except Fault (BucketStorage Nat) :=
  specScenario >>= fun r => shrink_to_fit fuel r.1

/-- Run `Storage s(2)`; insert 1, 2, 3; `Storage c(s)`.  Returns `s` and `c`, both in the
memory after the copy. -/
def copyOfThree : Except Fault (BucketStorage Nat × BucketStorage Nat) := do
  let s ← filled 2 [1, 2, 3]
  let c ← copyConstruct 4 s
  .ok ({ s with heap := c.heap }, c)

/-- Run `Storage s(cap)`; `s.erase(s.insert(v))`. -/
def insertThenErase (cap v : Nat) : Except Fault (BucketStorage Nat × Iterator) := do
  let s ← construct cap
  let r ← insert s v
  erase r.1 r.2

/-- Run `Storage s(2)`; insert 1; `s.clear()`. -/
def clearAfterInsert : Except Fault (BucketStorage Nat) := do
  let s ← filled 2 [1]
  clear s

/-- Run `Storage s(2)`; insert 1; erase `begin()`; `s.clear()`. -/
def clearAfterErase : Except Fault (BucketStorage Nat) := do
  let s ← filled 2 [1]
  let r ← erase s (begin s)
  clear r.1

/-- Run `Storage a(3)`; insert 1, 2, 3; erase the iterator to 2; `Storage b(3)`.  Returns `a`
and `b` in their common memory. -/
def erasedAndFresh : Except Fault (BucketStorage Nat × BucketStorage Nat) := do
  let a0 ← filled 3 [1, 2, 3]
  let it ← advance a0 1
  let r ← erase a0 it
  let b ← constructIn r.1.heap 3
  .ok ({ r.1 with heap := b.heap }, b)

/-- Run `Storage s(4)`; `i1 = insert(1)`; `i2 = insert(2)`; `i3 = insert(3)`; `erase(i2)`;
`i5 = insert(5)`; `erase(i3)`; `erase(i5)`; `erase(i1)`.  Returns the value each erased iterator
referenced just before its erase, and the final storage. -/
def eraseAllAfterReuse : Except Fault (List Nat × BucketStorage Nat) := do
  let s0 ← construct 4
  let (s1, i1) ← insert s0 1
  let (s2, i2) ← insert s1 2
  let (s3, i3) ← insert s2 3
  let v2 ← Iterator.deref s3 i2
  let (s4, _) ← erase s3 i2
  let (s5, i5) ← insert s4 5
  let v3 ← Iterator.deref s5 i3
  let (s6, _) ← erase s5 i3
  let v5 ← Iterator.deref s6 i5
  let (s7, _) ← erase s6 i5
  let v1 ← Iterator.deref s7 i1
  let (s8, _) ← erase s7 i1
  .ok ([v2, v3, v5, v1], s8)

/-- Run `Storage s(2)`; insert 1, 2, 3, 4, 5, 6 (three full blocks); erase `begin()` (the
value 1); apply `++` to the returned iterator and erase it (the value 3); again for the value
5; then erase the iterator that call returned (the value 6), which empties block 2 and reclaims
it.  Returns the values the last three erased iterators referenced, the block each of them
tracked, the storage before the last erase and the storage after it. -/
def reclaimThirdBlock :
    Except Fault (List Nat × List (Option Nat) × BucketStorage Nat × BucketStorage Nat) := do
  let s ← filled 2 [1, 2, 3, 4, 5, 6]
  let (s1, r1) ← erase s (begin s)
  let i3 ← Iterator.incr s1 r1
  let v3 ← Iterator.deref s1 i3
  let (s2, r2) ← erase s1 i3
  let i5 ← Iterator.incr s2 r2
  let v5 ← Iterator.deref s2 i5
  let (s3, r3) ← erase s2 i5
  let v6 ← Iterator.deref s3 r3
  let (s4, _) ← erase s3 r3
  .ok ([v3, v5, v6], [i3.current_block_, i5.current_block_, r3.current_block_], s3, s4)

/-- Run `Storage s(2)`; insert 1, 2, 3, 4; `it2`, `it3`, `it4` are `begin()` advanced once,
twice and three times; erase `begin()` (the value 1); erase `it3`; insert 5 (it reuses the slot
of 3); erase `it2` (block 0 is reclaimed and block 1 is the only block left); erase `begin()`
(the value 5); erase `it4`: the tombstone count of block 1 reaches 2 and `erase` calls
`delBlock` on the only block.  Returns the values the erased iterators `it3`, `it2`, `begin()`
and `it4` referenced, the blocks they tracked, the storage before the last erase and the
storage after it. -/
def reclaimOnlyBlockByErase :
    Except Fault (List Nat × List (Option Nat) × BucketStorage Nat × BucketStorage Nat) := do
  let s ← filled 2 [1, 2, 3, 4]
  let it2 ← advance s 1
  let it3 ← advance s 2
  let it4 ← advance s 3
  let (s1, _) ← erase s (begin s)
  let v3 ← Iterator.deref s1 it3
  let (s2, _) ← erase s1 it3
  let (s3, _) ← insert s2 5
  let v2 ← Iterator.deref s3 it2
  let (s4, _) ← erase s3 it2
  let v5 ← Iterator.deref s4 (begin s4)
  let (s5, _) ← erase s4 (begin s4)
  let v4 ← Iterator.deref s5 it4
  let (s6, _) ← erase s5 it4
  .ok ([v3, v2, v5, v4],
       [it3.current_block_, it2.current_block_, (begin s4).current_block_, it4.current_block_],
       s5, s6)

/-- Run `Storage s(3)`; insert 1, 2; erase the iterator to 2; erase `begin()`; then
`delBlock(head_block_)` called directly on the only block.  Returns the storage before and
after the call. -/
def reclaimOnlyBlockAfterErases : Except Fault (BucketStorage Nat × BucketStorage Nat) := do
  let s ← filled 3 [1, 2]
  let it ← advance s 1
  let r ← erase s it
  let r2 ← erase r.1 (begin r.1)
  let s1 ← delBlock r2.1 r2.1.head_block_
  .ok (r2.1, s1)

/-- Run `Storage s(3)`; insert 1, 2, 3; erase the iterator to 2; `s.shrink_to_fit()`. -/
def shrinkAfterErase : Except Fault (BucketStorage Nat) := do
  let s ← filled 3 [1, 2, 3]
  let it ← advance s 1
  let r ← erase s it
  shrink_to_fit 3 r.1

/-- The storage an `Except` result holds, or a storage without blocks when the run faulted. -/
def stateOf (x : Except Fault (BucketStorage Nat)) : BucketStorage Nat :=
  match x with
  | .ok s => s
  | .error _ =>
    { heap := [], last_deleting_ := Stack.new, head_block_ := none, tail_block_ := none,
      last_object_ := none, first_element_ := none, size_ := 0, block_capacity_ := 0,
      current_index_ := 0 }

/-- The storage and iterator an `Except` result holds (see `stateOf` for a faulted run). -/
def resultOf (x : Except Fault (BucketStorage Nat × Iterator)) : BucketStorage Nat × Iterator :=
  match x with
  | .ok r => r
  | .error _ => (stateOf (.error .fuel), ⟨none, none, 0, 0⟩)

/-- Storage `s(2)` as the constructor leaves it. -/
def emptyOfTwo : BucketStorage Nat := stateOf (construct 2)

/-- Storage `s(2)` after insert 1, with the iterator `insert` returned. -/
def oneOfTwo : BucketStorage Nat × Iterator := resultOf (insert emptyOfTwo 1)

/-- Storage `s(2)` after insert 1, 2, with the iterator the last `insert` returned. -/
def twoOfTwo : BucketStorage Nat × Iterator := resultOf (insert oneOfTwo.1 2)

/-- Storage `s(2)` after insert 1, 2, 3: a full block and a second block with one value. -/
def threeOfTwo : BucketStorage Nat × Iterator := resultOf (insert twoOfTwo.1 3)

/-- Storage `s(2)` after insert 1, 2, 3 and the erase of the iterator `insert(2)` returned:
the slot of 2 carries a tombstone, 1 and 3 are live. -/
def threeEraseSecond : BucketStorage Nat × Iterator :=
  resultOf (erase threeOfTwo.1 twoOfTwo.2)

/-- Storage `s(4)` after insert 1, 2, 3, 4: one full block. -/
def fourInOneBlock : BucketStorage Nat := stateOf (filled 4 [1, 2, 3, 4])

/-- Result of erasing the iterator to 2 (`begin()` advanced once) from `fourInOneBlock`. -/
def fourEraseSecond : BucketStorage Nat × Iterator :=
  resultOf (do
    let it ← advance fourInOneBlock 1
    erase fourInOneBlock it)

/-- Result of then erasing the iterator the first erase returned (it references 3). -/
def fourEraseThird : BucketStorage Nat × Iterator :=
  resultOf (erase fourEraseSecond.1 fourEraseSecond.2)

end Run

/-! ## Definitions used in the proofs -/

section ProofDefs

variable {α : Type}

open BucketStorage

/-- The element stored at an address, if the address lies inside an array. -/
def slot (h : Heap α) (p : EPtr) : Option (Element α) :=
  match h[p.blk]? with
  | none => none
  | some b => b.elements_[p.idx]?

/-- Replace the element at an address (nothing happens outside the arrays). -/
def putElem (h : Heap α) (p : EPtr) (e : Element α) : Heap α :=
  match h[p.blk]? with
  | none => h
  | some b => h.set p.blk { b with elements_ := b.elements_.set p.idx e }

/-- Two block cells that differ at most in the content of their elements. -/
def Block.SameHeader (b b1 : Block α) : Prop :=
  b1.next_ = b.next_ ∧ b1.previous_ = b.previous_ ∧ b1.deleted_cells_ = b.deleted_cells_ ∧
  b1.block_capacity_ = b.block_capacity_ ∧ b1.released = b.released ∧
  b1.elements_.length = b.elements_.length

/-- Two heaps with the same cells up to the content of elements. -/
def SameBlocks (h h1 : Heap α) : Prop :=
  h1.length = h.length ∧ ∀ (j : Nat) (b : Block α), h[j]? = some b → ∃ b1, h1[j]? = some b1 ∧ Block.SameHeader b b1

/-- The part of `insert` that follows the optional `addBlock`: the rest of `insertBody`
and the writes of `insert` itself, for cursor `ci` and block capacity `cap`. -/
def writeStep (ci cap : Nat) (s1 : BucketStorage α) (value : α) :
    Except Fault (BucketStorage α × Iterator) := do
  let s2 ← (match s1.first_element_ with
    | none => (elementAddr s1.heap s1.tail_block_ 0).map fun p =>
        { s1 with first_element_ := some p }
    | some _ => pure s1)
  let here ← elementAddr s2.heap s2.tail_block_ (ci % cap)
  let h1 ← updElem s2.heap (some here) fun e => { e with index_ := ci % cap }
  let h3 ← (if (ci % cap + 1) % cap ≠ 0 then
      (updElem h1 (some here) fun e => { e with next_ := some here.succ }) >>= fun h2 =>
        updElem h2 (some here.succ) fun e => { e with previous_ := some here }
    else pure h1)
  let here2 ← elementAddr h3 s2.tail_block_ (ci % cap)
  let h4 ← updElem h3 (some here2) fun e => { e with value_ := some value }
  let h5 ← updElem h4 (some here2) fun e => { e with is_active_ := true }
  .ok ({ s2 with heap := h5, last_object_ := some here,
                 current_index_ := (s2.current_index_ + 1) % wordSize,
                 size_ := (s2.size_ + 1) % wordSize },
       { current_node_ := some here2, current_block_ := s2.head_block_,
         block_capacity_ := s2.block_capacity_, current_position_ := 0 })

/-- Backward link an append gives the slot `(j, i)` of a storage with `c` slots per block. -/
def prevOf (c j i : Nat) : Option EPtr :=
  if i = 0 then (if j = 0 then none else some ⟨j - 1, c - 1⟩) else some ⟨j, i - 1⟩

/-- Content of slot `(j, i)` after the values `vs` were appended to a fresh storage, when
`m` blocks exist and `r` slots of the last one are in use. -/
def expElem (c : Nat) (vs : List α) (m r j i : Nat) : Element α :=
  if j + 1 < m ∨ i < r then
    { value_ := vs[j * c + i]?, is_active_ := true, index_ := i,
      next_ := if i + 1 < c then some ⟨j, i + 1⟩ else if j + 1 < m then some ⟨j + 1, 0⟩ else none,
      previous_ := prevOf c j i }
  else
    { value_ := none, is_active_ := false, index_ := 0, next_ := none,
      previous_ := if i = r then prevOf c j i else none }

/-- The state of a storage of block capacity `c` to which exactly the values `vs` were
appended: `m` blocks, `r` used slots in the last. -/
structure Shape (c : Nat) (vs : List α) (m r : Nat) (s : BucketStorage α) : Prop where
  hm : 1 ≤ m
  hr : r ≤ c
  hn : vs.length + c = m * c + r
  hlen : s.heap.length = m
  hblk : ∀ j, j < m → ∃ b, s.heap[j]? = some b ∧ b.released = false ∧
      b.next_ = (if j + 1 < m then some (j + 1) else none) ∧
      b.previous_ = (if j = 0 then none else some (j - 1)) ∧
      b.deleted_cells_ = Stack.new ∧ b.block_capacity_ = c ∧ b.elements_.length = c
  hslot : ∀ j i, j < m → i < c → slot s.heap ⟨j, i⟩ = some (expElem c vs m r j i)
  hld : s.last_deleting_ = Stack.new
  hhead : s.head_block_ = some 0
  htail : s.tail_block_ = some (m - 1)
  hlast : s.last_object_ =
    if vs.length = 0 then none else if r = 0 then some ⟨m - 2, c - 1⟩ else some ⟨m - 1, r - 1⟩
  hfirst : s.first_element_ = if vs.length = 0 then none else some ⟨0, 0⟩
  hsize : s.size_ = vs.length
  hcap : s.block_capacity_ = c
  hci : s.current_index_ = vs.length

/-- Every slot of `h` is still a slot of `h1`, with the same value and the same active flag. -/
def Keeps (h h1 : Heap α) : Prop :=
  ∀ q e, slot h q = some e →
    ∃ e1, slot h1 q = some e1 ∧ e1.value_ = e.value_ ∧ e1.is_active_ = e.is_active_

/-- A block pointer that is null or refers to a cell at position `B` or later. -/
def AboveB (B : Nat) (o : Option Nat) : Prop := ∀ i, o = some i → B ≤ i

/-- An element pointer that is null or points into the array of a cell at position `B` or
later. -/
def AboveP (B : Nat) (o : Option EPtr) : Prop := ∀ p, o = some p → B ≤ p.blk

/-- Both links of the element are null or point at position `B` or later. -/
def Element.Above (B : Nat) (e : Element α) : Prop := AboveP B e.next_ ∧ AboveP B e.previous_

/-- The three pointers of the tombstone are null or point at position `B` or later. -/
def DeletedCell.Above (B : Nat) (d : DeletedCell) : Prop :=
  AboveP B d.left_ ∧ AboveP B d.position_ ∧ AboveP B d.right_

/-- Every pointer stored in the block, in its elements and in its tombstones is null or points
at position `B` or later. -/
def Block.Above (B : Nat) (b : Block α) : Prop :=
  AboveB B b.next_ ∧ AboveB B b.previous_ ∧ (∀ e ∈ b.elements_, Element.Above B e) ∧
    ∀ d ∈ b.deleted_cells_.nodes, DeletedCell.Above B d

/-- The memory `h` starts with the cells `P`, unchanged, and no cell after them stores a
pointer into them. -/
def Sep (P h : Heap α) : Prop :=
  (∀ i, i < P.length → h[i]? = P[i]?) ∧
    ∀ j b, P.length ≤ j → h[j]? = some b → Block.Above P.length b

/-- The storage `s` lives in a memory that starts with the foreign cells `P` and holds no
pointer into them. -/
structure Owned (P : Heap α) (s : BucketStorage α) : Prop where
  mem : Sep P s.heap
  head : AboveB P.length s.head_block_
  tail : AboveB P.length s.tail_block_
  last : AboveP P.length s.last_object_
  firstElem : AboveP P.length s.first_element_
  stack : ∀ x ∈ s.last_deleting_.nodes, AboveB P.length x

/-- Both pointers of the iterator are null or point at position `B` or later. -/
def Iterator.Above (B : Nat) (it : Iterator) : Prop :=
  AboveP B it.current_node_ ∧ AboveB B it.current_block_

/-- The address `p` after every cell moved up by `B` positions. -/
def EPtr.shift (B : Nat) (p : EPtr) : EPtr := ⟨p.blk + B, p.idx⟩

/-- The element with both links moved up by `B` positions. -/
def Element.shift (B : Nat) (e : Element α) : Element α :=
  { e with next_ := e.next_.map (EPtr.shift B), previous_ := e.previous_.map (EPtr.shift B) }

/-- The tombstone with its three pointers moved up by `B` positions. -/
def DeletedCell.shift (B : Nat) (d : DeletedCell) : DeletedCell :=
  ⟨d.left_.map (EPtr.shift B), d.position_.map (EPtr.shift B), d.right_.map (EPtr.shift B)⟩

/-- The block with every pointer it stores moved up by `B` positions. -/
def Block.shift (B : Nat) (b : Block α) : Block α :=
  { b with next_ := b.next_.map fun i => i + B,
           previous_ := b.previous_.map fun i => i + B,
           elements_ := b.elements_.map (Element.shift B),
           deleted_cells_ := ⟨b.deleted_cells_.nodes.map (DeletedCell.shift B),
                              b.deleted_cells_.stale⟩ }

/-- The memory that holds the cells `P` followed by the cells of `h`, the latter with all
their pointers adjusted to the new positions. -/
def relocHeap (P h : Heap α) : Heap α := P ++ h.map (Block.shift P.length)

/-- The iterator with both pointers moved up by `B` positions. -/
def Iterator.shift (B : Nat) (it : Iterator) : Iterator :=
  { it with current_node_ := it.current_node_.map (EPtr.shift B),
            current_block_ := it.current_block_.map fun i => i + B }

/-- The storage `s` as it looks when its blocks are allocated after the foreign cells `P`,
and `size_` started `d` higher. -/
def reloc (P : Heap α) (d : Nat) (s : BucketStorage α) : BucketStorage α :=
  { heap := relocHeap P s.heap,
    last_deleting_ := ⟨s.last_deleting_.nodes.map fun o => o.map fun i => i + P.length,
                       s.last_deleting_.stale⟩,
    head_block_ := s.head_block_.map fun i => i + P.length,
    tail_block_ := s.tail_block_.map fun i => i + P.length,
    last_object_ := s.last_object_.map (EPtr.shift P.length),
    first_element_ := s.first_element_.map (EPtr.shift P.length),
    size_ := (s.size_ + d) % wordSize,
    block_capacity_ := s.block_capacity_,
    current_index_ := s.current_index_ }

/-- The first step of `writeStep`: set `first_element_` if it is still null. -/
def firstStep (s1 : BucketStorage α) : Except Fault (BucketStorage α) :=
  match s1.first_element_ with
  | none => (elementAddr s1.heap s1.tail_block_ 0).map fun p =>
      { s1 with first_element_ := some p }
  | some _ => pure s1

/-- The steps of `writeStep` that follow `firstStep`. -/
def writeTail (ci cap : Nat) (s2 : BucketStorage α) (value : α) :
    Except Fault (BucketStorage α × Iterator) := do
  let here ← elementAddr s2.heap s2.tail_block_ (ci % cap)
  let h1 ← updElem s2.heap (some here) fun e => { e with index_ := ci % cap }
  let h3 ← (if (ci % cap + 1) % cap ≠ 0 then
      (updElem h1 (some here) fun e => { e with next_ := some here.succ }) >>= fun h2 =>
        updElem h2 (some here.succ) fun e => { e with previous_ := some here }
    else pure h1)
  let here2 ← elementAddr h3 s2.tail_block_ (ci % cap)
  let h4 ← updElem h3 (some here2) fun e => { e with value_ := some value }
  let h5 ← updElem h4 (some here2) fun e => { e with is_active_ := true }
  .ok ({ s2 with heap := h5, last_object_ := some here,
                 current_index_ := (s2.current_index_ + 1) % wordSize,
                 size_ := (s2.size_ + 1) % wordSize },
       { current_node_ := some here2, current_block_ := s2.head_block_,
         block_capacity_ := s2.block_capacity_, current_position_ := 0 })

/-- The states a storage `t` can be brought to by `insert` and `erase` calls, together with
the iterators the caller has obtained on the way: `begin()`, `end()`, results of `++` and `--`
on iterators already held, and the results of `insert` and `erase`.  Each `erase` is applied
to an iterator already held. -/
inductive Mutated (t : BucketStorage α) : BucketStorage α → List Iterator → Prop
  | start : Mutated t t []
  | atBegin {t1 : BucketStorage α} {its : List Iterator} :
      Mutated t t1 its → Mutated t t1 (BucketStorage.begin t1 :: its)
  | atEnd {t1 : BucketStorage α} {its : List Iterator} :
      Mutated t t1 its → Mutated t t1 (BucketStorage.end_ t1 :: its)
  | step {t1 : BucketStorage α} {its : List Iterator} {it r : Iterator} :
      Mutated t t1 its → it ∈ its → Iterator.incr t1 it = .ok r → Mutated t t1 (r :: its)
  | back {t1 : BucketStorage α} {its : List Iterator} {it r : Iterator} :
      Mutated t t1 its → it ∈ its → Iterator.decr t1 it = .ok r → Mutated t t1 (r :: its)
  | ins {t1 t2 : BucketStorage α} {its : List Iterator} {v : α} {r : Iterator} :
      Mutated t t1 its → BucketStorage.insert t1 v = .ok (t2, r) → Mutated t t2 (r :: its)
  | del {t1 t2 : BucketStorage α} {its : List Iterator} {it r : Iterator} :
      Mutated t t1 its → it ∈ its → BucketStorage.erase t1 it = .ok (t2, r) →
      Mutated t t2 (r :: its)

/-- The values pushed and not yet popped after a sequence of calls that started with the
values `acc` (most recent first): a push puts its value in front, a pop removes the front
value if there is one. -/
def pendingFrom : List α → List (StackOp α) → List α
  | acc, [] => acc
  | acc, .push v :: ops => pendingFrom (v :: acc) ops
  | acc, .pop :: ops => pendingFrom acc.tail ops

/-- The values pushed and not yet popped after a sequence of calls on a new stack, most
recent first. -/
def pendingValues (ops : List (StackOp α)) : List α := pendingFrom [] ops

/-- Entry `i` of row `j` of a table. -/
def entry {β : Type} (L : List (List β)) (j i : Nat) : Option β :=
  match L[j]? with
  | none => none
  | some r => r[i]?

/-- Replace entry `i` of row `j` of a table (nothing happens outside the table). -/
def setEntry {β : Type} (L : List (List β)) (j i : Nat) (v : β) : List (List β) :=
  match L[j]? with
  | none => L
  | some r => L.set j (r.set i v)

/-- The fields of a block cell that link it to its neighbours, with its `released` mark. -/
structure Link where
  released : Bool
  next_ : Option Nat
  previous_ : Option Nat

/-- The link fields of a block cell. -/
def Block.link (b : Block α) : Link := ⟨b.released, b.next_, b.previous_⟩

/-- The tombstones a block cell holds, top first; a released cell holds none. -/
def Block.tombs (b : Block α) : List DeletedCell :=
  if b.released then [] else b.deleted_cells_.nodes

/-- The link fields of every block cell. -/
def linksOf (h : Heap α) : List Link := h.map Block.link

/-- The tombstones of every block cell. -/
def tombsOf (h : Heap α) : List (List DeletedCell) := h.map Block.tombs

/-- The active flag of every element of every array. -/
def actsOf (h : Heap α) : List (List Bool) := h.map fun b => b.elements_.map fun e => e.is_active_

/-- Some tombstone of the table names the slot `q`. -/
def NamedIn (T : List (List DeletedCell)) (q : EPtr) : Prop :=
  ∃ j i d, entry T j i = some d ∧ d.position_ = some q

/-- Tombstones and active flags agree: every tombstone names a slot that exists and is not
active, and no two tombstones name the same slot. -/
structure TombInv (T : List (List DeletedCell)) (A : List (List Bool)) : Prop where
  inactive : ∀ j i d, entry T j i = some d →
    ∃ q, d.position_ = some q ∧ entry A q.blk q.idx = some false
  unique : ∀ j i d j1 i1 d1, entry T j i = some d → entry T j1 i1 = some d1 →
    d.position_ = d1.position_ → j = j1 ∧ i = i1

/-- The slots of block `t` from offset `k` on are unused: not active and named by no
tombstone. -/
def RegionFree (T : List (List DeletedCell)) (A : List (List Bool)) (t k : Nat) : Prop :=
  ∀ i a, k ≤ i → entry A t i = some a → a = false ∧ ¬ NamedIn T ⟨t, i⟩

/-- The slots the append cursor will visit in the tail block are unused.  Nothing is said when
the cursor stands at the start of a block that still has to be allocated. -/
def CursorInv (T : List (List DeletedCell)) (A : List (List Bool)) (L : List Link)
    (tail : Option Nat) (ci cap : Nat) : Prop :=
  ∀ t l, tail = some t → L[t]? = some l → l.released = false →
    (ci % cap ≠ 0 ∨ ci / cap = 0) → RegionFree T A t (ci % cap)

/-- A block cell counts as linked forward when it is not released and has a next block. -/
def Link.counted (l : Link) : Bool := !l.released && l.next_.isSome

/-- Number of block cells that are linked forward. -/
def linked (L : List Link) : Nat := L.countP Link.counted

/-- The chain of blocks is consistent with the append cursor: a block's previous block points
back at it, previous pointers stay inside the store, the tail block has no next block, and the
cursor has passed at least one slot of a block for every forward link. -/
structure LinkInv (L : List Link) (tail : Option Nat) (ci cap : Nat) : Prop where
  back : ∀ (j : Nat) (y : Link) (p : Nat) (lp : Link), L[j]? = some y → y.released = false →
    y.previous_ = some p → L[p]? = some lp → lp.released = false → lp.next_ = some j
  inrange : ∀ (j : Nat) (y : Link) (p : Nat), L[j]? = some y → y.released = false →
    y.previous_ = some p → p < L.length
  last : ∀ (t : Nat) (l : Link), tail = some t → L[t]? = some l → l.released = false →
    l.next_ = none
  room : 1 ≤ linked L → cap * linked L + 1 ≤ ci

/-- Every block cell that is not released in `L1` was there and not released in `L`. -/
def StillOpen (L L1 : List Link) : Prop :=
  ∀ (t : Nat) (l1 : Link), L1[t]? = some l1 → l1.released = false →
    ∃ l : Link, L[t]? = some l ∧ l.released = false

/-- Consistency of a storage whose append cursor has been moved at most `n` times: tombstones
name distinct slots that are not active, the slots the cursor will visit in the tail block are
unused, and the chain of blocks agrees with the cursor. -/
structure Inv (n : Nat) (s : BucketStorage α) : Prop where
  cap_pos : 1 ≤ s.block_capacity_
  ci_le : s.current_index_ ≤ n
  tail_lt : ∀ t, s.tail_block_ = some t → t < s.heap.length
  tomb : TombInv (tombsOf s.heap) (actsOf s.heap)
  cursor : CursorInv (tombsOf s.heap) (actsOf s.heap) (linksOf s.heap) s.tail_block_
    s.current_index_ s.block_capacity_
  link : LinkInv (linksOf s.heap) s.tail_block_ s.current_index_ s.block_capacity_

/-- The states of a storage built by the constructor with block capacity `c` and then changed
by `n` calls, each one of `insert(v)`, `clear()`, or `erase(pos)` with an iterator `pos` whose
node is an active slot (whatever block the iterator tracks).  Only calls that return are
counted. -/
inductive Reached (c : Nat) : Nat → BucketStorage α → Prop
  | start {s : BucketStorage α} : construct c = .ok s → Reached c 0 s
  | afterInsert {n : Nat} {s s1 : BucketStorage α} {v : α} {it : Iterator} :
      Reached c n s → BucketStorage.insert s v = .ok (s1, it) → Reached c (n + 1) s1
  | afterErase {n : Nat} {s s1 : BucketStorage α} {pos r : Iterator} {e : Element α} :
      Reached c n s → elemAt s.heap pos.current_node_ = .ok e → e.is_active_ = true →
      BucketStorage.erase s pos = .ok (s1, r) → Reached c (n + 1) s1
  | afterClear {n : Nat} {s s1 : BucketStorage α} :
      Reached c n s → BucketStorage.clear s = .ok s1 → Reached c (n + 1) s1

end ProofDefs

/-! ## Theorems -/

section Lemmas

variable {α : Type}

open BucketStorage Run

theorem elemAt_eq (h : Heap α) (p : EPtr) :
    elemAt h (some p) = match slot h p with
      | some e => .ok e
      | none => .error .outOfBounds := by
  simp only [elemAt, slot]
  cases hb : h[p.blk]? with
  | none => rfl
  | some b =>
    simp only []
    cases he : b.elements_[p.idx]? <;> rfl

theorem elemAt_of_slot {h : Heap α} {p : EPtr} {e : Element α} (hs : slot h p = some e) :
    elemAt h (some p) = .ok e := by
  rw [elemAt_eq, hs]

theorem updElem_of_slot {h : Heap α} {p : EPtr} {e : Element α} (hs : slot h p = some e)
    (f : Element α → Element α) : updElem h (some p) f = .ok (putElem h p (f e)) := by
  unfold slot at hs
  unfold updElem putElem
  cases hb : h[p.blk]? with
  | none => simp [hb] at hs
  | some b =>
    simp only [hb] at hs ⊢
    simp [hs]

theorem length_putElem (h : Heap α) (p : EPtr) (e : Element α) :
    (putElem h p e).length = h.length := by
  unfold putElem
  cases h[p.blk]? <;> simp

theorem getElem?_putElem (h : Heap α) (p : EPtr) (e : Element α) (j : Nat) :
    (putElem h p e)[j]? = (h[j]?).map fun b =>
      if j = p.blk then { b with elements_ := b.elements_.set p.idx e } else b := by
  unfold putElem
  cases hb : h[p.blk]? with
  | none =>
    by_cases hj : j = p.blk
    · subst hj; simp [hb]
    · cases h[j]? <;> simp [hj]
  | some b =>
    by_cases hj : j = p.blk
    · subst hj
      have hlt : p.blk < h.length := by
        by_contra hc
        have := List.getElem?_eq_none (Nat.le_of_not_lt hc)
        rw [this] at hb; cases hb
      simp [hb, List.getElem?_set, hlt]
    · have hj2 : p.blk ≠ j := fun hh => hj hh.symm
      simp only [List.getElem?_set, hj2, if_false, if_neg hj]
      cases h[j]? <;> simp [hj]

theorem slot_putElem (h : Heap α) (p q : EPtr) (e : Element α) :
    slot (putElem h p e) q = if q = p then (slot h p).map (fun _ => e) else slot h q := by
  unfold slot
  rw [getElem?_putElem]
  cases hb : h[q.blk]? with
  | none =>
    by_cases hqp : q = p
    · subst hqp; simp [hb]
    · simp [hqp]
  | some b =>
    by_cases hqp : q = p
    · subst hqp
      simp only [Option.map_some', if_true, hb]
      simp [List.getElem?_set]
      cases hh : b.elements_[q.idx]? with
      | none =>
        have := List.getElem?_eq_none_iff.mp hh
        simp
        omega
      | some x =>
        have := (List.getElem?_eq_some_iff.mp hh).1
        simp [this]
    · simp only [Option.map_some', if_neg hqp]
      by_cases hblk : q.blk = p.blk
      · have hidx : p.idx ≠ q.idx := by
          intro hi; apply hqp; cases p; cases q; simp_all
        simp [hblk, List.getElem?_set, hidx]
      · simp [hblk]

theorem blockAt_of {h : Heap α} {j : Nat} {b : Block α} (hb : h[j]? = some b)
    (hr : b.released = false) : blockAt h (some j) = .ok b := by
  simp [blockAt, hb, hr]

theorem updBlock_of {h : Heap α} {j : Nat} {b : Block α} (hb : h[j]? = some b)
    (hr : b.released = false) (f : Block α → Block α) :
    updBlock h (some j) f = .ok (h.set j (f b)) := by
  simp [updBlock, hb, hr]

theorem elementAddr_of {h : Heap α} {j : Nat} {b : Block α} (hb : h[j]? = some b)
    (hr : b.released = false) (k : Nat) : elementAddr h (some j) k = .ok ⟨j, k⟩ := by
  simp [elementAddr, blockAt_of hb hr, bind, Except.bind]

theorem slot_set_of_elements {h : Heap α} {j : Nat} {b b1 : Block α} (hb : h[j]? = some b)
    (he : b1.elements_ = b.elements_) (q : EPtr) : slot (h.set j b1) q = slot h q := by
  unfold slot
  rw [List.getElem?_set]
  by_cases hq : j = q.blk
  · subst hq
    have hlt := (List.getElem?_eq_some_iff.mp hb).1
    simp [hlt, hb, he]
  · simp [hq]

theorem slot_append_left {h : Heap α} (q : EPtr) (hq : q.blk < h.length) (t : Heap α) :
    slot (h ++ t) q = slot h q := by
  unfold slot
  rw [List.getElem?_append_left hq]

theorem slot_append_new (h : Heap α) (b : Block α) (i : Nat) :
    slot (h ++ [b]) ⟨h.length, i⟩ = b.elements_[i]? := by
  unfold slot
  simp

theorem SameBlocks.refl (h : Heap α) : SameBlocks h h :=
  ⟨rfl, fun _ b hb => ⟨b, hb, rfl, rfl, rfl, rfl, rfl, rfl⟩⟩

theorem SameBlocks.trans {h h1 h2 : Heap α} (a : SameBlocks h h1) (b : SameBlocks h1 h2) :
    SameBlocks h h2 := by
  refine ⟨b.1.trans a.1, fun j blk hj => ?_⟩
  obtain ⟨b1, hb1, e1⟩ := a.2 j blk hj
  obtain ⟨b2, hb2, e2⟩ := b.2 j b1 hb1
  refine ⟨b2, hb2, ?_⟩
  obtain ⟨x1, x2, x3, x4, x5, x6⟩ := e1
  obtain ⟨y1, y2, y3, y4, y5, y6⟩ := e2
  exact ⟨y1.trans x1, y2.trans x2, y3.trans x3, y4.trans x4, y5.trans x5, y6.trans x6⟩

theorem sameBlocks_putElem (h : Heap α) (p : EPtr) (e : Element α) :
    SameBlocks h (putElem h p e) := by
  refine ⟨length_putElem h p e, fun j b hb => ?_⟩
  rw [getElem?_putElem, hb]
  by_cases hj : j = p.blk
  · exact ⟨{ b with elements_ := b.elements_.set p.idx e }, by simp [hj],
      rfl, rfl, rfl, rfl, rfl, by simp⟩
  · exact ⟨b, by simp [hj], rfl, rfl, rfl, rfl, rfl, rfl⟩

theorem updElem_eq (h : Heap α) (p : EPtr) (f : Element α → Element α) :
    updElem h (some p) f = match slot h p with
      | some e => .ok (putElem h p (f e))
      | none => .error .outOfBounds := by
  cases hs : slot h p with
  | some e => exact updElem_of_slot hs f
  | none =>
    simp only [updElem, slot] at hs ⊢
    cases hb : h[p.blk]? with
    | none => rfl
    | some b =>
      simp only [hb] at hs ⊢
      simp [hs]

theorem insert_eq_writeStep (s : BucketStorage α) (v : α) (hld : s.last_deleting_.empty = true)
    (hcap : s.block_capacity_ ≠ 0) :
    BucketStorage.insert s v =
      (if s.current_index_ / s.block_capacity_ > 0 ∧
          s.current_index_ % s.block_capacity_ = 0 then addBlock s else pure s) >>= fun s1 =>
      writeStep s.current_index_ s.block_capacity_ s1 v := by
  unfold BucketStorage.insert insertBody writeStep
  simp only [hld, Bool.not_true, if_neg hcap, Bool.false_eq_true, if_false, bind_assoc]
  rfl

theorem getElem?_of_sameBlocks {h h1 : Heap α} (hs : SameBlocks h h1) {j : Nat} {b : Block α}
    (hb : h[j]? = some b) (hr : b.released = false) :
    ∃ b1, h1[j]? = some b1 ∧ b1.released = false := by
  obtain ⟨b1, hb1, e⟩ := hs.2 j b hb
  exact ⟨b1, hb1, e.2.2.2.2.1.trans hr⟩

theorem elementAddr_putElem (h : Heap α) (p : EPtr) (e : Element α) (b : Option Nat) (k : Nat) :
    elementAddr (putElem h p e) b k = elementAddr h b k := by
  cases b with
  | none => rfl
  | some j =>
    simp only [elementAddr, blockAt, getElem?_putElem]
    cases h[j]? with
    | none => rfl
    | some blk =>
      by_cases hj : j = p.blk <;> cases hr : blk.released <;> simp [hj, hr, bind, Except.bind]

theorem writeStep_ok (s1 : BucketStorage α) (ci cap t : Nat) (v : α) (b : Block α)
    (e0 : Element α) (ht : s1.tail_block_ = some t) (hb : s1.heap[t]? = some b)
    (hrel : b.released = false) (he0 : slot s1.heap ⟨t, ci % cap⟩ = some e0)
    (hf0 : (ci % cap + 1) % cap ≠ 0 → ∃ f0, slot s1.heap ⟨t, ci % cap + 1⟩ = some f0) :
    ∃ H, writeStep ci cap s1 v = .ok
        ({ s1 with heap := H, first_element_ := some (s1.first_element_.getD ⟨t, 0⟩),
                   last_object_ := some ⟨t, ci % cap⟩,
                   current_index_ := (s1.current_index_ + 1) % wordSize,
                   size_ := (s1.size_ + 1) % wordSize },
         { current_node_ := some ⟨t, ci % cap⟩, current_block_ := s1.head_block_,
           block_capacity_ := s1.block_capacity_, current_position_ := 0 })
      ∧ SameBlocks s1.heap H
      ∧ ∀ q, slot H q =
          if q = ⟨t, ci % cap⟩ then
            some { e0 with value_ := some v, is_active_ := true, index_ := ci % cap,
                           next_ := if (ci % cap + 1) % cap ≠ 0 then some ⟨t, ci % cap + 1⟩
                                    else e0.next_ }
          else if q = ⟨t, ci % cap + 1⟩ ∧ (ci % cap + 1) % cap ≠ 0 then
            (slot s1.heap q).map fun f => { f with previous_ := some ⟨t, ci % cap⟩ }
          else slot s1.heap q := by
  obtain ⟨heap, ld, head, tail, last, fst, sz, bcap, cidx⟩ := s1
  simp only at ht hb he0 hf0
  subst ht
  unfold writeStep
  generalize ci % cap = k at he0 hf0 ⊢
  have hne : (⟨t, k + 1⟩ : EPtr) ≠ ⟨t, k⟩ := by simp
  by_cases hlink : (k + 1) % cap ≠ 0
  · obtain ⟨f0, hf⟩ := hf0 hlink
    cases fst with
    | none =>
      simp only [bind, Except.bind, Except.map, pure, Except.pure, elementAddr_putElem,
        elementAddr_of hb hrel, updElem_eq, he0, hf,
        slot_putElem, if_pos hlink, EPtr.succ, if_true, Option.map_some', if_neg hne.symm, if_neg hne]
      refine ⟨_, rfl, ?_, ?_⟩
      · exact ((((sameBlocks_putElem _ _ _).trans (sameBlocks_putElem _ _ _)).trans
          (sameBlocks_putElem _ _ _)).trans (sameBlocks_putElem _ _ _)).trans
          (sameBlocks_putElem _ _ _)
      · intro q
        simp only [slot_putElem, he0, hf, Option.map_some', if_neg hne.symm, if_neg hne, if_true]
        by_cases h1 : q = ⟨t, k⟩
        · simp [h1]
        · by_cases h2 : q = ⟨t, k + 1⟩
          · simp [h2, hlink, hf]
          · simp [h1, h2]
    | some p =>
      simp only [bind, Except.bind, Except.map, pure, Except.pure, elementAddr_putElem,
        elementAddr_of hb hrel, updElem_eq, he0, hf,
        slot_putElem, if_pos hlink, EPtr.succ, if_true, Option.map_some', if_neg hne.symm, if_neg hne]
      refine ⟨_, rfl, ?_, ?_⟩
      · exact ((((sameBlocks_putElem _ _ _).trans (sameBlocks_putElem _ _ _)).trans
          (sameBlocks_putElem _ _ _)).trans (sameBlocks_putElem _ _ _)).trans
          (sameBlocks_putElem _ _ _)
      · intro q
        simp only [slot_putElem, he0, hf, Option.map_some', if_neg hne.symm, if_neg hne, if_true]
        by_cases h1 : q = ⟨t, k⟩
        · simp [h1]
        · by_cases h2 : q = ⟨t, k + 1⟩
          · simp [h2, hlink, hf]
          · simp [h1, h2]
  · have hl2 : (k + 1) % cap = 0 := by simpa using hlink
    cases fst with
    | none =>
      simp only [bind, Except.bind, Except.map, pure, Except.pure, elementAddr_putElem,
        elementAddr_of hb hrel, updElem_eq, he0,
        slot_putElem, hl2, EPtr.succ, if_true, Option.map_some', ne_eq, not_true, if_false]
      refine ⟨_, rfl, ?_, ?_⟩
      · exact ((sameBlocks_putElem _ _ _).trans (sameBlocks_putElem _ _ _)).trans
          (sameBlocks_putElem _ _ _)
      · intro q
        simp only [slot_putElem, he0, Option.map_some', if_true]
        by_cases h1 : q = ⟨t, k⟩
        · simp [h1]
        · simp [h1]
    | some p =>
      simp only [bind, Except.bind, Except.map, pure, Except.pure, elementAddr_putElem,
        elementAddr_of hb hrel, updElem_eq, he0,
        slot_putElem, hl2, EPtr.succ, if_true, Option.map_some', ne_eq, not_true, if_false]
      refine ⟨_, rfl, ?_, ?_⟩
      · exact ((sameBlocks_putElem _ _ _).trans (sameBlocks_putElem _ _ _)).trans
          (sameBlocks_putElem _ _ _)
      · intro q
        simp only [slot_putElem, he0, Option.map_some', if_true]
        by_cases h1 : q = ⟨t, k⟩
        · simp [h1]
        · simp [h1]

theorem updBlock_hdr {h : Heap α} {j : Nat} {b : Block α} (hb : h[j]? = some b)
    (hr : b.released = false) (f : Block α → Block α)
    (hf : (f b).elements_ = b.elements_) :
    ∃ h1, updBlock h (some j) f = .ok h1 ∧ h1.length = h.length ∧
      (∀ q, slot h1 q = slot h q) ∧
      (∀ i : Nat, h1[i]? = if i = j then some (f b) else h[i]?) := by
  refine ⟨h.set j (f b), updBlock_of hb hr f, by simp, fun q => slot_set_of_elements hb hf q, ?_⟩
  intro i
  have hlt := (List.getElem?_eq_some_iff.mp hb).1
  by_cases hi : i = j
  · subst hi; simp [hlt]
  · have : j ≠ i := fun h => hi h.symm
    simp [List.getElem?_set, hi, this]

theorem slot_lt_length {h : Heap α} {p : EPtr} {e : Element α} (hp : slot h p = some e) :
    p.blk < h.length := by
  unfold slot at hp
  cases hpb : h[p.blk]? with
  | none => simp [hpb] at hp
  | some x => exact (List.getElem?_eq_some_iff.mp hpb).1

theorem slot_eq_none_of_le {h : Heap α} {p : EPtr} (hp : h.length ≤ p.blk) : slot h p = none := by
  unfold slot
  rw [List.getElem?_eq_none hp]

theorem addBlock_ok (s : BucketStorage α) (t : Nat) (b : Block α) (p : EPtr) (e : Element α)
    (hlast : s.last_object_ = some p) (hp : slot s.heap p = some e)
    (ht : s.tail_block_ = some t) (hb : s.heap[t]? = some b) (hrel : b.released = false)
    (hcap : 0 < s.block_capacity_) :
    ∃ H, addBlock s = .ok { s with heap := H, tail_block_ := some s.heap.length }
      ∧ H.length = s.heap.length + 1
      ∧ (∀ q, slot H q =
          if q = p then some { e with next_ := some ⟨s.heap.length, 0⟩ }
          else if q.blk = s.heap.length then
            (if q.idx = 0 then some ⟨none, false, 0, none, some p⟩
             else if q.idx < s.block_capacity_ then some Element.fresh else none)
          else slot s.heap q)
      ∧ (∀ (j : Nat) (b0 : Block α), s.heap[j]? = some b0 → ∃ b1, H[j]? = some b1 ∧
          b1.next_ = (if j = t then some s.heap.length else b0.next_) ∧
          b1.previous_ = b0.previous_ ∧ b1.deleted_cells_ = b0.deleted_cells_ ∧
          b1.block_capacity_ = b0.block_capacity_ ∧ b1.released = b0.released ∧
          b1.elements_.length = b0.elements_.length)
      ∧ (∃ bn, H[s.heap.length]? = some bn ∧ bn.next_ = none ∧ bn.previous_ = some t ∧
          bn.deleted_cells_ = Stack.new ∧ bn.block_capacity_ = s.block_capacity_ ∧
          bn.released = false ∧ bn.elements_.length = s.block_capacity_) := by
  obtain ⟨heap, ld, head, tail, last, fst, sz, bcap, cidx⟩ := s
  simp only at hlast hp ht hb hcap ⊢
  subst hlast ht
  have htL : t < heap.length := (List.getElem?_eq_some_iff.mp hb).1
  have hpL : p.blk < heap.length := slot_lt_length hp
  have hpne : p ≠ ⟨heap.length, 0⟩ := by
    intro h; rw [h] at hpL; simp at hpL
  have htne : t ≠ heap.length := Nat.ne_of_lt htL
  have s0 : slot (heap ++ [Block.fresh bcap]) ⟨heap.length, 0⟩
      = some (Element.fresh : Element α) := by
    rw [slot_append_new]
    simp [Block.fresh, List.getElem?_replicate, hcap]
  have s1 : slot (putElem (heap ++ [Block.fresh bcap]) ⟨heap.length, 0⟩
      ⟨none, false, 0, none, some p⟩) p = some e := by
    rw [slot_putElem, if_neg hpne, slot_append_left p hpL, hp]
  have hL : (heap ++ [Block.fresh bcap])[heap.length]? = some (Block.fresh bcap : Block α) := by
    simp
  have ht0 : (heap ++ [Block.fresh bcap])[t]? = some b := by
    rw [List.getElem?_append_left htL, hb]
  have SB : SameBlocks (heap ++ [Block.fresh bcap])
      (putElem (putElem (heap ++ [Block.fresh bcap]) ⟨heap.length, 0⟩
        ⟨none, false, 0, none, some p⟩) p { e with next_ := some ⟨heap.length, 0⟩ }) :=
    (sameBlocks_putElem _ _ _).trans (sameBlocks_putElem _ _ _)
  obtain ⟨bL, hbL, eL⟩ := SB.2 _ _ hL
  obtain ⟨bt, hbt, et⟩ := SB.2 _ _ ht0
  obtain ⟨h3, e3, len3, sl3, get3⟩ := updBlock_hdr hbL (eL.2.2.2.2.1.trans rfl)
    (fun b => { b with previous_ := some t }) rfl
  have hbt3 : h3[t]? = some bt := by rw [get3, if_neg htne, hbt]
  obtain ⟨h4, e4, len4, sl4, get4⟩ := updBlock_hdr hbt3 (et.2.2.2.2.1.trans hrel)
    (fun b => { b with next_ := some heap.length }) rfl
  have e1 : updElem (heap ++ [Block.fresh bcap]) (some ⟨heap.length, 0⟩)
      (fun e => { e with previous_ := some p })
      = .ok (putElem (heap ++ [Block.fresh bcap]) ⟨heap.length, 0⟩
        ⟨none, false, 0, none, some p⟩) := by
    rw [updElem_eq, s0]; rfl
  unfold addBlock
  simp only [bind, Except.bind, e1, updElem_eq, s1, e3, e4]
  refine ⟨h4, rfl, by simp [len4, len3, length_putElem], ?_, ?_, ?_⟩
  · intro q
    rw [sl4, sl3, slot_putElem, s1, slot_putElem, s0]
    by_cases hq : q = p
    · simp [hq]
    · simp only [if_neg hq]
      by_cases hqL : q.blk = heap.length
      · simp only [hqL, if_true]
        by_cases hq0 : q.idx = 0
        · have : q = ⟨heap.length, 0⟩ := by cases q; simp_all
          simp [this]
        · have : q ≠ ⟨heap.length, 0⟩ := by intro h; rw [h] at hq0; exact hq0 rfl
          simp only [if_neg this, if_neg hq0]
          have hq2 : q = ⟨heap.length, q.idx⟩ := by cases q; simp_all
          rw [hq2, slot_append_new]
          simp only [Block.fresh, List.getElem?_replicate]
      · have : q ≠ ⟨heap.length, 0⟩ := by intro h; rw [h] at hqL; exact hqL rfl
        simp only [if_neg this, if_neg hqL]
        by_cases hlt : q.blk < heap.length
        · exact slot_append_left q hlt _
        · rw [slot_eq_none_of_le (by simp; omega), slot_eq_none_of_le (by omega)]
  · intro j b0 hj
    have hjL : j < heap.length := (List.getElem?_eq_some_iff.mp hj).1
    have hj0 : (heap ++ [Block.fresh bcap])[j]? = some b0 := by
      rw [List.getElem?_append_left hjL, hj]
    obtain ⟨b1, hb1, e1⟩ := SB.2 _ _ hj0
    rw [get4, get3, if_neg (Nat.ne_of_lt hjL)]
    by_cases hjt : j = t
    · subst hjt
      rw [hbt] at hb1
      cases hb1
      exact ⟨{ bt with next_ := some heap.length }, by simp, by simp, e1.2.1, e1.2.2.1,
        e1.2.2.2.1, e1.2.2.2.2.1, e1.2.2.2.2.2⟩
    · exact ⟨b1, by simp [hjt, hb1], by simp [hjt, e1.1], e1.2.1, e1.2.2.1, e1.2.2.2.1,
        e1.2.2.2.2.1, e1.2.2.2.2.2⟩
  · refine ⟨{ bL with previous_ := some t }, ?_, ?_, rfl, ?_, ?_, ?_, ?_⟩
    · rw [get4, if_neg htne.symm, get3, if_pos rfl]
    · exact eL.1
    · exact eL.2.2.1
    · exact eL.2.2.2.1
    · exact eL.2.2.2.2.1
    · simpa [Block.fresh] using eL.2.2.2.2.2

theorem Shape.index_eq {c : Nat} {vs : List α} {m r : Nat} {s : BucketStorage α}
    (hS : Shape c vs m r s) : (m - 1) * c + r = vs.length := by
  have h1 := hS.hm
  have h2 := hS.hn
  obtain ⟨k, rfl⟩ : ∃ k, m = k + 1 := ⟨m - 1, by omega⟩
  rw [Nat.succ_mul] at h2
  simp only [Nat.add_sub_cancel]
  omega

theorem Shape.used_iff {c : Nat} {vs : List α} {m r : Nat} {s : BucketStorage α}
    (hS : Shape c vs m r s) {j i : Nat} (hj : j < m) (hi : i < c) :
    (j + 1 < m ∨ i < r) ↔ j * c + i < vs.length := by
  have h2 := hS.index_eq
  have hr := hS.hr
  by_cases hjm : j + 1 < m
  · have : (j + 1) * c ≤ (m - 1) * c := Nat.mul_le_mul_right c (by omega)
    rw [Nat.succ_mul] at this
    constructor
    · intro _; omega
    · intro _; exact Or.inl hjm
  · have hjeq : j = m - 1 := by omega
    subst hjeq
    constructor
    · rintro (h | h)
      · exact absurd h hjm
      · omega
    · intro h; right; omega

theorem Shape.mod_eq {c : Nat} {vs : List α} {m r : Nat} {s : BucketStorage α}
    (hS : Shape c vs m r s) (hr : r < c) : vs.length % c = r := by
  rw [← hS.index_eq, Nat.add_comm, Nat.add_mul_mod_self_right, Nat.mod_eq_of_lt hr]

theorem Shape.div_eq {c : Nat} {vs : List α} {m r : Nat} {s : BucketStorage α}
    (hS : Shape c vs m r s) (hr : r < c) : vs.length / c = m - 1 := by
  rw [← hS.index_eq, Nat.add_comm, Nat.add_mul_div_right _ _ (by omega),
    Nat.div_eq_of_lt hr, Nat.zero_add]

theorem Shape.writeStep {c : Nat} {vs : List α} {m r : Nat} {s : BucketStorage α}
    (hS : Shape c vs m r s) (hr : r < c) (hW : vs.length + 1 < wordSize) (v : α) :
    ∃ s1 it, Bucket.writeStep vs.length c s v = .ok (s1, it) ∧ Shape c (vs ++ [v]) m (r + 1) s1
      ∧ it.current_node_ = some ⟨m - 1, r⟩ ∧ it.current_block_ = some 0 := by
  have hm := hS.hm
  obtain ⟨b, hb, hrel, -⟩ := hS.hblk (m - 1) (by omega)
  have hk := hS.mod_eq hr
  have hidx := hS.index_eq
  have he0 := hS.hslot (m - 1) r (by omega) hr
  have hlinkiff : (r + 1) % c ≠ 0 ↔ r + 1 < c := by
    constructor
    · intro h
      by_contra hc
      have : r + 1 = c := by omega
      rw [this, Nat.mod_self] at h
      exact h rfl
    · intro h
      rw [Nat.mod_eq_of_lt h]; omega
  obtain ⟨H, hrun, hSB, hsl⟩ := writeStep_ok s vs.length c (m - 1) v b _ hS.htail hb hrel
    (by rw [hk]; exact he0)
    (by
      rw [hk]; intro h
      exact ⟨_, hS.hslot (m - 1) (r + 1) (by omega) (hlinkiff.mp h)⟩)
  rw [hk] at hrun hsl
  refine ⟨_, _, hrun, ?_, rfl, hS.hhead⟩
  have hn := hS.hn
  have hlen1 : (vs ++ [v]).length = vs.length + 1 := by simp
  refine
    { hm := hm, hr := hr, hn := by rw [hlen1]; omega, hlen := hSB.1.trans hS.hlen,
      hblk := ?_, hslot := ?_, hld := hS.hld, hhead := hS.hhead, htail := hS.htail,
      hlast := ?_, hfirst := ?_, hsize := ?_, hcap := hS.hcap, hci := ?_ }
  · intro j hj
    obtain ⟨b0, hb0, p1, p2, p3, p4, p5, p6⟩ := hS.hblk j hj
    obtain ⟨b1, hb1, q1, q2, q3, q4, q5, q6⟩ := hSB.2 j b0 hb0
    exact ⟨b1, hb1, q5.trans p1, q1.trans p2, q2.trans p3, q3.trans p4, q4.trans p5,
      q6.trans p6⟩
  · intro j i hj hi
    rw [hsl]
    by_cases h1 : (⟨j, i⟩ : EPtr) = ⟨m - 1, r⟩
    · have hj1 : j = m - 1 := by simpa using congrArg EPtr.blk h1
      have hi1 : i = r := by simpa using congrArg EPtr.idx h1
      subst hj1 hi1
      rw [if_pos rfl]
      simp only [expElem, Nat.lt_irrefl, or_false, Nat.lt_succ_self, or_true, if_true,
        hidx, List.getElem?_append_right (Nat.le_refl _), Nat.sub_self]
      have hjm : ¬ (m - 1 + 1 < m) := by omega
      simp only [hjm, if_false, List.getElem?_cons_zero, ite_not]
      by_cases hl : i + 1 < c
      · simp [hl, hlinkiff.mpr hl]
      · have : (i + 1) % c = 0 := by
          by_contra hc; exact hl (hlinkiff.mp hc)
        simp [hl, this]
    · rw [if_neg h1]
      by_cases h2 : (⟨j, i⟩ : EPtr) = ⟨m - 1, r + 1⟩ ∧ (r + 1) % c ≠ 0
      · obtain ⟨h2a, h2b⟩ := h2
        have hj1 : j = m - 1 := by simpa using congrArg EPtr.blk h2a
        have hi1 : i = r + 1 := by simpa using congrArg EPtr.idx h2a
        subst hj1 hi1
        rw [if_pos ⟨rfl, h2b⟩, hS.hslot _ _ hj hi]
        have hjm : ¬ (m - 1 + 1 < m) := by omega
        simp [expElem, hjm, prevOf]
      · rw [if_neg h2, hS.hslot _ _ hj hi]
        have hne : ¬ (j = m - 1 ∧ i = r) := by
          rintro ⟨rfl, rfl⟩; exact h1 rfl
        have hne2 : ¬ (j = m - 1 ∧ i = r + 1) := by
          rintro ⟨rfl, rfl⟩
          exact h2 ⟨rfl, hlinkiff.mpr hi⟩
        by_cases hu : j + 1 < m ∨ i < r
        · have hu2 : j + 1 < m ∨ i < r + 1 := by omega
          have hg := (hS.used_iff hj hi).mp hu
          simp only [expElem, if_pos hu, if_pos hu2, List.getElem?_append_left hg]
        · have hu2 : ¬ (j + 1 < m ∨ i < r + 1) := by omega
          have hir : i ≠ r := by omega
          have hir2 : i ≠ r + 1 := by omega
          simp only [expElem, if_neg hu, if_neg hu2, if_neg hir, if_neg hir2]
  · simp only [hlen1]
    simp
  · simp only [hlen1, hS.hfirst]
    by_cases h0 : vs.length = 0
    · have : m = 1 := by
        have h3 := hS.index_eq
        rw [h0] at h3
        have : (m - 1) * c = 0 := by omega
        rcases Nat.mul_eq_zero.mp this with h | h
        · omega
        · omega
      simp [h0, this]
    · simp [h0]
  · simp only [hlen1, hS.hsize]
    exact Nat.mod_eq_of_lt (by omega)
  · simp only [hlen1, hS.hci]
    exact Nat.mod_eq_of_lt (by omega)

theorem Shape.addBlock {c : Nat} {vs : List α} {m : Nat} {s : BucketStorage α}
    (hS : Shape c vs m c s) (hc : 1 ≤ c) :
    ∃ s1, BucketStorage.addBlock s = .ok s1 ∧ Shape c vs (m + 1) 0 s1
      ∧ s1.current_index_ = s.current_index_ ∧ s1.block_capacity_ = s.block_capacity_ := by
  have hm := hS.hm
  have hn := hS.hn
  have hidx := hS.index_eq
  have hpos : vs.length ≠ 0 := by omega
  have hc0 : c ≠ 0 := by omega
  obtain ⟨b, hb, hrel, -⟩ := hS.hblk (m - 1) (by omega)
  have hlast : s.last_object_ = some ⟨m - 1, c - 1⟩ := by
    rw [hS.hlast, if_neg hpos, if_neg hc0]
  have hp := hS.hslot (m - 1) (c - 1) (by omega) (by omega)
  obtain ⟨H, hrun, hlenH, hsl, hblks, bn, hbn, n1, n2, n3, n4, n5, n6⟩ :=
    addBlock_ok s (m - 1) b ⟨m - 1, c - 1⟩ _ hlast hp hS.htail hb hrel (by rw [hS.hcap]; omega)
  rw [hS.hlen] at hrun hlenH hsl hblks hbn
  refine ⟨_, hrun, ?_, rfl, rfl⟩
  refine
    { hm := by omega, hr := by omega, hn := by rw [Nat.succ_mul]; omega, hlen := hlenH,
      hblk := ?_, hslot := ?_, hld := hS.hld, hhead := hS.hhead, htail := by simp,
      hlast := ?_, hfirst := hS.hfirst, hsize := hS.hsize, hcap := hS.hcap, hci := hS.hci }
  · intro j hj
    by_cases hjm : j < m
    · obtain ⟨b0, hb0, p1, p2, p3, p4, p5, p6⟩ := hS.hblk j hjm
      obtain ⟨b1, hb1, q1, q2, q3, q4, q5, q6⟩ := hblks j b0 hb0
      refine ⟨b1, hb1, q5.trans p1, ?_, q2.trans p3, q3.trans p4, q4.trans p5, q6.trans p6⟩
      rw [q1, p2]
      by_cases hjt : j = m - 1
      · have : j + 1 < m + 1 := by omega
        simp only [hjt, if_true]
        rw [if_pos (by omega)]
        congr 1; omega
      · have h1 : j + 1 < m := by omega
        have h2 : j + 1 < m + 1 := by omega
        simp [hjt, h1, h2]
    · have hjeq : j = m := by omega
      subst hjeq
      refine ⟨bn, hbn, n5, ?_, ?_, n3, n4.trans hS.hcap, n6.trans hS.hcap⟩
      · simp [n1]
      · have : j ≠ 0 := by omega
        simp [n2, this]
  · intro j i hj hi
    rw [hsl]
    by_cases h1 : (⟨j, i⟩ : EPtr) = ⟨m - 1, c - 1⟩
    · have hj1 : j = m - 1 := by simpa using congrArg EPtr.blk h1
      have hi1 : i = c - 1 := by simpa using congrArg EPtr.idx h1
      subst hj1 hi1
      rw [if_pos rfl]
      have a1 : m - 1 + 1 < m + 1 := by omega
      have a2 : ¬ (m - 1 + 1 < m) := by omega
      have a3 : c - 1 < c := by omega
      have a4 : ¬ (c - 1 + 1 < c) := by omega
      have a5 : m - 1 + 1 = m := by omega
      simp [expElem, a1, a2, a3, a4, a5]
    · rw [if_neg h1]
      by_cases hjm : j = m
      · subst hjm
        simp only [if_true]
        have a1 : ¬ (j + 1 < j + 1) := by omega
        have a2 : j ≠ 0 := by omega
        by_cases hi0 : i = 0
        · subst hi0
          simp [expElem, prevOf, a2]
        · have hib : i < s.block_capacity_ := by rw [hS.hcap]; exact hi
          simp [expElem, hi0, hib, Element.fresh]
      · have hjlt : j < m := by omega
        simp only [if_neg hjm]
        rw [hS.hslot j i hjlt hi]
        have hu : j + 1 < m ∨ i < c := Or.inr hi
        have hu2 : j + 1 < m + 1 ∨ i < 0 := Or.inl (by omega)
        simp only [expElem, if_pos hu, if_pos hu2]
        by_cases hl : i + 1 < c
        · simp [hl]
        · have hjj : j + 1 < m := by
            by_contra hcon
            apply h1
            have : j = m - 1 := by omega
            have : i = c - 1 := by omega
            simp [*]
          have : j + 1 < m + 1 := by omega
          simp [hl, hjj, this]
  · rw [if_neg hpos, if_pos rfl, hlast]
    have : m + 1 - 2 = m - 1 := by omega
    rw [this]

theorem Shape.insert {c : Nat} {vs : List α} {m r : Nat} {s : BucketStorage α}
    (hS : Shape c vs m r s) (hnorm : 1 ≤ r ∨ vs.length = 0) (hc : 1 ≤ c)
    (hW : vs.length + 1 < wordSize) (v : α) :
    ∃ s1 it m1 r1, BucketStorage.insert s v = .ok (s1, it) ∧ Shape c (vs ++ [v]) m1 r1 s1
      ∧ 1 ≤ r1 ∧ it.current_node_ = some ⟨m1 - 1, r1 - 1⟩ ∧ it.current_block_ = some 0 := by
  have hld : s.last_deleting_.empty = true := by rw [hS.hld]; rfl
  have hcap : s.block_capacity_ ≠ 0 := by rw [hS.hcap]; omega
  rw [insert_eq_writeStep s v hld hcap, hS.hci, hS.hcap]
  have hr := hS.hr
  by_cases hfull : r = c
  · subst hfull
    have hidx := hS.index_eq
    have hm := hS.hm
    have hmod : vs.length % r = 0 := by
      rw [← hidx]
      have : (m - 1) * r + r = (m - 1 + 1) * r := by rw [Nat.succ_mul]
      rw [this, Nat.mul_mod_left]
    have hdiv : vs.length / r > 0 := by
      apply Nat.div_pos _ (by omega)
      rw [← hidx]; exact Nat.le_add_left _ _
    obtain ⟨s1, h1, hS1, -, -⟩ := hS.addBlock hc
    obtain ⟨s2, it, h2, hS2, hit, hib⟩ := hS1.writeStep (by omega) hW v
    refine ⟨s2, it, m + 1, 1, ?_, hS2, Nat.le_refl _, hit, hib⟩
    rw [if_pos ⟨hdiv, hmod⟩, h1]
    exact h2
  · have hrlt : r < c := by omega
    have hcond : ¬ (vs.length / c > 0 ∧ vs.length % c = 0) := by
      rintro ⟨h1, h2⟩
      rw [hS.mod_eq hrlt] at h2
      rcases hnorm with h | h
      · omega
      · rw [h] at h1; simp at h1
    obtain ⟨s2, it, h2, hS2, hit, hib⟩ := hS.writeStep hrlt hW v
    refine ⟨s2, it, m, r + 1, ?_, hS2, by omega, hit, hib⟩
    rw [if_neg hcond]
    exact h2

theorem shape_construct (c : Nat) (hc : 1 ≤ c) :
    ∃ s0 : BucketStorage α, construct c = .ok s0 ∧ Shape c [] 1 0 s0 := by
  have hc0 : c ≠ 0 := by omega
  refine ⟨_, by rw [construct, if_neg hc0], ?_⟩
  refine
    { hm := Nat.le_refl _, hr := Nat.zero_le _, hn := by simp, hlen := by simp [initializationContainer],
      hblk := ?_, hslot := ?_, hld := rfl, hhead := rfl, htail := rfl,
      hlast := rfl, hfirst := rfl, hsize := rfl, hcap := rfl, hci := rfl }
  · intro j hj
    have : j = 0 := by omega
    subst this
    exact ⟨Block.fresh c, by simp [initializationContainer], rfl, rfl, rfl, rfl, rfl,
      by simp [Block.fresh]⟩
  · intro j i hj hi
    have : j = 0 := by omega
    subst this
    simp [slot, initializationContainer, Block.fresh, List.getElem?_replicate, hi, expElem,
      Element.fresh, prevOf]
    split <;> simp_all

theorem Shape.insertAll {c : Nat} (hc : 1 ≤ c) (ws : List α) :
    ∀ {vs : List α} {m r : Nat} {s : BucketStorage α}, Shape c vs m r s →
      (1 ≤ r ∨ vs.length = 0) → vs.length + ws.length < wordSize →
      ∃ s1 m1 r1, BucketStorage.insertAll s ws = .ok s1 ∧ Shape c (vs ++ ws) m1 r1 s1 ∧
        (1 ≤ r1 ∨ (vs ++ ws).length = 0) := by
  induction ws with
  | nil =>
    intro vs m r s hS hnorm _
    exact ⟨s, m, r, rfl, by simpa using hS, by simpa using hnorm⟩
  | cons w ws ih =>
    intro vs m r s hS hnorm hW
    simp only [List.length_cons] at hW
    obtain ⟨s1, it, m1, r1, h1, hS1, hr1, -, -⟩ := hS.insert hnorm hc (by omega) w
    obtain ⟨s2, m2, r2, h2, hS2, hn2⟩ := ih hS1 (Or.inl hr1) (by simp; omega)
    refine ⟨s2, m2, r2, ?_, by simpa using hS2, by simpa using hn2⟩
    simp only [BucketStorage.insertAll, h1, bind, Except.bind]
    exact h2

theorem Shape.skipInactive {c : Nat} {vs : List α} {m r : Nat} {s : BucketStorage α}
    (hS : Shape c vs m r s) {j i : Nat} (hj : j < m) (hi : i < c) (f : Nat) :
    Iterator.skipInactive (f + 1) s.heap ⟨j, i⟩ = .ok ⟨j, i⟩ := by
  simp only [Iterator.skipInactive, elemAt_of_slot (hS.hslot j i hj hi), bind, Except.bind]
  by_cases hu : j + 1 < m ∨ i < r
  · simp only [expElem, if_pos hu]
    split <;> rfl
  · simp only [expElem, if_neg hu]

theorem Shape.incr {c : Nat} {vs : List α} {m r : Nat} {s : BucketStorage α}
    (hS : Shape c vs m r s) (hnorm : 1 ≤ r ∨ vs.length = 0) {j i : Nat} (hj : j < m)
    (hi : i < c) (hu : j * c + i < vs.length) (bc pos : Nat) :
    ∃ it1, Iterator.incr s ⟨some ⟨j, i⟩, some j, bc, pos⟩ = .ok it1 ∧
      ((j * c + i + 1 < vs.length ∧ ∃ j1 i1, j1 < m ∧ i1 < c ∧ j1 * c + i1 = j * c + i + 1 ∧
          it1 = ⟨some ⟨j1, i1⟩, some j1, bc, (pos + 1) % wordSize⟩)
       ∨ (j * c + i + 1 = vs.length ∧ it1.current_node_ = some ⟨m - 1, r⟩)) := by
  have hused := (hS.used_iff hj hi).mpr hu
  have hidx := hS.index_eq
  have hr := hS.hr
  have hr1 : 1 ≤ r := by
    rcases hnorm with h | h
    · exact h
    · omega
  obtain ⟨b, hb, hrel, hnext, -⟩ := hS.hblk j hj
  simp only [Iterator.incr, elemAt_of_slot (hS.hslot j i hj hi), bind, Except.bind]
  simp only [expElem, if_pos hused]
  by_cases hl : i + 1 < c
  · -- the successor is in the same block
    simp only [if_pos hl, hS.skipInactive hj hl, elemAt_of_slot (hS.hslot j (i + 1) hj hl)]
    by_cases hu1 : j + 1 < m ∨ i + 1 < r
    · have hlt := (hS.used_iff hj hl).mp hu1
      simp only [expElem, if_pos hu1, Nat.succ_ne_zero, if_false, pure, Except.pure]
      exact ⟨_, rfl, Or.inl ⟨by omega, j, i + 1, hj, hl, by omega, rfl⟩⟩
    · have hnlt := fun h => hu1 ((hS.used_iff hj hl).mpr h)
      have hjm : j = m - 1 := by omega
      have hir : i + 1 = r := by omega
      simp only [expElem, if_neg hu1, if_true, blockAt_of hb hrel, Except.map]
      subst hjm
      refine ⟨_, rfl, Or.inr ⟨by omega, ?_⟩⟩
      simp [hir]
  · simp only [if_neg hl]
    by_cases hjm : j + 1 < m
    · -- the successor is the first slot of the next block
      have hc0 : 0 < c := by omega
      have hmul : (j + 1) * c = j * c + c := Nat.succ_mul j c
      have hle : (j + 1) * c ≤ (m - 1) * c := Nat.mul_le_mul_right c (by omega)
      have hu1 : j + 1 + 1 < m ∨ 0 < r := Or.inr hr1
      simp only [if_pos hjm, hS.skipInactive hjm hc0, elemAt_of_slot (hS.hslot (j + 1) 0 hjm hc0),
        expElem, if_pos hu1, if_true, blockAt_of hb hrel, Except.map, hnext]
      exact ⟨_, rfl, Or.inl ⟨by omega, j + 1, 0, hjm, hc0, by omega, rfl⟩⟩
    · -- the slot is the last of the last block
      have hjeq : j = m - 1 := by omega
      have hir : i < r := by
        rcases hused with h | h
        · exact absurd h hjm
        · exact h
      simp only [if_neg hjm]
      subst hjeq
      refine ⟨_, rfl, Or.inr ⟨by omega, ?_⟩⟩
      simp only [EPtr.succ]
      congr 2
      omega

theorem Shape.end_current {c : Nat} {vs : List α} {m r : Nat} {s : BucketStorage α}
    (hS : Shape c vs m r s) (hr1 : 1 ≤ r) (hpos : vs.length ≠ 0) :
    Iterator.getCurrent s (end_ s) = (some (m - 1), r) := by
  have hr0 : r ≠ 0 := by omega
  simp only [Iterator.getCurrent, end_, hS.hlast, if_neg hpos, if_neg hr0]
  congr 1
  omega

theorem Shape.valuesFrom {c : Nat} {vs : List α} {m r : Nat} {s : BucketStorage α}
    (hS : Shape c vs m r s) (hnorm : 1 ≤ r ∨ vs.length = 0) (bc : Nat) :
    ∀ k j i pos fuel, j < m → i < c → j * c + i + k = vs.length → 1 ≤ k → k < fuel →
      BucketStorage.valuesFrom fuel s ⟨some ⟨j, i⟩, some j, bc, pos⟩ = .ok (vs.drop (j * c + i)) := by
  intro k
  induction k with
  | zero => intro j i pos fuel _ _ _ h; omega
  | succ k ih =>
    intro j i pos fuel hj hi hg _ hf
    have hu : j * c + i < vs.length := by omega
    have hpos : vs.length ≠ 0 := by omega
    have hr1 : 1 ≤ r := by
      rcases hnorm with h | h
      · exact h
      · omega
    have hused := (hS.used_iff hj hi).mpr hu
    obtain ⟨f, rfl⟩ : ∃ f, fuel = f + 1 := ⟨fuel - 1, by omega⟩
    have hne : Iterator.eq s ⟨some ⟨j, i⟩, some j, bc, pos⟩ (end_ s) = false := by
      simp only [Iterator.eq, hS.end_current hr1 hpos]
      simp only [Iterator.getCurrent, beq_eq_false_iff_ne, ne_eq, Prod.mk.injEq, Option.some.injEq,
        not_and]
      intro hjm hir
      subst hjm hir
      omega
    have hderef : Iterator.deref s ⟨some ⟨j, i⟩, some j, bc, pos⟩ = .ok vs[j * c + i] := by
      simp only [Iterator.deref, elemAt_of_slot (hS.hslot j i hj hi), bind, Except.bind, expElem,
        if_pos hused, List.getElem?_eq_getElem hu]
    obtain ⟨it1, hinc, hcase⟩ := hS.incr hnorm hj hi hu bc pos
    simp only [BucketStorage.valuesFrom, hne, Bool.false_eq_true, if_false, hderef, hinc, bind,
      Except.bind]
    rcases hcase with ⟨hlt, j1, i1, hj1, hi1, hg1, rfl⟩ | ⟨heq, hnode⟩
    · rw [ih j1 i1 _ f hj1 hi1 (by omega) (by omega) (by omega), hg1]
      simp only []
      rw [← List.drop_eq_getElem_cons hu]
    · obtain ⟨f1, rfl⟩ : ∃ f1, f = f1 + 1 := ⟨f - 1, by omega⟩
      have hend : Iterator.eq s it1 (end_ s) = true := by
        rw [Iterator.eq, hS.end_current hr1 hpos]
        simp [Iterator.getCurrent, hnode]
      simp only [BucketStorage.valuesFrom, hend, if_true]
      have hnil : vs.drop (j * c + i + 1) = [] := List.drop_eq_nil_of_le (by omega)
      rw [List.drop_eq_getElem_cons hu, hnil]

theorem Shape.values {c : Nat} {vs : List α} {m r : Nat} {s : BucketStorage α}
    (hS : Shape c vs m r s) (hnorm : 1 ≤ r ∨ vs.length = 0) (fuel : Nat)
    (hf : vs.length < fuel) : BucketStorage.values fuel s = .ok vs := by
  obtain ⟨f, rfl⟩ : ∃ f, fuel = f + 1 := ⟨fuel - 1, by omega⟩
  by_cases hpos : vs.length = 0
  · have hnil : vs = [] := List.eq_nil_of_length_eq_zero hpos
    subst hnil
    have : Iterator.eq s (begin s) (end_ s) = true := by
      simp [Iterator.eq, Iterator.getCurrent, begin, end_, hS.hfirst, hS.hlast]
    simp only [BucketStorage.values, BucketStorage.valuesFrom, this, if_true]
  · have hm := hS.hm
    have hc : 0 < c := by
      by_contra h
      have : c = 0 := by omega
      have h2 := hS.hn
      have h3 := hS.hr
      subst this
      simp at h2
      omega
    have hb : begin s = ⟨some ⟨0, 0⟩, some 0, s.block_capacity_, 0⟩ := by
      simp [begin, hS.hhead, hS.hfirst, hpos]
    rw [BucketStorage.values, hb]
    have := hS.valuesFrom hnorm s.block_capacity_ vs.length 0 0 0 (f + 1) (by omega) hc
      (by simp) (by omega) hf
    simpa using this

/-- Claim C1.  For every block capacity `c ≥ 1` and every list `vs` of values whose length is
a `size_type` value, constructing `Storage(c)` and inserting the values in order succeeds; in
the resulting storage `size()` is the length of `vs`, and the loop that starts at `begin()`,
dereferences and applies `++` until the iterator equals `end()` ends (for every bound on the
number of rounds above the length) having produced exactly `vs`, one value per `++`. -/
theorem C1_append_only_iteration (c : Nat) (hc : 1 ≤ c) (vs : List α)
    (hn : vs.length < wordSize) :
    ∃ s, (construct c >>= fun s0 => insertAll s0 vs) = .ok s ∧ size s = vs.length ∧
      ∀ fuel, vs.length < fuel → values fuel s = .ok vs := by
  obtain ⟨s0, h0, hS0⟩ := shape_construct (α := α) c hc
  obtain ⟨s, m, r, h1, hS, hnorm⟩ := hS0.insertAll hc vs (Or.inr rfl) (by simpa using hn)
  simp only [List.nil_append] at hS hnorm
  refine ⟨s, ?_, hS.hsize, fun fuel hf => hS.values hnorm fuel hf⟩
  simp only [h0, bind, Except.bind]
  exact h1

/-- Instance of C1 at block capacity 2 and the values 1, 2, 3. -/
theorem C1_append_only_iteration_witness :
    1 ≤ 2 ∧ [1, 2, 3].length < wordSize ∧
    ∃ s, (construct 2 >>= fun s0 => insertAll s0 [1, 2, 3]) = .ok s ∧ size s = [1, 2, 3].length ∧
      ∀ fuel, [1, 2, 3].length < fuel → values fuel s = .ok [1, 2, 3] :=
  ⟨by decide, by decide, C1_append_only_iteration 2 (by decide) [1, 2, 3] (by decide)⟩

theorem bind_ok {ε β γ : Type} {x : Except ε β} {f : β → Except ε γ} {c : γ}
    (h : (x >>= f) = .ok c) : ∃ a, x = .ok a ∧ f a = .ok c := by
  cases x with
  | error e => simp [bind, Except.bind] at h
  | ok a => exact ⟨a, rfl, h⟩

theorem map_ok {ε β γ : Type} {x : Except ε β} {f : β → γ} {c : γ}
    (h : x.map f = .ok c) : ∃ a, x = .ok a ∧ f a = c := by
  cases x with
  | error e => simp [Except.map] at h
  | ok a => exact ⟨a, rfl, by simpa [Except.map] using h⟩

theorem Keeps.same (h : Heap α) : Keeps h h := fun _ e hq => ⟨e, hq, rfl, rfl⟩

theorem Keeps.andThen {h h1 h2 : Heap α} (a : Keeps h h1) (b : Keeps h1 h2) : Keeps h h2 := by
  intro q e hq
  obtain ⟨e1, h1q, v1, a1⟩ := a q e hq
  obtain ⟨e2, h2q, v2, a2⟩ := b q e1 h1q
  exact ⟨e2, h2q, v2.trans v1, a2.trans a1⟩

theorem keeps_of_slot_eq {h h1 : Heap α} (hs : ∀ q, slot h1 q = slot h q) : Keeps h h1 :=
  fun q e hq => ⟨e, (hs q).trans hq, rfl, rfl⟩

theorem updElem_ok {h h1 : Heap α} {p : Option EPtr} {f : Element α → Element α}
    (hu : updElem h p f = .ok h1) :
    ∃ q e, p = some q ∧ slot h q = some e ∧ h1 = putElem h q (f e) := by
  cases p with
  | none => simp [updElem] at hu
  | some q =>
    rw [updElem_eq] at hu
    cases hs : slot h q with
    | none => simp [hs] at hu
    | some e =>
      simp only [hs, Except.ok.injEq] at hu
      exact ⟨q, e, rfl, hs, hu.symm⟩

theorem keeps_updElem {h h1 : Heap α} {p : Option EPtr} {f : Element α → Element α}
    (hu : updElem h p f = .ok h1)
    (hf : ∀ e, (f e).value_ = e.value_ ∧ (f e).is_active_ = e.is_active_) : Keeps h h1 := by
  obtain ⟨q, e, rfl, hs, rfl⟩ := updElem_ok hu
  intro r er hr
  rw [slot_putElem]
  by_cases hrq : r = q
  · subst hrq
    rw [hs] at hr
    cases hr
    exact ⟨f e, by simp [hs], (hf e).1, (hf e).2⟩
  · exact ⟨er, by simp [hrq, hr], rfl, rfl⟩

theorem updBlock_ok {h h1 : Heap α} {b : Option Nat} {f : Block α → Block α}
    (hu : updBlock h b f = .ok h1) :
    ∃ j blk, b = some j ∧ h[j]? = some blk ∧ blk.released = false ∧ h1 = h.set j (f blk) := by
  cases b with
  | none => simp [updBlock] at hu
  | some j =>
    simp only [updBlock] at hu
    cases hb : h[j]? with
    | none => simp [hb] at hu
    | some blk =>
      simp only [hb] at hu
      cases hr : blk.released with
      | true => simp [hr] at hu
      | false =>
        simp only [hr, Bool.false_eq_true, if_false, Except.ok.injEq] at hu
        exact ⟨j, blk, rfl, hb, hr, hu.symm⟩

theorem keeps_updBlock {h h1 : Heap α} {b : Option Nat} {f : Block α → Block α}
    (hu : updBlock h b f = .ok h1) (hf : ∀ x, (f x).elements_ = x.elements_) : Keeps h h1 := by
  obtain ⟨j, blk, rfl, hb, -, rfl⟩ := updBlock_ok hu
  exact keeps_of_slot_eq fun q => slot_set_of_elements hb (hf blk) q

theorem keeps_append (h t : Heap α) : Keeps h (h ++ t) := by
  intro q e hq
  exact ⟨e, by rw [slot_append_left q (slot_lt_length hq), hq], rfl, rfl⟩

theorem keeps_addBlock {s s1 : BucketStorage α} (h : addBlock s = .ok s1) :
    Keeps s.heap s1.heap := by
  unfold addBlock at h
  obtain ⟨h1, e1, h⟩ := bind_ok h
  obtain ⟨h2, e2, h⟩ := bind_ok h
  obtain ⟨h3, e3, h⟩ := bind_ok h
  obtain ⟨h4, e4, h⟩ := bind_ok h
  cases h
  exact ((((keeps_append _ _).andThen (keeps_updElem e1 fun _ => ⟨rfl, rfl⟩)).andThen
    (keeps_updElem e2 fun _ => ⟨rfl, rfl⟩)).andThen (keeps_updBlock e3 fun _ => rfl)).andThen
    (keeps_updBlock e4 fun _ => rfl)

theorem keeps_insertBody {s s1 : BucketStorage α} (h : insertBody s = .ok s1) :
    Keeps s.heap s1.heap := by
  unfold insertBody at h
  split at h
  · cases h
  · obtain ⟨a1, e1, h⟩ := bind_ok h
    obtain ⟨a2, e2, h⟩ := bind_ok h
    obtain ⟨here, e3, h⟩ := bind_ok h
    obtain ⟨h1, e4, h⟩ := bind_ok h
    obtain ⟨h3, e5, h⟩ := bind_ok h
    cases h
    have k1 : Keeps s.heap a1.heap := by
      split at e1
      · exact keeps_addBlock e1
      · cases e1; exact Keeps.same _
    have k2 : a2.heap = a1.heap := by
      split at e2
      · obtain ⟨p, -, hp⟩ := map_ok e2
        rw [← hp]
      · cases e2; rfl
    have k4 : Keeps a2.heap h1 := keeps_updElem e4 fun _ => ⟨rfl, rfl⟩
    have k5 : Keeps h1 h3 := by
      split at e5
      · obtain ⟨h2, e6, e7⟩ := bind_ok e5
        exact (keeps_updElem e6 fun _ => ⟨rfl, rfl⟩).andThen (keeps_updElem e7 fun _ => ⟨rfl, rfl⟩)
      · cases e5; exact Keeps.same _
    rw [k2] at k4
    exact (k1.andThen k4).andThen k5

theorem keeps_insertInDeletedCellBody {s : BucketStorage α} {r : BucketStorage α × Option EPtr}
    (h : insertInDeletedCellBody s = .ok r) : Keeps s.heap r.1.heap := by
  unfold insertInDeletedCellBody at h
  obtain ⟨tb, -, h⟩ := bind_ok h
  obtain ⟨ld, -, h⟩ := bind_ok h
  obtain ⟨blk, -, h⟩ := bind_ok h
  obtain ⟨cell, -, h⟩ := bind_ok h
  obtain ⟨dc, -, h⟩ := bind_ok h
  obtain ⟨h0, e0, h⟩ := bind_ok h
  obtain ⟨h1, e1, h⟩ := bind_ok h
  obtain ⟨h2, e2, h⟩ := bind_ok h
  obtain ⟨h3, e3, h⟩ := bind_ok h
  obtain ⟨h4, e4, h⟩ := bind_ok h
  cases h
  exact ((((keeps_updBlock e0 fun _ => rfl).andThen (keeps_updElem e1 fun _ => ⟨rfl, rfl⟩)).andThen
    (keeps_updElem e2 fun _ => ⟨rfl, rfl⟩)).andThen (keeps_updElem e3 fun _ => ⟨rfl, rfl⟩)).andThen
    (keeps_updElem e4 fun _ => ⟨rfl, rfl⟩)

/-- Writing the value and then the flag through the same pointer: the slot ends up holding
the value with the flag set, and no other slot changes. -/
theorem store_value_ok {h h1 h2 : Heap α} {p : Option EPtr} {v : α}
    (e1 : updElem h p (fun e => { e with value_ := some v }) = .ok h1)
    (e2 : updElem h1 p (fun e => { e with is_active_ := true }) = .ok h2) :
    ∃ q e2v, p = some q ∧ slot h2 q = some e2v ∧ e2v.value_ = some v ∧ e2v.is_active_ = true ∧
      ∀ r, r ≠ q → slot h2 r = slot h r := by
  obtain ⟨q, e, rfl, hs, rfl⟩ := updElem_ok e1
  obtain ⟨q1, e', hq, hs', rfl⟩ := updElem_ok e2
  cases hq
  rw [slot_putElem, if_pos rfl, hs] at hs'
  cases hs'
  refine ⟨q, { e with value_ := some v, is_active_ := true }, rfl, ?_, rfl, rfl, ?_⟩
  · rw [slot_putElem, if_pos rfl, slot_putElem, if_pos rfl, hs]
    rfl
  intro r hr
  simp [slot_putElem, hr]

theorem insert_frame {s s1 : BucketStorage α} {v : α} {it : Iterator}
    (h : BucketStorage.insert s v = .ok (s1, it)) :
    ∃ p e1, it.current_node_ = some p ∧ slot s1.heap p = some e1 ∧ e1.value_ = some v ∧
      e1.is_active_ = true ∧
      ∀ q e, q ≠ p → slot s.heap q = some e →
        ∃ e2, slot s1.heap q = some e2 ∧ e2.value_ = e.value_ ∧ e2.is_active_ = e.is_active_ := by
  unfold BucketStorage.insert at h
  split at h
  · unfold insertInDeletedCell at h
    obtain ⟨r, e0, h⟩ := bind_ok h
    obtain ⟨h1, e1, h⟩ := bind_ok h
    obtain ⟨h2, e2, h⟩ := bind_ok h
    cases h
    obtain ⟨q, ev, hq, hs, hv, ha, hframe⟩ := store_value_ok e1 e2
    refine ⟨q, ev, hq, hs, hv, ha, ?_⟩
    intro r' e hne hr
    obtain ⟨e3, h3, hv3, ha3⟩ := keeps_insertInDeletedCellBody e0 r' e hr
    exact ⟨e3, by simp only []; rw [hframe r' hne, h3], hv3, ha3⟩
  · obtain ⟨a1, e0, h⟩ := bind_ok h
    obtain ⟨here, e3, h⟩ := bind_ok h
    obtain ⟨h1, e1, h⟩ := bind_ok h
    obtain ⟨h2, e2, h⟩ := bind_ok h
    cases h
    obtain ⟨q, ev, hq, hs, hv, ha, hframe⟩ := store_value_ok e1 e2
    refine ⟨q, ev, hq, hs, hv, ha, ?_⟩
    intro r' e hne hr
    obtain ⟨e3, h3, hv3, ha3⟩ := keeps_insertBody e0 r' e hr
    exact ⟨e3, by simp only []; rw [hframe r' hne, h3], hv3, ha3⟩

theorem blockAt_ok {h : Heap α} {b : Option Nat} {blk : Block α} (hb : blockAt h b = .ok blk) :
    ∃ j, b = some j ∧ h[j]? = some blk ∧ blk.released = false := by
  cases b with
  | none => simp [blockAt] at hb
  | some j =>
    simp only [blockAt] at hb
    cases hj : h[j]? with
    | none => simp [hj] at hb
    | some x =>
      simp only [hj] at hb
      cases hr : x.released with
      | true => simp [hr] at hb
      | false =>
        simp only [hr, Bool.false_eq_true, if_false, Except.ok.injEq] at hb
        subst hb
        exact ⟨j, rfl, hj, hr⟩

theorem elemAt_ok {h : Heap α} {p : Option EPtr} {e : Element α} (he : elemAt h p = .ok e) :
    ∃ q, p = some q ∧ slot h q = some e := by
  cases p with
  | none => simp [elemAt] at he
  | some q =>
    rw [elemAt_eq] at he
    cases hs : slot h q with
    | none => simp [hs] at he
    | some x =>
      simp only [hs, Except.ok.injEq] at he
      subst he
      exact ⟨q, rfl, hs⟩

theorem sameBlocks_updElem {h h1 : Heap α} {p : Option EPtr} {f : Element α → Element α}
    (hu : updElem h p f = .ok h1) : SameBlocks h h1 := by
  obtain ⟨q, e, rfl, -, rfl⟩ := updElem_ok hu
  exact sameBlocks_putElem _ _ _

theorem slot_of_sameBlocks {h h1 : Heap α} (hs : SameBlocks h h1) {q : EPtr} {e : Element α}
    (hq : slot h q = some e) : ∃ e1, slot h1 q = some e1 := by
  unfold slot at hq ⊢
  cases hb : h[q.blk]? with
  | none => simp [hb] at hq
  | some b =>
    simp only [hb] at hq
    obtain ⟨b1, hb1, hh⟩ := hs.2 _ _ hb
    simp only [hb1]
    have hlt : q.idx < b.elements_.length := (List.getElem?_eq_some_iff.mp hq).1
    have hlt1 : q.idx < b1.elements_.length := by rw [hh.2.2.2.2.2]; exact hlt
    exact ⟨b1.elements_[q.idx], List.getElem?_eq_getElem hlt1⟩

/-- What `erase` leaves behind when it does not reclaim a block: the tracked block has one
more tombstone, `last_deleting_` has one more entry, and nothing else about the blocks
changes but the content of elements. -/
theorem erase_no_reclaim {s s1 : BucketStorage α} {pos r : Iterator}
    (h : erase s pos = .ok (s1, r))
    (hnr : ∀ (bi : Nat) (blk : Block α), pos.current_block_ = some bi → s.heap[bi]? = some blk →
      blk.deleted_cells_.size + 1 ≠ s.block_capacity_) :
    ∃ bi blk A e, pos.current_block_ = some bi ∧ s.heap[bi]? = some blk ∧ blk.released = false ∧
      pos.current_node_ = some A ∧ slot s.heap A = some e ∧
      s1.last_deleting_ = s.last_deleting_.add (some bi) ∧
      s1.block_capacity_ = s.block_capacity_ ∧
      SameBlocks (s.heap.set bi
        { blk with deleted_cells_ := blk.deleted_cells_.add ⟨e.previous_, some A, e.next_⟩ })
        s1.heap := by
  unfold erase at h
  obtain ⟨blk, eb, h⟩ := bind_ok h
  obtain ⟨e, ee, h⟩ := bind_ok h
  obtain ⟨h0, e0, h⟩ := bind_ok h
  obtain ⟨s2, e2, h⟩ := bind_ok h
  obtain ⟨h3, e3, h⟩ := bind_ok h
  obtain ⟨h4, e4, h⟩ := bind_ok h
  obtain ⟨pos1, e5, h⟩ := bind_ok h
  obtain ⟨blk1, e6, h⟩ := bind_ok h
  obtain ⟨bi, hbi, hblk, hrel⟩ := blockAt_ok eb
  obtain ⟨A, hA, hsA⟩ := elemAt_ok ee
  obtain ⟨j0, blk0, hj0, hb0, -, hh0⟩ := updBlock_ok e0
  rw [hbi] at hj0
  cases hj0
  rw [hblk] at hb0
  cases hb0
  -- the branch on `first_element_` only rewrites links
  have hs2 : SameBlocks h0 s2.heap ∧ s2.last_deleting_ = s.last_deleting_.add pos.current_block_
      ∧ s2.block_capacity_ = s.block_capacity_ := by
    split at e2
    · obtain ⟨h1, e21, e2⟩ := bind_ok e2
      obtain ⟨h2, e22, e2⟩ := bind_ok e2
      cases e2
      refine ⟨(sameBlocks_updElem e21).trans ?_, rfl, rfl⟩
      split at e22
      · exact sameBlocks_updElem e22
      · cases e22; exact SameBlocks.refl _
    · obtain ⟨h1, e21, e2⟩ := bind_ok e2
      cases e2
      exact ⟨sameBlocks_updElem e21, rfl, rfl⟩
  obtain ⟨hsb2, hld2, hcap2⟩ := hs2
  have hsb4 : SameBlocks h0 h4 :=
    (hsb2.trans (sameBlocks_updElem e3)).trans (sameBlocks_updElem e4)
  -- the tombstone count checked at the end is the old count plus one
  obtain ⟨j1, hj1, hblk1, -⟩ := blockAt_ok e6
  rw [hbi] at hj1
  cases hj1
  have hlt : bi < s.heap.length := (List.getElem?_eq_some_iff.mp hblk).1
  have hget0 : h0[bi]? = some ({ blk with
      deleted_cells_ := blk.deleted_cells_.add (DeletedCell.mk e.previous_ pos.current_node_ e.next_) }) := by
    rw [hh0]; simp [hlt]
  obtain ⟨b4, hb4, hh4⟩ := hsb4.2 _ _ hget0
  rw [hblk1] at hb4
  cases hb4
  have hsize : blk1.deleted_cells_.size ≠ s2.block_capacity_ := by
    rw [hh4.2.2.1, hcap2]
    have := hnr bi blk hbi hblk
    simpa [Stack.add, Stack.size, Nat.add_right_comm] using this
  rw [if_neg hsize] at h
  cases h
  refine ⟨bi, blk, A, e, hbi, hblk, hrel, hA, hsA, ?_, hcap2, ?_⟩
  · simp only []; rw [hld2, hbi]
  · simp only []
    rw [hA] at hh0
    rw [← hh0]
    exact hsb4

theorem updElem_exists {h : Heap α} {q : EPtr} (hq : ∃ e, slot h q = some e)
    (f : Element α → Element α) : ∃ h1, updElem h (some q) f = .ok h1 ∧ SameBlocks h h1 := by
  obtain ⟨e, he⟩ := hq
  exact ⟨_, updElem_of_slot he f, sameBlocks_putElem _ _ _⟩

theorem slot_set_deleted {h : Heap α} {j : Nat} {b : Block α} (hb : h[j]? = some b)
    (d : Stack DeletedCell) (q : EPtr) :
    slot (h.set j { b with deleted_cells_ := d }) q = slot h q := by
  apply slot_set_of_elements hb
  rfl

/-- The reuse path of `insert`, run forward: with a block on top of `last_deleting_` whose top
tombstone names three slots, insert returns an iterator to the tombstone's position and pops
both stacks. -/
theorem insert_reuse_ok (s : BucketStorage α) (v : α) (b : Nat) (blk : Block α)
    (l P rr : EPtr) (rest : List (Option Nat)) (rest1 : List DeletedCell)
    (hld : s.last_deleting_.nodes = some b :: rest)
    (hb : s.heap[b]? = some blk) (hrel : blk.released = false)
    (hdc : blk.deleted_cells_.nodes = ⟨some l, some P, some rr⟩ :: rest1)
    (hl : ∃ e, slot s.heap l = some e) (hr : ∃ e, slot s.heap rr = some e)
    (hP : ∃ e, slot s.heap P = some e) :
    ∃ s1 it, BucketStorage.insert s v = .ok (s1, it) ∧ it.current_node_ = some P ∧
      s1.last_deleting_ = { s.last_deleting_ with nodes := rest } ∧
      s1.block_capacity_ = s.block_capacity_ ∧
      SameBlocks (s.heap.set b
        { blk with deleted_cells_ := { blk.deleted_cells_ with nodes := rest1 } }) s1.heap := by
  have hempty : s.last_deleting_.empty = false := by
    simp [Stack.empty, Stack.size, hld]
  have htop : s.last_deleting_.top = .ok (some b) := by simp [Stack.top, hld]
  have hpop : s.last_deleting_.pop = .ok { s.last_deleting_ with nodes := rest } := by
    simp [Stack.pop, hld]
  have htop1 : blk.deleted_cells_.top = .ok ⟨some l, some P, some rr⟩ := by
    simp [Stack.top, hdc]
  have hpop1 : blk.deleted_cells_.pop = .ok { blk.deleted_cells_ with nodes := rest1 } := by
    simp [Stack.pop, hdc]
  have hu0 := updBlock_of hb hrel
    (fun x => { x with deleted_cells_ := { blk.deleted_cells_ with nodes := rest1 } })
  generalize hH0 : s.heap.set b
    { blk with deleted_cells_ := { blk.deleted_cells_ with nodes := rest1 } } = H0 at hu0 ⊢
  have hl0 : ∃ e, slot H0 l = some e := by rw [← hH0, slot_set_deleted hb]; exact hl
  have hr0 : ∃ e, slot H0 rr = some e := by rw [← hH0, slot_set_deleted hb]; exact hr
  have hP0 : ∃ e, slot H0 P = some e := by rw [← hH0, slot_set_deleted hb]; exact hP
  obtain ⟨h1, e1, sb1⟩ := updElem_exists hl0 (fun e => { e with next_ := some P })
  have hr1 : ∃ e, slot h1 rr = some e := by
    obtain ⟨e, he⟩ := hr0; exact slot_of_sameBlocks sb1 he
  have hP1 : ∃ e, slot h1 P = some e := by
    obtain ⟨e, he⟩ := hP0; exact slot_of_sameBlocks sb1 he
  obtain ⟨h2, e2, sb2⟩ := updElem_exists hr1 (fun e => { e with previous_ := some P })
  have hP2 : ∃ e, slot h2 P = some e := by
    obtain ⟨e, he⟩ := hP1; exact slot_of_sameBlocks sb2 he
  obtain ⟨h3, e3, sb3⟩ := updElem_exists hP2 (fun e => { e with previous_ := some l })
  have hP3 : ∃ e, slot h3 P = some e := by
    obtain ⟨e, he⟩ := hP2; exact slot_of_sameBlocks sb3 he
  obtain ⟨h4, e4, sb4⟩ := updElem_exists hP3 (fun e => { e with next_ := some l })
  have hP4 : ∃ e, slot h4 P = some e := by
    obtain ⟨e, he⟩ := hP3; exact slot_of_sameBlocks sb4 he
  obtain ⟨h5, e5, sb5⟩ := updElem_exists hP4 (fun e => { e with value_ := some v })
  have hP5 : ∃ e, slot h5 P = some e := by
    obtain ⟨e, he⟩ := hP4; exact slot_of_sameBlocks sb5 he
  obtain ⟨h6, e6, sb6⟩ := updElem_exists hP5 (fun e => { e with is_active_ := true })
  refine ⟨{ s with heap := h6, last_deleting_ := { s.last_deleting_ with nodes := rest } },
    ⟨some P, s.head_block_, s.block_capacity_, 0⟩, ?_, rfl, rfl, rfl,
    ((((sb1.trans sb2).trans sb3).trans sb4).trans sb5).trans sb6⟩
  unfold BucketStorage.insert
  simp only [hempty, Bool.not_false, if_true, insertInDeletedCell, insertInDeletedCellBody, htop,
    hpop, blockAt_of hb hrel, htop1, hpop1, hu0, e1, e2, e3, e4, e5, e6, bind, Except.bind]

theorem blocks_after_set {h h1 : Heap α} {bi : Nat} {blk : Block α} (X : Block α)
    (hb : h[bi]? = some blk) (hs : SameBlocks (h.set bi X) h1) (j : Nat) (b0 : Block α)
    (hj : h[j]? = some b0) :
    ∃ b1, h1[j]? = some b1 ∧ b1.released = (if j = bi then X.released else b0.released) ∧
      b1.deleted_cells_ = (if j = bi then X.deleted_cells_ else b0.deleted_cells_) := by
  have hlt : bi < h.length := (List.getElem?_eq_some_iff.mp hb).1
  by_cases hji : j = bi
  · subst hji
    obtain ⟨b1, hb1, hh⟩ := hs.2 j X (by simp [hlt])
    exact ⟨b1, hb1, by simp [hh.2.2.2.2.1], by simp [hh.2.2.1]⟩
  · have hne : bi ≠ j := fun h => hji h.symm
    obtain ⟨b1, hb1, hh⟩ := hs.2 j b0 (by simp [List.getElem?_set, hne, hj])
    exact ⟨b1, hb1, by simp [hji, hh.2.2.2.2.1], by simp [hji, hh.2.2.1]⟩

theorem slots_after_set {h h1 : Heap α} {bi : Nat} {blk : Block α} (d : Stack DeletedCell)
    (hb : h[bi]? = some blk) (hs : SameBlocks (h.set bi { blk with deleted_cells_ := d }) h1)
    {q : EPtr} (hq : ∃ e, slot h q = some e) : ∃ e, slot h1 q = some e := by
  obtain ⟨e, he⟩ := hq
  rw [← slot_set_deleted hb d] at he
  exact slot_of_sameBlocks hs he

/-- Claim C5.  Let `A` and `B` be distinct slots whose backward and forward links reference
slots when they are erased.  If `erase` of an iterator to `A` and then `erase` of an iterator
to `B` both return and neither brings its block to `block_capacity_` tombstones (no block is
reclaimed), then `insert(x)` returns an iterator to `B`, which holds `x`, and the following
`insert(y)` returns an iterator to `A`, which holds `y`, while `B` still holds `x`. -/
theorem C5_lifo_slot_reuse (s s1 s2 : BucketStorage α) (itA itB rA rB : Iterator)
    (A B la ra lb rb : EPtr) (eA eB : Element α) (x y : α)
    (hA : itA.current_node_ = some A) (hB : itB.current_node_ = some B) (hAB : A ≠ B)
    (hsA : slot s.heap A = some eA) (hAl : eA.previous_ = some la) (hAr : eA.next_ = some ra)
    (hla : ∃ e, slot s.heap la = some e) (hra : ∃ e, slot s.heap ra = some e)
    (hnrA : ∀ (bi : Nat) (blk : Block α), itA.current_block_ = some bi →
      s.heap[bi]? = some blk → blk.deleted_cells_.size + 1 ≠ s.block_capacity_)
    (heA : erase s itA = .ok (s1, rA))
    (hsB : slot s1.heap B = some eB) (hBl : eB.previous_ = some lb) (hBr : eB.next_ = some rb)
    (hlb : ∃ e, slot s1.heap lb = some e) (hrb : ∃ e, slot s1.heap rb = some e)
    (hnrB : ∀ (bi : Nat) (blk : Block α), itB.current_block_ = some bi →
      s1.heap[bi]? = some blk → blk.deleted_cells_.size + 1 ≠ s1.block_capacity_)
    (heB : erase s1 itB = .ok (s2, rB)) :
    ∃ s3 i1 s4 i2,
      BucketStorage.insert s2 x = .ok (s3, i1) ∧ i1.current_node_ = some B ∧
      (∃ e, slot s3.heap B = some e ∧ e.value_ = some x ∧ e.is_active_ = true) ∧
      BucketStorage.insert s3 y = .ok (s4, i2) ∧ i2.current_node_ = some A ∧
      (∃ e, slot s4.heap A = some e ∧ e.value_ = some y ∧ e.is_active_ = true) ∧
      (∃ e, slot s4.heap B = some e ∧ e.value_ = some x ∧ e.is_active_ = true) := by
  -- the first erase
  obtain ⟨bA, blkA, A1, eA1, hbA, hblkA, hrelA, hA1, hsA1, hld1, -, SBA⟩ :=
    erase_no_reclaim heA hnrA
  rw [hA] at hA1; cases hA1
  rw [hsA] at hsA1; cases hsA1
  rw [hAl, hAr] at SBA
  -- the second erase
  obtain ⟨bB, blkB, B1, eB1, hbB, hblkB, hrelB, hB1, hsB1, hld2, -, SBB⟩ :=
    erase_no_reclaim heB hnrB
  rw [hB] at hB1; cases hB1
  rw [hsB] at hsB1; cases hsB1
  rw [hBl, hBr] at SBB
  -- block `bA` after the first erase
  obtain ⟨b1A, hb1A, hrel1A, hdc1A⟩ := blocks_after_set _ hblkA SBA bA blkA hblkA
  simp only [if_true] at hrel1A hdc1A
  -- block `bB` after the second erase
  obtain ⟨b2B, hb2B, hrel2B, hdc2B⟩ := blocks_after_set _ hblkB SBB bB blkB hblkB
  simp only [if_true] at hrel2B hdc2B
  -- block `bA` after the second erase
  obtain ⟨b2A, hb2A, hrel2A, hdc2A⟩ := blocks_after_set _ hblkB SBB bA b1A hb1A
  simp only [] at hrel2A hdc2A
  -- slots after the erases
  have hA1s : ∃ e, slot s1.heap A = some e := slots_after_set _ hblkA SBA ⟨_, hsA⟩
  have hla1 : ∃ e, slot s1.heap la = some e := slots_after_set _ hblkA SBA hla
  have hra1 : ∃ e, slot s1.heap ra = some e := slots_after_set _ hblkA SBA hra
  have hA2 : ∃ e, slot s2.heap A = some e := slots_after_set _ hblkB SBB hA1s
  have hla2 : ∃ e, slot s2.heap la = some e := slots_after_set _ hblkB SBB hla1
  have hra2 : ∃ e, slot s2.heap ra = some e := slots_after_set _ hblkB SBB hra1
  have hB2 : ∃ e, slot s2.heap B = some e := slots_after_set _ hblkB SBB ⟨_, hsB⟩
  have hlb2 : ∃ e, slot s2.heap lb = some e := slots_after_set _ hblkB SBB hlb
  have hrb2 : ∃ e, slot s2.heap rb = some e := slots_after_set _ hblkB SBB hrb
  -- insert(x) pops the tombstone of `B`
  obtain ⟨s3, i1, hi1, hn1, hld3, -, SB3⟩ := insert_reuse_ok s2 x bB b2B lb B rb
    s1.last_deleting_.nodes blkB.deleted_cells_.nodes
    (by rw [hld2]; rfl) hb2B (by rw [hrel2B]; exact hrelB) (by rw [hdc2B]; rfl) hlb2 hrb2 hB2
  obtain ⟨p1, e1, hp1, hs1, hv1, ha1, -⟩ := insert_frame hi1
  rw [hn1] at hp1; cases hp1
  -- block `bA` after insert(x)
  obtain ⟨b3A, hb3A, hrel3A, hdc3A⟩ := blocks_after_set _ hb2B SB3 bA b2A hb2A
  simp only [] at hrel3A hdc3A
  have hrel3 : b3A.released = false := by
    rw [hrel3A]
    split
    · rw [hrel2B]; exact hrelB
    · rw [hrel2A]; split
      · exact hrelB
      · exact hrel1A.trans hrelA
  have hnodes3 : b3A.deleted_cells_.nodes = ⟨some la, some A, some ra⟩ :: blkA.deleted_cells_.nodes := by
    rw [hdc3A]
    by_cases hAB' : bA = bB
    · subst hAB'
      rw [hblkB] at hb1A
      cases hb1A
      simp only [if_true, hdc1A]
      rfl
    · simp only [if_neg hAB'] at hdc2A ⊢
      rw [hdc2A, hdc1A]
      rfl
  have hA3 : ∃ e, slot s3.heap A = some e := slots_after_set _ hb2B SB3 hA2
  have hla3 : ∃ e, slot s3.heap la = some e := slots_after_set _ hb2B SB3 hla2
  have hra3 : ∃ e, slot s3.heap ra = some e := slots_after_set _ hb2B SB3 hra2
  -- insert(y) pops the tombstone of `A`
  obtain ⟨s4, i2, hi2, hn2, -, -, -⟩ := insert_reuse_ok s3 y bA b3A la A ra
    s.last_deleting_.nodes blkA.deleted_cells_.nodes
    (by rw [hld3, hld1]; rfl) hb3A hrel3 hnodes3 hla3 hra3 hA3
  obtain ⟨p2, e2, hp2, hs2, hv2, ha2, hframe2⟩ := insert_frame hi2
  rw [hn2] at hp2; cases hp2
  obtain ⟨e3, hs3, hv3, ha3⟩ := hframe2 B e1 (fun h => hAB h.symm) hs1
  exact ⟨s3, i1, s4, i2, hi1, hn1, ⟨e1, hs1, hv1, ha1⟩, hi2, hn2, ⟨e2, hs2, hv2, ha2⟩,
    ⟨e3, hs3, hv3.trans hv1, ha3.trans ha1⟩⟩

/-- Instance of C5: in `Storage s(4)` holding 1, 2, 3, 4, erase the slot of 2 (block 0 index 1,
through `begin()` advanced once), then the slot of 3 (block 0 index 2, through the iterator the
first erase returned); insert 7 lands in the slot of 3 and insert 8 in the slot of 2. -/
theorem C5_lifo_slot_reuse_witness :
    advance fourInOneBlock 1 = .ok ⟨some ⟨0, 1⟩, some 0, 4, 1⟩ ∧
    erase fourInOneBlock ⟨some ⟨0, 1⟩, some 0, 4, 1⟩ = .ok fourEraseSecond ∧
    erase fourEraseSecond.1 fourEraseSecond.2 = .ok fourEraseThird ∧
    ∃ s3 i1 s4 i2,
      BucketStorage.insert fourEraseThird.1 7 = .ok (s3, i1) ∧ i1.current_node_ = some ⟨0, 2⟩ ∧
      (∃ e, slot s3.heap ⟨0, 2⟩ = some e ∧ e.value_ = some 7 ∧ e.is_active_ = true) ∧
      BucketStorage.insert s3 8 = .ok (s4, i2) ∧ i2.current_node_ = some ⟨0, 1⟩ ∧
      (∃ e, slot s4.heap ⟨0, 1⟩ = some e ∧ e.value_ = some 8 ∧ e.is_active_ = true) ∧
      (∃ e, slot s4.heap ⟨0, 2⟩ = some e ∧ e.value_ = some 7 ∧ e.is_active_ = true) := by
  refine ⟨by decide, by decide, by decide, ?_⟩
  refine C5_lifo_slot_reuse fourInOneBlock fourEraseSecond.1 fourEraseThird.1
    ⟨some ⟨0, 1⟩, some 0, 4, 1⟩ fourEraseSecond.2 fourEraseSecond.2 fourEraseThird.2
    ⟨0, 1⟩ ⟨0, 2⟩ ⟨0, 0⟩ ⟨0, 2⟩ ⟨0, 0⟩ ⟨0, 3⟩
    ⟨some 2, true, 1, some ⟨0, 2⟩, some ⟨0, 0⟩⟩ ⟨some 3, true, 2, some ⟨0, 3⟩, some ⟨0, 0⟩⟩ 7 8
    rfl (by decide) (by decide) (by decide) rfl rfl
    ⟨⟨some 1, true, 0, some ⟨0, 1⟩, none⟩, by decide⟩
    ⟨⟨some 3, true, 2, some ⟨0, 3⟩, some ⟨0, 1⟩⟩, by decide⟩ ?_ (by decide) (by decide) rfl rfl
    ⟨⟨some 1, true, 0, some ⟨0, 2⟩, none⟩, by decide⟩
    ⟨⟨some 4, true, 3, none, some ⟨0, 2⟩⟩, by decide⟩ ?_ (by decide)
  · intro bi blk h1 h2
    cases h1
    have h3 : (fourInOneBlock.heap[0]?).map (fun b => b.deleted_cells_.size) = some 0 := by
      decide
    rw [h2] at h3
    have h4 : blk.deleted_cells_.size = 0 := by simpa using h3
    rw [h4]
    decide
  · intro bi blk h1 h2
    have hb : fourEraseSecond.2.current_block_ = some 0 := by decide
    rw [hb] at h1
    cases h1
    have h3 : (fourEraseSecond.1.heap[0]?).map (fun b => b.deleted_cells_.size) = some 1 := by
      decide
    rw [h2] at h3
    have h4 : blk.deleted_cells_.size = 1 := by simpa using h3
    rw [h4]
    decide

/-- Claim C15, evaluated at block capacity 1 for every value `v`: on a fresh `Storage(1)` the
call `erase(insert(v))` does not complete.  The only slot is the first live element and its
forward link is null, and `erase` calls `setPrevious` through that null link.  At block
capacity 2 and the value 7 the same call completes, returns an iterator equal to `end()` and
leaves `size()` at 0. -/
theorem C15_insert_then_erase_faults_at_capacity_one (v : α) :
    (construct 1 >>= fun s => BucketStorage.insert s v >>= fun r => erase r.1 r.2)
      = .error .nullDeref
    ∧ (insertThenErase 2 7).map (fun r => (size r.1, Iterator.eq r.1 r.2 (end_ r.1)))
      = .ok (0, true) := by
  refine ⟨?_, by decide⟩
  obtain ⟨s0, h0, hS0⟩ := shape_construct (α := α) 1 (Nat.le_refl 1)
  obtain ⟨s1, it, m1, r1, h1, hS1, hr1, hnode, hblk⟩ :=
    hS0.insert (Or.inr rfl) (Nat.le_refl 1) (by simp [wordSize]) v
  have hr := hS1.hr
  have hn := hS1.hn
  simp only [List.nil_append, List.length_singleton, Nat.mul_one] at hn
  have hm1 : m1 = 1 := by omega
  have hr1 : r1 = 1 := by omega
  subst hm1 hr1
  obtain ⟨b, hb, hrel, -⟩ := hS1.hblk 0 (by omega)
  have hsl := hS1.hslot 0 0 (by omega) (by omega)
  have hfirst := hS1.hfirst
  simp only [List.nil_append, List.length_singleton] at hfirst
  simp only [h0, h1, bind, Except.bind, erase, hblk, hnode, blockAt_of hb hrel,
    elemAt_of_slot hsl, updBlock_of hb hrel, hfirst]
  simp [expElem, updElem]

/-- Claim C14.  The constructor `Storage(block_capacity)` fails exactly when `block_capacity`
is 0, and then with the invalid-argument fault; for every `block_capacity ≥ 1` it returns a
storage of that block capacity with `size() = 0`, `empty() = true`, `capacity() = 0`, append
cursor 0, an empty global free stack, and `begin() == end()`. -/
theorem C14_construction (cap : Nat) :
    ((construct cap : Except Fault (BucketStorage α)) = .error .invalidArgument ↔ cap = 0) ∧
    (∀ f, (construct cap : Except Fault (BucketStorage α)) = .error f →
      f = .invalidArgument ∧ cap = 0) ∧
    (1 ≤ cap → ∃ s : BucketStorage α, construct cap = .ok s ∧ size s = 0 ∧ empty s = true ∧
      capacity s = .ok 0 ∧ s.current_index_ = 0 ∧ s.last_deleting_ = Stack.new ∧
      s.last_deleting_.empty = true ∧ s.block_capacity_ = cap ∧
      Iterator.eq s (begin s) (end_ s) = true) := by
  by_cases h : cap = 0
  · subst h
    refine ⟨by simp [construct], ?_, by omega⟩
    intro f hf
    simp only [construct, if_true, Except.error.injEq] at hf
    exact ⟨hf.symm, rfl⟩
  · refine ⟨by simp [construct, h], ?_, fun _ => ⟨_, by rw [construct, if_neg h], ?_⟩⟩
    · intro f hf
      simp [construct, h] at hf
    · simp [size, empty, capacity, initializationContainer, Iterator.eq, Iterator.getCurrent,
        begin, end_, Stack.empty, Stack.new, Stack.size]

/-- Instance of C14 at block capacity 3. -/
theorem C14_construction_witness :
    (1 : Nat) ≤ 3 ∧ ∃ s : BucketStorage Nat, construct 3 = .ok s ∧ size s = 0 ∧
      empty s = true ∧ capacity s = .ok 0 ∧ s.current_index_ = 0 ∧ s.last_deleting_ = Stack.new ∧
      s.last_deleting_.empty = true ∧ s.block_capacity_ = 3 ∧
      Iterator.eq s (begin s) (end_ s) = true :=
  ⟨by decide, (C14_construction (α := Nat) 3).2.2 (by decide)⟩

theorem ceil_div_eq (c k : Nat) (hc : 1 ≤ c) (hk : 1 ≤ k) :
    ⌈(c : ℚ) / (k : ℚ)⌉₊ = (c - 1) / k + 1 := by
  have hkq : (0 : ℚ) < (k : ℚ) := by exact_mod_cast hk
  rw [Nat.ceil_eq_iff (Nat.succ_ne_zero _)]
  have h1 : (c - 1) / k * k ≤ c - 1 := Nat.div_mul_le_self _ _
  have h2 : c - 1 < ((c - 1) / k + 1) * k := by
    have := Nat.lt_mul_div_succ (c - 1) hk
    rwa [Nat.mul_comm] at this
  constructor
  · rw [lt_div_iff₀ hkq]
    have : (c - 1) / k * k < c := by omega
    have h3 : (c - 1) / k + 1 - 1 = (c - 1) / k := Nat.add_sub_cancel _ _
    rw [h3]
    exact_mod_cast this
  · rw [div_le_iff₀ hkq]
    have : c ≤ ((c - 1) / k + 1) * k := by omega
    exact_mod_cast this

theorem capacity_eq (s : BucketStorage α) (hk : 1 ≤ s.block_capacity_) (hsz : 0 < size s)
    (hc : 1 ≤ s.current_index_) (hcw : s.current_index_ < wordSize)
    (hres : s.block_capacity_ * ((s.current_index_ - 1) / s.block_capacity_ + 1) < wordSize) :
    capacity s = .ok (s.block_capacity_ * ((s.current_index_ - 1) / s.block_capacity_ + 1)) := by
  have h0 : s.size_ ≠ 0 := by
    simp only [size] at hsz
    omega
  have hk0 : s.block_capacity_ ≠ 0 := by omega
  have hm : (s.current_index_ + wordSize - 1) % wordSize = s.current_index_ - 1 := by
    have : s.current_index_ + wordSize - 1 = s.current_index_ - 1 + wordSize := by omega
    rw [this, Nat.add_mod_right, Nat.mod_eq_of_lt (by omega)]
  rw [capacity, if_neg h0, if_neg hk0, hm, Nat.mod_eq_of_lt hres]

/-- Claim C18.  For every storage state with block capacity `k ≥ 1`, `capacity()` returns 0
when `size()` is 0; when `size() > 0` and the append cursor `c` is at least 1 it returns
`k * ⌈c / k⌉`, which is `k * ((c - 1) / k + 1)` in integer division, provided the cursor and
that product are `size_type` values.  After `n ≥ 1` values are inserted into a fresh
`Storage(k)`, with `n + k` at most the number of `size_type` values, `capacity()` returns
`k * ⌈n / k⌉`. -/
theorem C18_capacity_formula :
    (∀ s : BucketStorage α, 1 ≤ s.block_capacity_ →
      (size s = 0 → capacity s = .ok 0) ∧
      (0 < size s → 1 ≤ s.current_index_ → s.current_index_ < wordSize →
        s.block_capacity_ * ⌈(s.current_index_ : ℚ) / (s.block_capacity_ : ℚ)⌉₊ < wordSize →
        capacity s
            = .ok (s.block_capacity_ * ⌈(s.current_index_ : ℚ) / (s.block_capacity_ : ℚ)⌉₊) ∧
          ⌈(s.current_index_ : ℚ) / (s.block_capacity_ : ℚ)⌉₊
            = (s.current_index_ - 1) / s.block_capacity_ + 1)) ∧
    (∀ (k : Nat) (vs : List α), 1 ≤ k → 1 ≤ vs.length → vs.length + k ≤ wordSize →
      ∃ s, (construct k >>= fun s0 => insertAll s0 vs) = .ok s ∧
        capacity s = .ok (k * ⌈(vs.length : ℚ) / (k : ℚ)⌉₊)) := by
  constructor
  · intro s hk
    refine ⟨fun h0 => ?_, fun hsz hc hcw hres => ?_⟩
    · simp only [size] at h0
      rw [capacity, if_pos h0]
    · rw [ceil_div_eq _ _ hc hk] at hres ⊢
      exact ⟨capacity_eq s hk hsz hc hcw hres, rfl⟩
  · intro k vs hk hn hW
    obtain ⟨s0, h0, hS0⟩ := shape_construct (α := α) k hk
    obtain ⟨s, m, r, h1, hS, -⟩ := hS0.insertAll hk vs (Or.inr rfl) (by simp; omega)
    simp only [List.nil_append] at hS
    refine ⟨s, by simp only [h0, bind, Except.bind]; exact h1, ?_⟩
    rw [ceil_div_eq _ _ hn hk]
    have hdm : (vs.length - 1) / k * k ≤ vs.length - 1 := Nat.div_mul_le_self _ _
    have hres : k * ((vs.length - 1) / k + 1) < wordSize := by
      rw [Nat.mul_add, Nat.mul_one, Nat.mul_comm]
      omega
    have := capacity_eq s (by rw [hS.hcap]; exact hk) (by rw [size, hS.hsize]; omega)
      (by rw [hS.hci]; exact hn) (by rw [hS.hci]; omega) (by rw [hS.hcap, hS.hci]; exact hres)
    rw [hS.hcap, hS.hci] at this
    exact this

/-- Instance of C18: `Storage(2)` after inserting 1, 2, 3 has cursor 3 and `capacity()`
returns `2 * ⌈3 / 2⌉`. -/
theorem C18_capacity_formula_witness :
    (1 : Nat) ≤ 2 ∧ 1 ≤ [1, 2, 3].length ∧ [1, 2, 3].length + 2 ≤ wordSize ∧
    ∃ s, (construct 2 >>= fun s0 => insertAll s0 [1, 2, 3]) = .ok s ∧
      capacity s = .ok (2 * ⌈(([1, 2, 3] : List Nat).length : ℚ) / ((2 : Nat) : ℚ)⌉₊) :=
  ⟨by decide, by decide, by decide,
    (C18_capacity_formula (α := Nat)).2 2 [1, 2, 3] (by decide) (by decide) (by decide)⟩

theorem Shape.decr {c : Nat} {vs : List α} {m r : Nat} {s : BucketStorage α}
    (hS : Shape c vs m r s) {j i : Nat} (hj : j < m) (hi : i < c) (hu : j * c + i < vs.length)
    (hg : 1 ≤ j * c + i) (bc pos : Nat) :
    ∃ j1 i1, j1 < m ∧ i1 < c ∧ j1 * c + i1 + 1 = j * c + i ∧
      Iterator.decr s ⟨some ⟨j, i⟩, some j, bc, pos⟩
        = .ok ⟨some ⟨j1, i1⟩, some j1, bc, (pos + wordSize - 1) % wordSize⟩ := by
  have hused := (hS.used_iff hj hi).mpr hu
  obtain ⟨b, hb, hrel, -, hprev, -⟩ := hS.hblk j hj
  simp only [Iterator.decr, elemAt_of_slot (hS.hslot j i hj hi), bind, Except.bind]
  simp only [expElem, if_pos hused, prevOf]
  by_cases hi0 : i = 0
  · subst hi0
    have hj0 : j ≠ 0 := by
      rintro rfl
      simp at hg
    obtain ⟨j1, rfl⟩ : ∃ j1, j = j1 + 1 := ⟨j - 1, by omega⟩
    obtain ⟨c1, rfl⟩ : ∃ c1, c = c1 + 1 := ⟨c - 1, by omega⟩
    have hj1 : j1 < m := by omega
    have hmul : (j1 + 1) * (c1 + 1) = j1 * (c1 + 1) + (c1 + 1) := Nat.succ_mul _ _
    have hu1 : j1 + 1 < m ∨ c1 < r := Or.inl hj
    simp only [if_true, Nat.succ_ne_zero, if_false, Nat.add_sub_cancel,
      elemAt_of_slot (hS.hslot j1 c1 hj1 (by omega)), expElem, if_pos hu1, Nat.lt_irrefl,
      if_pos hj, elemAt_of_slot (hS.hslot (j1 + 1) 0 hj hi), if_pos hused,
      blockAt_of hb hrel, Except.map, hprev]
    exact ⟨j1, c1, hj1, by omega, by omega, rfl⟩
  · obtain ⟨i1, rfl⟩ : ∃ i1, i = i1 + 1 := ⟨i - 1, by omega⟩
    have hi1 : i1 < c := by omega
    have hu1 : j + 1 < m ∨ i1 < r := (hS.used_iff hj hi1).mpr (by omega)
    simp only [Nat.succ_ne_zero, if_false, Nat.add_sub_cancel,
      elemAt_of_slot (hS.hslot j i1 hj hi1), expElem, if_pos hu1, if_pos hi,
      elemAt_of_slot (hS.hslot j (i1 + 1) hj hi), if_pos hused, pure, Except.pure]
    exact ⟨j, i1, hj, hi1, by omega, rfl⟩

theorem Shape.stepN_incr {c : Nat} {vs : List α} {m r : Nat} {s : BucketStorage α}
    (hS : Shape c vs m r s) (hnorm : 1 ≤ r ∨ vs.length = 0) (bc : Nat) :
    ∀ k j i pos, j < m → i < c → j * c + i + k < vs.length → pos + k < wordSize →
      ∃ j1 i1, j1 < m ∧ i1 < c ∧ j1 * c + i1 = j * c + i + k ∧
        stepN (Iterator.incr s) k ⟨some ⟨j, i⟩, some j, bc, pos⟩
          = .ok ⟨some ⟨j1, i1⟩, some j1, bc, pos + k⟩ := by
  intro k
  induction k with
  | zero => intro j i pos hj hi _ _; exact ⟨j, i, hj, hi, rfl, rfl⟩
  | succ k ih =>
    intro j i pos hj hi hu hp
    obtain ⟨it1, hinc, hcase⟩ := hS.incr hnorm hj hi (by omega) bc pos
    rcases hcase with ⟨-, j1, i1, hj1, hi1, hg1, rfl⟩ | ⟨heq, -⟩
    · obtain ⟨j2, i2, hj2, hi2, hg2, hrun⟩ := ih j1 i1 (pos + 1) hj1 hi1 (by omega) (by omega)
      refine ⟨j2, i2, hj2, hi2, by omega, ?_⟩
      simp only [stepN, hinc, bind, Except.bind, Nat.mod_eq_of_lt (show pos + 1 < wordSize by omega)]
      have hadd : pos + 1 + k = pos + (k + 1) := by omega
      rw [hrun, hadd]
    · omega

theorem Shape.stepN_decr {c : Nat} {vs : List α} {m r : Nat} {s : BucketStorage α}
    (hS : Shape c vs m r s) (bc : Nat) :
    ∀ k j i pos, j < m → i < c → j * c + i < vs.length → k ≤ j * c + i → k ≤ pos →
      pos < wordSize →
      ∃ j1 i1, j1 < m ∧ i1 < c ∧ j1 * c + i1 + k = j * c + i ∧
        stepN (Iterator.decr s) k ⟨some ⟨j, i⟩, some j, bc, pos⟩
          = .ok ⟨some ⟨j1, i1⟩, some j1, bc, pos - k⟩ := by
  intro k
  induction k with
  | zero => intro j i pos hj hi _ _ _ _; exact ⟨j, i, hj, hi, rfl, rfl⟩
  | succ k ih =>
    intro j i pos hj hi hu hk hp hW
    obtain ⟨j1, i1, hj1, hi1, hg1, hdec⟩ := hS.decr hj hi hu (by omega) bc pos
    have hpm : (pos + wordSize - 1) % wordSize = pos - 1 := by
      have : pos + wordSize - 1 = pos - 1 + wordSize := by omega
      rw [this, Nat.add_mod_right, Nat.mod_eq_of_lt (by omega)]
    obtain ⟨j2, i2, hj2, hi2, hg2, hrun⟩ :=
      ih j1 i1 (pos - 1) hj1 hi1 (by omega) (by omega) (by omega) (by omega)
    refine ⟨j2, i2, hj2, hi2, by omega, ?_⟩
    have hsub : pos - 1 - k = pos - (k + 1) := by omega
    simp only [stepN, hdec, bind, Except.bind, hpm]
    rw [hrun, hsub]

theorem get_to_distance_forward (s : BucketStorage α) (it : Iterator) (k : Nat) :
    get_to_distance s it (k : Int) = stepN (Iterator.incr s) k it := by
  rcases Nat.eq_zero_or_pos k with rfl | hk
  · simp [get_to_distance, stepN]
  · have : (k : Int) > 0 := by exact_mod_cast hk
    simp [get_to_distance, this]

theorem get_to_distance_backward (s : BucketStorage α) (it : Iterator) (k : Nat) :
    get_to_distance s it (-(k : Int)) = stepN (Iterator.decr s) k it := by
  have : ¬ (-(k : Int) > 0) := by omega
  simp [get_to_distance, this]

/-- Claim C20.  For every block capacity `c ≥ 1`, every list `vs` of values whose length is a
`size_type` value and every `k` below that length: in the storage built by inserting `vs` into
a fresh `Storage(c)`, `get_to_distance(begin(), k)` returns an iterator that dereferences to
the value inserted at position `k` (counted from 0), and `get_to_distance` of that iterator
and `-k` returns an iterator equal to `begin()` in every field: slot, tracked block, block
capacity and position counter. -/
theorem C20_retreat_undoes_advance (c : Nat) (hc : 1 ≤ c) (vs : List α)
    (hn : vs.length < wordSize) (k : Nat) (hk : k < vs.length) :
    ∃ s, (construct c >>= fun s0 => insertAll s0 vs) = .ok s ∧
      ∃ it, get_to_distance s (begin s) (k : Int) = .ok it ∧
        get_to_distance s it (-(k : Int)) = .ok (begin s) ∧
        Iterator.deref s it = .ok vs[k] := by
  obtain ⟨s0, h0, hS0⟩ := shape_construct (α := α) c hc
  obtain ⟨s, m, r, h1, hS, hnorm⟩ := hS0.insertAll hc vs (Or.inr rfl) (by simpa using hn)
  simp only [List.nil_append] at hS hnorm
  refine ⟨s, by simp only [h0, bind, Except.bind]; exact h1, ?_⟩
  have hpos : vs.length ≠ 0 := by omega
  have hm := hS.hm
  have hb : begin s = ⟨some ⟨0, 0⟩, some 0, s.block_capacity_, 0⟩ := by
    simp [begin, hS.hhead, hS.hfirst, hpos]
  obtain ⟨j1, i1, hj1, hi1, hg1, hfwd⟩ :=
    hS.stepN_incr hnorm s.block_capacity_ k 0 0 0 (by omega) (by omega) (by simpa using hk)
      (by omega)
  simp only [Nat.zero_mul, Nat.zero_add] at hg1 hfwd
  obtain ⟨j2, i2, hj2, hi2, hg2, hbwd⟩ :=
    hS.stepN_decr s.block_capacity_ k j1 i1 k hj1 hi1 (by omega) (by omega) (Nat.le_refl k)
      (by omega)
  have hi20 : i2 = 0 := by omega
  have hj20 : j2 = 0 := by
    subst hi20
    have : j2 * c = 0 := by omega
    rcases Nat.mul_eq_zero.mp this with h | h
    · exact h
    · omega
  subst hi20 hj20
  rw [Nat.sub_self] at hbwd
  refine ⟨_, by rw [get_to_distance_forward, hb]; exact hfwd, ?_, ?_⟩
  · rw [get_to_distance_backward, hb]
    exact hbwd
  · have hused := (hS.used_iff hj1 hi1).mpr (by omega)
    simp only [Iterator.deref, elemAt_of_slot (hS.hslot j1 i1 hj1 hi1), bind, Except.bind, expElem,
      if_pos hused, hg1, List.getElem?_eq_getElem hk]

/-- Instance of C20: `Storage(2)` holding 1, 2, 3, 4, 5 and `k = 4`. -/
theorem C20_retreat_undoes_advance_witness :
    (1 : Nat) ≤ 2 ∧ [1, 2, 3, 4, 5].length < wordSize ∧ 4 < [1, 2, 3, 4, 5].length ∧
    ∃ s, (construct 2 >>= fun s0 => insertAll s0 [1, 2, 3, 4, 5]) = .ok s ∧
      ∃ it, get_to_distance s (begin s) ((4 : Nat) : Int) = .ok it ∧
        get_to_distance s it (-((4 : Nat) : Int)) = .ok (begin s) ∧
        Iterator.deref s it = .ok 5 :=
  ⟨by decide, by decide, by decide,
    C20_retreat_undoes_advance 2 (by decide) [1, 2, 3, 4, 5] (by decide) 4 (by decide)⟩

theorem aboveB_none (B : Nat) : AboveB B none := fun _ h => by cases h

theorem aboveP_none (B : Nat) : AboveP B none := fun _ h => by cases h

theorem aboveB_some {B i : Nat} (h : B ≤ i) : AboveB B (some i) := fun _ hi => by
  cases hi; exact h

theorem aboveP_some {B : Nat} {p : EPtr} (h : B ≤ p.blk) : AboveP B (some p) := fun _ hp => by
  cases hp; exact h

theorem element_fresh_above (B : Nat) : Element.Above B (Element.fresh : Element α) :=
  ⟨aboveP_none B, aboveP_none B⟩

theorem element_clear_above (B : Nat) (e : Element α) : Element.Above B e.clear :=
  ⟨aboveP_none B, aboveP_none B⟩

theorem block_fresh_above (B cap : Nat) : Block.Above B (Block.fresh cap : Block α) := by
  refine ⟨aboveB_none B, aboveB_none B, ?_, ?_⟩
  · intro e he
    have := List.eq_of_mem_replicate he
    subst this
    exact element_fresh_above B
  · intro d hd
    simp [Block.fresh, Stack.new] at hd

theorem sep_length {P h : Heap α} (hS : Sep P h) : P.length ≤ h.length := by
  by_contra hc
  have hlt : h.length < P.length := by omega
  have h1 := hS.1 h.length hlt
  rw [List.getElem?_eq_none (Nat.le_refl _), List.getElem?_eq_getElem hlt] at h1
  cases h1

theorem sep_eq_append {P h : Heap α} (hS : Sep P h) : h = P ++ h.drop P.length := by
  apply List.ext_getElem?
  intro i
  by_cases hi : i < P.length
  · rw [List.getElem?_append_left hi]
    exact hS.1 i hi
  · rw [List.getElem?_append_right (by omega), List.getElem?_drop]
    congr 1
    omega

theorem sep_set {P h : Heap α} (hS : Sep P h) {j : Nat} {b : Block α} (hj : P.length ≤ j)
    (hb : Block.Above P.length b) : Sep P (h.set j b) := by
  refine ⟨fun i hi => ?_, fun k x hk hx => ?_⟩
  · rw [List.getElem?_set_ne (by omega)]
    exact hS.1 i hi
  · rw [List.getElem?_set] at hx
    by_cases hjk : j = k
    · subst hjk
      by_cases hlt : j < h.length
      · simp only [if_true, hlt] at hx
        cases hx
        exact hb
      · simp [hlt] at hx
    · simp only [if_neg hjk] at hx
      exact hS.2 k x hk hx

theorem sep_append {P h : Heap α} (hS : Sep P h) {b : Block α} (hb : Block.Above P.length b) :
    Sep P (h ++ [b]) := by
  have hl := sep_length hS
  refine ⟨fun i hi => ?_, fun k x hk hx => ?_⟩
  · rw [List.getElem?_append_left (by omega)]
    exact hS.1 i hi
  · by_cases hlt : k < h.length
    · rw [List.getElem?_append_left hlt] at hx
      exact hS.2 k x hk hx
    · rw [List.getElem?_append_right (by omega)] at hx
      by_cases h0 : k - h.length = 0
      · rw [h0] at hx
        simp only [List.getElem?_cons_zero, Option.some.injEq] at hx
        subst hx
        exact hb
      · obtain ⟨n, hn⟩ : ∃ n, k - h.length = n + 1 := ⟨k - h.length - 1, by omega⟩
        rw [hn] at hx
        simp at hx

theorem sep_slot {P h : Heap α} (hS : Sep P h) {q : EPtr} {e : Element α}
    (hq : P.length ≤ q.blk) (hs : slot h q = some e) : Element.Above P.length e := by
  unfold slot at hs
  cases hb : h[q.blk]? with
  | none => simp [hb] at hs
  | some b =>
    simp only [hb] at hs
    exact (hS.2 _ b hq hb).2.2.1 e (List.getElem?_mem hs)

theorem sep_putElem {P h : Heap α} (hS : Sep P h) {q : EPtr} {e : Element α}
    (hq : P.length ≤ q.blk) (he : Element.Above P.length e) : Sep P (putElem h q e) := by
  unfold putElem
  cases hb : h[q.blk]? with
  | none => exact hS
  | some b =>
    have hB := hS.2 _ b hq hb
    refine sep_set hS hq ⟨hB.1, hB.2.1, fun x hx => ?_, hB.2.2.2⟩
    rcases List.mem_or_eq_of_mem_set hx with h1 | h1
    · exact hB.2.2.1 x h1
    · subst h1; exact he

theorem sep_elemAt {P h : Heap α} (hS : Sep P h) {p : Option EPtr} {e : Element α}
    (hp : AboveP P.length p) (he : elemAt h p = .ok e) : Element.Above P.length e := by
  obtain ⟨q, rfl, hs⟩ := elemAt_ok he
  exact sep_slot hS (hp q rfl) hs

theorem sep_updElem {P h h1 : Heap α} (hS : Sep P h) {p : Option EPtr}
    {f : Element α → Element α} (hp : AboveP P.length p) (hu : updElem h p f = .ok h1)
    (hf : ∀ e, Element.Above P.length e → Element.Above P.length (f e)) : Sep P h1 := by
  obtain ⟨q, e, rfl, hs, rfl⟩ := updElem_ok hu
  exact sep_putElem hS (hp q rfl) (hf e (sep_slot hS (hp q rfl) hs))

theorem sep_blockAt {P h : Heap α} (hS : Sep P h) {b : Option Nat} {blk : Block α}
    (hb : AboveB P.length b) (he : blockAt h b = .ok blk) : Block.Above P.length blk := by
  obtain ⟨j, rfl, hj, -⟩ := blockAt_ok he
  exact hS.2 j blk (hb j rfl) hj

theorem sep_updBlock {P h h1 : Heap α} (hS : Sep P h) {b : Option Nat}
    {f : Block α → Block α} (hb : AboveB P.length b) (hu : updBlock h b f = .ok h1)
    (hf : ∀ x, Block.Above P.length x → Block.Above P.length (f x)) : Sep P h1 := by
  obtain ⟨j, blk, rfl, hj, -, rfl⟩ := updBlock_ok hu
  exact sep_set hS (hb j rfl) (hf blk (hS.2 j blk (hb j rfl) hj))

theorem elementAddr_above {B : Nat} {h : Heap α} {b : Option Nat} {k : Nat} {p : EPtr}
    (hb : AboveB B b) (he : elementAddr h b k = .ok p) : B ≤ p.blk := by
  unfold elementAddr at he
  obtain ⟨_, -, he⟩ := bind_ok he
  cases b with
  | none => cases he
  | some i =>
    cases he
    exact hb i rfl

theorem stack_top_mem {β : Type} {st : Stack β} {v : β} (h : st.top = .ok v) : v ∈ st.nodes := by
  unfold Stack.top at h
  cases hn : st.nodes with
  | nil =>
    rw [hn] at h
    simp only [] at h
    split at h <;> cases h
  | cons a t =>
    rw [hn] at h
    cases h
    exact List.mem_cons_self _ _

theorem stack_pop_mem {β : Type} {st st1 : Stack β} (h : st.pop = .ok st1) :
    ∀ x ∈ st1.nodes, x ∈ st.nodes := by
  unfold Stack.pop at h
  cases hn : st.nodes with
  | nil =>
    rw [hn] at h
    simp only [] at h
    split at h
    · cases h
      intro x hx
      rw [hn] at hx
      exact absurd hx (List.not_mem_nil _)
    · cases h
  | cons a t =>
    rw [hn] at h
    cases h
    intro x hx
    exact List.mem_cons_of_mem _ hx

theorem owned_addBlock {P : Heap α} {s s1 : BucketStorage α} (hO : Owned P s)
    (h : addBlock s = .ok s1) : Owned P s1 := by
  unfold addBlock at h
  obtain ⟨h1, e1, h⟩ := bind_ok h
  obtain ⟨h2, e2, h⟩ := bind_ok h
  obtain ⟨h3, e3, h⟩ := bind_ok h
  obtain ⟨h4, e4, h⟩ := bind_ok h
  cases h
  have hl := sep_length hO.mem
  have hnb : AboveB P.length (some s.heap.length) := aboveB_some hl
  have hnp : AboveP P.length (some (⟨s.heap.length, 0⟩ : EPtr)) := aboveP_some hl
  have S0 := sep_append hO.mem (block_fresh_above P.length s.block_capacity_)
  have S1 := sep_updElem S0 hnp e1 (fun e he => ⟨he.1, hO.last⟩)
  have S2 := sep_updElem S1 hO.last e2 (fun e he => ⟨hnp, he.2⟩)
  have S3 := sep_updBlock S2 hnb e3 (fun x hx => ⟨hx.1, hO.tail, hx.2.2⟩)
  have S4 := sep_updBlock S3 hO.tail e4 (fun x hx => ⟨hnb, hx.2⟩)
  exact { mem := S4, head := hO.head, tail := hnb, last := hO.last,
          firstElem := hO.firstElem, stack := hO.stack }

theorem owned_insertBody {P : Heap α} {s s1 : BucketStorage α} (hO : Owned P s)
    (h : insertBody s = .ok s1) : Owned P s1 := by
  unfold insertBody at h
  split at h
  · cases h
  · obtain ⟨a1, e1, h⟩ := bind_ok h
    obtain ⟨a2, e2, h⟩ := bind_ok h
    obtain ⟨here, e3, h⟩ := bind_ok h
    obtain ⟨h1, e4, h⟩ := bind_ok h
    obtain ⟨h3, e5, h⟩ := bind_ok h
    cases h
    have O1 : Owned P a1 := by
      split at e1
      · exact owned_addBlock hO e1
      · cases e1; exact hO
    have O2 : Owned P a2 := by
      split at e2
      · obtain ⟨p, hp, hp2⟩ := map_ok e2
        rw [← hp2]
        exact { mem := O1.mem, head := O1.head, tail := O1.tail, last := O1.last,
                firstElem := aboveP_some (elementAddr_above O1.tail hp), stack := O1.stack }
      · cases e2; exact O1
    have hh : P.length ≤ here.blk := elementAddr_above O2.tail e3
    have hhp : AboveP P.length (some here) := aboveP_some hh
    have hhs : AboveP P.length (some here.succ) := aboveP_some hh
    have S1 := sep_updElem O2.mem hhp e4 (fun e he => he)
    have S3 : Sep P h3 := by
      split at e5
      · obtain ⟨h2, e6, e7⟩ := bind_ok e5
        exact sep_updElem (sep_updElem S1 hhp e6 (fun e he => ⟨hhs, he.2⟩)) hhs e7
          (fun e he => ⟨he.1, hhp⟩)
      · cases e5; exact S1
    exact { mem := S3, head := O2.head, tail := O2.tail, last := hhp,
            firstElem := O2.firstElem, stack := O2.stack }

theorem owned_insertInDeletedCellBody {P : Heap α} {s : BucketStorage α}
    {r : BucketStorage α × Option EPtr} (hO : Owned P s)
    (h : insertInDeletedCellBody s = .ok r) : Owned P r.1 ∧ AboveP P.length r.2 := by
  unfold insertInDeletedCellBody at h
  obtain ⟨tb, t1, h⟩ := bind_ok h
  obtain ⟨ld, t2, h⟩ := bind_ok h
  obtain ⟨blk, t3, h⟩ := bind_ok h
  obtain ⟨cell, t4, h⟩ := bind_ok h
  obtain ⟨dc, t5, h⟩ := bind_ok h
  obtain ⟨h0, e0, h⟩ := bind_ok h
  obtain ⟨h1, e1, h⟩ := bind_ok h
  obtain ⟨h2, e2, h⟩ := bind_ok h
  obtain ⟨h3, e3, h⟩ := bind_ok h
  obtain ⟨h4, e4, h⟩ := bind_ok h
  cases h
  have htb : AboveB P.length tb := hO.stack tb (stack_top_mem t1)
  have hblk := sep_blockAt hO.mem htb t3
  have hcell : DeletedCell.Above P.length cell := hblk.2.2.2 cell (stack_top_mem t4)
  have hdc : ∀ d ∈ dc.nodes, DeletedCell.Above P.length d :=
    fun d hd => hblk.2.2.2 d (stack_pop_mem t5 d hd)
  have S0 := sep_updBlock hO.mem htb e0 (fun x hx => ⟨hx.1, hx.2.1, hx.2.2.1, hdc⟩)
  have S1 := sep_updElem S0 hcell.1 e1 (fun e he => ⟨hcell.2.1, he.2⟩)
  have S2 := sep_updElem S1 hcell.2.2 e2 (fun e he => ⟨he.1, hcell.2.1⟩)
  have S3 := sep_updElem S2 hcell.2.1 e3 (fun e he => ⟨he.1, hcell.1⟩)
  have S4 := sep_updElem S3 hcell.2.1 e4 (fun e he => ⟨hcell.1, he.2⟩)
  exact ⟨{ mem := S4, head := hO.head, tail := hO.tail, last := hO.last,
           firstElem := hO.firstElem,
           stack := fun x hx => hO.stack x (stack_pop_mem t2 x hx) }, hcell.2.1⟩

theorem owned_insert {P : Heap α} {s s1 : BucketStorage α} {v : α} {it : Iterator}
    (hO : Owned P s) (h : BucketStorage.insert s v = .ok (s1, it)) :
    Owned P s1 ∧ Iterator.Above P.length it := by
  unfold BucketStorage.insert at h
  split at h
  · unfold insertInDeletedCell at h
    obtain ⟨r, e0, h⟩ := bind_ok h
    obtain ⟨h1, e1, h⟩ := bind_ok h
    obtain ⟨h2, e2, h⟩ := bind_ok h
    cases h
    obtain ⟨O1, hp⟩ := owned_insertInDeletedCellBody hO e0
    have S2 := sep_updElem (sep_updElem O1.mem hp e1 (fun e he => he)) hp e2 (fun e he => he)
    exact ⟨{ mem := S2, head := O1.head, tail := O1.tail, last := O1.last,
             firstElem := O1.firstElem, stack := O1.stack }, hp, O1.head⟩
  · obtain ⟨a1, e0, h⟩ := bind_ok h
    obtain ⟨here, e3, h⟩ := bind_ok h
    obtain ⟨h1, e1, h⟩ := bind_ok h
    obtain ⟨h2, e2, h⟩ := bind_ok h
    cases h
    have O1 := owned_insertBody hO e0
    have hp : AboveP P.length (some here) := aboveP_some (elementAddr_above O1.tail e3)
    have S2 := sep_updElem (sep_updElem O1.mem hp e1 (fun e he => he)) hp e2 (fun e he => he)
    exact ⟨{ mem := S2, head := O1.head, tail := O1.tail, last := O1.last,
             firstElem := O1.firstElem, stack := O1.stack }, hp, O1.head⟩

theorem skipInactive_above {P : Heap α} {h : Heap α} (hS : Sep P h) :
    ∀ (f : Nat) (p r : EPtr), P.length ≤ p.blk → Iterator.skipInactive f h p = .ok r →
      P.length ≤ r.blk := by
  intro f
  induction f with
  | zero => intro p r _ h; cases h
  | succ k ih =>
    intro p r hp h
    unfold Iterator.skipInactive at h
    obtain ⟨e, e1, h⟩ := bind_ok h
    have he := sep_elemAt hS (aboveP_some hp) e1
    split at h
    · cases h; exact hp
    · rename_i q hq
      split at h
      · cases h; exact hp
      · exact ih q r (he.1 q hq) h

theorem incr_above {P : Heap α} {s : BucketStorage α} {it r : Iterator} (hO : Owned P s)
    (hit : Iterator.Above P.length it) (h : Iterator.incr s it = .ok r) :
    Iterator.Above P.length r := by
  unfold Iterator.incr at h
  split at h
  · cases h; exact ⟨hO.last, hit.2⟩
  · rename_i p hp
    have hpa : P.length ≤ p.blk := hit.1 p hp
    obtain ⟨e, e1, h⟩ := bind_ok h
    have he := sep_elemAt hO.mem (aboveP_some hpa) e1
    split at h
    · cases h; exact ⟨aboveP_some hpa, hit.2⟩
    · rename_i q hq
      obtain ⟨r1, e2, h⟩ := bind_ok h
      obtain ⟨er, e3, h⟩ := bind_ok h
      obtain ⟨blk, e4, h⟩ := bind_ok h
      cases h
      have hr1 := skipInactive_above hO.mem _ q r1 (he.1 q hq) e2
      refine ⟨aboveP_some hr1, ?_⟩
      split at e4
      · obtain ⟨b, hb, hb2⟩ := map_ok e4
        rw [← hb2]
        exact (sep_blockAt hO.mem hit.2 hb).1
      · cases e4; exact hit.2

theorem decr_above {P : Heap α} {s : BucketStorage α} {it r : Iterator} (hO : Owned P s)
    (hit : Iterator.Above P.length it) (h : Iterator.decr s it = .ok r) :
    Iterator.Above P.length r := by
  unfold Iterator.decr at h
  split at h
  · cases h; exact ⟨hO.last, hit.2⟩
  · rename_i p hp
    have hpa : P.length ≤ p.blk := hit.1 p hp
    obtain ⟨e, e1, h⟩ := bind_ok h
    have he := sep_elemAt hO.mem (aboveP_some hpa) e1
    split at h
    · cases h; exact ⟨aboveP_some hpa, hit.2⟩
    · rename_i q hq
      obtain ⟨eq, e2, h⟩ := bind_ok h
      obtain ⟨en, e3, h⟩ := bind_ok h
      obtain ⟨blk, e4, h⟩ := bind_ok h
      cases h
      refine ⟨aboveP_some (he.2 q hq), ?_⟩
      split at e4
      · obtain ⟨b, hb, hb2⟩ := map_ok e4
        rw [← hb2]
        exact (sep_blockAt hO.mem hit.2 hb).2.1
      · cases e4; exact hit.2

theorem sep_destroyWalk {P : Heap α} :
    ∀ (f : Nat) (h h1 : Heap α) (el : Option EPtr), Sep P h → AboveP P.length el →
      destroyWalk f h el = .ok h1 → Sep P h1 := by
  intro f
  induction f with
  | zero => intro h h1 el _ _ hw; cases hw
  | succ k ih =>
    intro h h1 el hS hel hw
    unfold destroyWalk at hw
    split at hw
    · cases hw; exact hS
    · rename_i p
      obtain ⟨e, e1, hw⟩ := bind_ok hw
      have he := sep_elemAt hS hel e1
      split at hw
      · cases hw; exact hS
      · obtain ⟨h2, e2, hw⟩ := bind_ok hw
        exact ih h2 h1 e.next_ (sep_updElem hS hel e2 fun x _ => element_clear_above _ x) he.1 hw

theorem sep_deleteBlock {P h h1 : Heap α} {b : Option Nat} (hS : Sep P h)
    (hb : AboveB P.length b) (hd : deleteBlock h b = .ok h1) : Sep P h1 := by
  unfold deleteBlock at hd
  obtain ⟨_, -, hd⟩ := bind_ok hd
  cases b with
  | none => cases hd
  | some i =>
    simp only [] at hd
    obtain ⟨h2, e1, hd⟩ := bind_ok hd
    obtain ⟨h3, e2, hd⟩ := bind_ok hd
    have hi : P.length ≤ i := hb i rfl
    have S1 := sep_updElem hS (aboveP_some (p := ⟨i, 0⟩) hi) e1
      fun x _ => element_clear_above _ x
    have S2 := sep_destroyWalk _ _ _ _ S1 (aboveP_some (p := ⟨i, 1⟩) hi) e2
    refine sep_updBlock S2 hb hd fun x hx => ⟨aboveB_none _, aboveB_none _, hx.2.2.1, ?_⟩
    intro d hd
    simp [Stack.new] at hd

theorem sep_clearLoop {P : Heap α} :
    ∀ (f : Nat) (h h1 : Heap α) (temp : Option Nat), Sep P h → AboveB P.length temp →
      clearLoop f h temp = .ok h1 → Sep P h1 := by
  intro f
  induction f with
  | zero => intro h h1 temp _ _ hw; cases hw
  | succ k ih =>
    intro h h1 temp hS ht hw
    unfold clearLoop at hw
    split at hw
    · cases hw; exact hS
    · rename_i i
      obtain ⟨blk, e1, hw⟩ := bind_ok hw
      obtain ⟨h2, e2, hw⟩ := bind_ok hw
      exact ih h2 h1 blk.next_ (sep_deleteBlock hS ht e2) (sep_blockAt hS ht e1).1 hw

theorem owned_clear {P : Heap α} {s s1 : BucketStorage α} (hO : Owned P s)
    (h : clear s = .ok s1) : Owned P s1 := by
  unfold clear at h
  split at h
  · cases h; exact hO
  · obtain ⟨h1, e1, h⟩ := bind_ok h
    cases h
    exact { mem := sep_clearLoop _ _ _ _ hO.mem hO.head e1, head := aboveB_none _,
            tail := aboveB_none _, last := aboveP_none _, firstElem := aboveP_none _,
            stack := hO.stack }

theorem owned_initializationContainer {P : Heap α} {s : BucketStorage α} (hO : Owned P s) :
    Owned P (initializationContainer s) := by
  have hl := sep_length hO.mem
  exact { mem := sep_append hO.mem (block_fresh_above _ _), head := aboveB_some hl,
          tail := aboveB_some hl, last := hO.last, firstElem := hO.firstElem,
          stack := hO.stack }

theorem purgeLoop_above {B : Nat} (block : Option Nat) :
    ∀ (f : Nat) (old acc r : Stack (Option Nat)), (∀ x ∈ old.nodes, AboveB B x) →
      (∀ x ∈ acc.nodes, AboveB B x) → purgeLoop f old acc block = .ok r →
      ∀ x ∈ r.nodes, AboveB B x := by
  intro f
  induction f with
  | zero => intro old acc r _ _ h; cases h
  | succ k ih =>
    intro old acc r ho ha h
    unfold purgeLoop at h
    split at h
    · cases h; exact ha
    · obtain ⟨link, e1, h⟩ := bind_ok h
      obtain ⟨old1, e2, h⟩ := bind_ok h
      refine ih old1 _ r (fun x hx => ho x (stack_pop_mem e2 x hx)) ?_ h
      split
      · intro x hx
        simp only [Stack.add, List.mem_cons] at hx
        rcases hx with rfl | hx
        · exact ho _ (stack_top_mem e1)
        · exact ha x hx
      · exact ha

theorem owned_unlinkBlock {P : Heap α} {s s1 : BucketStorage α} {prv nxt : Option Nat}
    (hO : Owned P s) (hp : AboveB P.length prv) (hn : AboveB P.length nxt)
    (h : unlinkBlock s prv nxt = .ok s1) :
    Owned P s1 ∧ s1.last_deleting_ = s.last_deleting_ := by
  unfold unlinkBlock at h
  split at h
  · obtain ⟨h1, e1, h⟩ := bind_ok h
    obtain ⟨h2, e2, h⟩ := bind_ok h
    obtain ⟨pe, e3, h⟩ := bind_ok h
    obtain ⟨ne, e4, h⟩ := bind_ok h
    obtain ⟨h3, e5, h⟩ := bind_ok h
    obtain ⟨h4, e6, h⟩ := bind_ok h
    cases h
    have S1 := sep_updBlock hO.mem hp e1 (fun x hx => ⟨hn, hx.2⟩)
    have S2 := sep_updBlock S1 hn e2 (fun x hx => ⟨hx.1, hp, hx.2.2⟩)
    have hpe : AboveP P.length (some pe) := aboveP_some (elementAddr_above hp e3)
    have hne : AboveP P.length (some ne) := aboveP_some (elementAddr_above hn e4)
    have S3 := sep_updElem S2 hpe e5 (fun x hx => ⟨hne, hx.2⟩)
    have S4 := sep_updElem S3 hne e6 (fun x hx => ⟨hx.1, hpe⟩)
    exact ⟨{ mem := S4, head := hO.head, tail := hO.tail, last := hO.last,
             firstElem := hO.firstElem, stack := hO.stack }, rfl⟩
  · obtain ⟨h1, e1, h⟩ := bind_ok h
    obtain ⟨pe, e3, h⟩ := bind_ok h
    obtain ⟨h2, e5, h⟩ := bind_ok h
    cases h
    have S1 := sep_updBlock hO.mem hp e1 (fun x hx => ⟨aboveB_none _, hx.2⟩)
    have hpe : AboveP P.length (some pe) := aboveP_some (elementAddr_above hp e3)
    have S2 := sep_updElem S1 hpe e5 (fun x hx => ⟨aboveP_none _, hx.2⟩)
    exact ⟨{ mem := S2, head := hO.head, tail := hO.tail, last := hpe,
             firstElem := hO.firstElem, stack := hO.stack }, rfl⟩
  · obtain ⟨h1, e1, h⟩ := bind_ok h
    obtain ⟨ne, e3, h⟩ := bind_ok h
    obtain ⟨h2, e5, h⟩ := bind_ok h
    cases h
    have S1 := sep_updBlock hO.mem hn e1 (fun x hx => ⟨hx.1, aboveB_none _, hx.2.2⟩)
    have hne : AboveP P.length (some ne) := aboveP_some (elementAddr_above hn e3)
    have S2 := sep_updElem S1 hne e5 (fun x hx => ⟨hx.1, aboveP_none _⟩)
    exact ⟨{ mem := S2, head := hn, tail := hO.tail, last := hO.last,
             firstElem := hne, stack := hO.stack }, rfl⟩
  · cases h; exact ⟨hO, rfl⟩

theorem owned_delBlock {P : Heap α} {s s1 : BucketStorage α} {block : Option Nat}
    (hO : Owned P s) (hb : AboveB P.length block) (h : delBlock s block = .ok s1) :
    Owned P s1 := by
  unfold delBlock at h
  obtain ⟨blk, e0, h⟩ := bind_ok h
  have hblk := sep_blockAt hO.mem hb e0
  split at h
  · obtain ⟨s2, e1, h⟩ := map_ok h
    rw [← h]
    exact owned_initializationContainer (owned_clear hO e1)
  · obtain ⟨s2, e1, h⟩ := bind_ok h
    obtain ⟨acc, e2, h⟩ := bind_ok h
    obtain ⟨h5, e3, h⟩ := bind_ok h
    cases h
    obtain ⟨O2, hld⟩ := owned_unlinkBlock hO hblk.2.1 hblk.1 e1
    exact { mem := sep_deleteBlock O2.mem hb e3, head := O2.head, tail := O2.tail,
            last := O2.last, firstElem := O2.firstElem,
            stack := fun x hx => by simp [Stack.copyThenDestroySource] at hx }

theorem owned_erase {P : Heap α} {s s1 : BucketStorage α} {pos r : Iterator}
    (hO : Owned P s) (hit : Iterator.Above P.length pos) (h : erase s pos = .ok (s1, r)) :
    Owned P s1 ∧ Iterator.Above P.length r := by
  unfold erase at h
  obtain ⟨blk, eb, h⟩ := bind_ok h
  obtain ⟨e, ee, h⟩ := bind_ok h
  obtain ⟨h0, e0, h⟩ := bind_ok h
  obtain ⟨s2, e2, h⟩ := bind_ok h
  obtain ⟨h3, e3, h⟩ := bind_ok h
  obtain ⟨h4, e4, h⟩ := bind_ok h
  obtain ⟨pos1, e5, h⟩ := bind_ok h
  obtain ⟨blk1, e6, h⟩ := bind_ok h
  have he := sep_elemAt hO.mem hit.1 ee
  have S0 := sep_updBlock hO.mem hit.2 e0 (fun x hx => ⟨hx.1, hx.2.1, hx.2.2.1, by
    intro d hd
    simp only [Stack.add, List.mem_cons] at hd
    rcases hd with rfl | hd
    · exact ⟨he.2, hit.1, he.1⟩
    · exact hx.2.2.2 d hd⟩)
  have hstack : ∀ x ∈ (s.last_deleting_.add pos.current_block_).nodes, AboveB P.length x := by
    intro x hx
    simp only [Stack.add, List.mem_cons] at hx
    rcases hx with rfl | hx
    · exact hit.2
    · exact hO.stack x hx
  have O2 : Owned P s2 := by
    split at e2
    · obtain ⟨h1, e21, e2⟩ := bind_ok e2
      obtain ⟨h2, e22, e2⟩ := bind_ok e2
      cases e2
      have S1 := sep_updElem S0 he.2 e21 (fun x hx => ⟨he.1, hx.2⟩)
      have S2 : Sep P h2 := by
        split at e22
        · rename_i n hn
          exact sep_updElem S1 (aboveP_some (he.1 n hn)) e22 (fun x hx => ⟨hx.1, he.2⟩)
        · cases e22; exact S1
      exact { mem := S2, head := hO.head, tail := hO.tail, last := hO.last,
              firstElem := hO.firstElem, stack := hstack }
    · obtain ⟨h1, e21, e2⟩ := bind_ok e2
      cases e2
      have S1 := sep_updElem S0 he.1 e21 (fun x hx => ⟨hx.1, aboveP_none _⟩)
      exact { mem := S1, head := hO.head, tail := hO.tail, last := hO.last,
              firstElem := he.1, stack := hstack }
  have S4 := sep_updElem (sep_updElem O2.mem hit.1 e3 (fun x hx => hx)) hit.1 e4
    (fun x hx => hx)
  have O4 : Owned P { s2 with heap := h4, size_ := (s2.size_ + wordSize - 1) % wordSize } :=
    { mem := S4, head := O2.head, tail := O2.tail, last := O2.last,
      firstElem := O2.firstElem, stack := O2.stack }
  have hpos1 := incr_above O4 hit e5
  split at h
  · obtain ⟨s3, e7, h⟩ := map_ok h
    cases h
    exact ⟨owned_delBlock O4 hit.2 e7, hpos1⟩
  · cases h
    exact ⟨O4, hpos1⟩

theorem elemAt_append {h : Heap α} {p : Option EPtr} {e : Element α} (he : elemAt h p = .ok e)
    (X : Heap α) : elemAt (h ++ X) p = .ok e := by
  obtain ⟨q, rfl, hs⟩ := elemAt_ok he
  exact elemAt_of_slot (by rw [slot_append_left q (slot_lt_length hs), hs])

theorem blockAt_append {h : Heap α} {b : Option Nat} {blk : Block α}
    (hb : blockAt h b = .ok blk) (X : Heap α) : blockAt (h ++ X) b = .ok blk := by
  obtain ⟨j, rfl, hj, hr⟩ := blockAt_ok hb
  have hlt : j < h.length := (List.getElem?_eq_some_iff.mp hj).1
  exact blockAt_of (by rw [List.getElem?_append_left hlt, hj]) hr

theorem elemCount_append (h X : Heap α) : elemCount (h ++ X) = elemCount h + elemCount X := by
  simp [elemCount]

theorem skipInactive_append {h : Heap α} (X : Heap α) :
    ∀ (f : Nat) (p r : EPtr), Iterator.skipInactive f h p = .ok r →
      ∀ g, f ≤ g → Iterator.skipInactive g (h ++ X) p = .ok r := by
  intro f
  induction f with
  | zero => intro p r h; cases h
  | succ k ih =>
    intro p r h g hg
    obtain ⟨g1, rfl⟩ : ∃ g1, g = g1 + 1 := ⟨g - 1, by omega⟩
    unfold Iterator.skipInactive at h ⊢
    obtain ⟨e, e1, h⟩ := bind_ok h
    simp only [elemAt_append e1 X, bind, Except.bind]
    split at h
    · rename_i hq
      try simp only [hq]
      exact h
    · rename_i q hq
      try simp only [hq]
      split at h
      · rename_i ha
        rw [if_pos ha]
        exact h
      · rename_i ha
        rw [if_neg ha]
        exact ih q r h g1 (by omega)

theorem incr_append {s : BucketStorage α} {it r : Iterator} (h : Iterator.incr s it = .ok r)
    (X : Heap α) : Iterator.incr { s with heap := s.heap ++ X } it = .ok r := by
  unfold Iterator.incr at h ⊢
  split at h
  · rename_i hn
    try simp only [hn]
    exact h
  · rename_i p hp
    try simp only [hp]
    obtain ⟨e, e1, h⟩ := bind_ok h
    simp only [elemAt_append e1 X, bind, Except.bind]
    split at h
    · rename_i hq
      try simp only [hq]
      exact h
    · rename_i q hq
      try simp only [hq]
      obtain ⟨r1, e2, h⟩ := bind_ok h
      obtain ⟨er, e3, h⟩ := bind_ok h
      obtain ⟨blk, e4, h⟩ := bind_ok h
      have e2X := skipInactive_append X _ q r1 e2 (elemCount (s.heap ++ X) + 1)
        (by rw [elemCount_append]; omega)
      simp only [e2X, elemAt_append e3 X]
      have e4X : (if er.index_ = 0 then
            (blockAt (s.heap ++ X) it.current_block_).map fun b => b.next_
          else pure it.current_block_) = .ok blk := by
        split at e4
        · rename_i hi
          rw [if_pos hi]
          obtain ⟨b, hb, hb2⟩ := map_ok e4
          simp only [blockAt_append hb X, Except.map, hb2]
        · rename_i hi
          rw [if_neg hi]
          exact e4
      simp only [e4X]
      exact h

theorem deref_append {s : BucketStorage α} {it : Iterator} {v : α}
    (h : Iterator.deref s it = .ok v) (X : Heap α) :
    Iterator.deref { s with heap := s.heap ++ X } it = .ok v := by
  unfold Iterator.deref at h ⊢
  obtain ⟨e, e1, h⟩ := bind_ok h
  simp only [elemAt_append e1 X, bind, Except.bind]
  exact h

theorem valuesFrom_append (s : BucketStorage α) (X : Heap α) :
    ∀ (f : Nat) (it : Iterator) (l : List α), BucketStorage.valuesFrom f s it = .ok l →
      BucketStorage.valuesFrom f { s with heap := s.heap ++ X } it = .ok l := by
  intro f
  induction f with
  | zero => intro it l h; cases h
  | succ k ih =>
    intro it l h
    unfold BucketStorage.valuesFrom at h ⊢
    have heq : Iterator.eq { s with heap := s.heap ++ X } it (end_ { s with heap := s.heap ++ X })
        = Iterator.eq s it (end_ s) := rfl
    rw [heq]
    split at h
    · rename_i hend
      rw [if_pos hend]
      exact h
    · rename_i hend
      rw [if_neg hend]
      obtain ⟨v, e1, h⟩ := bind_ok h
      obtain ⟨it1, e2, h⟩ := bind_ok h
      obtain ⟨rest, e3, h⟩ := bind_ok h
      simp only [deref_append e1 X, incr_append e2 X, ih it1 rest e3, bind, Except.bind]
      exact h

theorem values_append {s : BucketStorage α} {f : Nat} {l : List α}
    (h : BucketStorage.values f s = .ok l) (X : Heap α) :
    BucketStorage.values f { s with heap := s.heap ++ X } = .ok l :=
  valuesFrom_append s X f _ l h

theorem values_of_sep {s : BucketStorage α} {f : Nat} {l : List α}
    (h : BucketStorage.values f s = .ok l) {H : Heap α} (hS : Sep s.heap H) :
    BucketStorage.values f { s with heap := H } = .ok l := by
  rw [sep_eq_append hS]
  exact values_append h _

theorem relocHeap_length (P h : Heap α) : (relocHeap P h).length = h.length + P.length := by
  simp [relocHeap, Nat.add_comm]

theorem getElem?_relocHeap (P h : Heap α) (j : Nat) :
    (relocHeap P h)[j + P.length]? = (h[j]?).map (Block.shift P.length) := by
  unfold relocHeap
  rw [List.getElem?_append_right (by omega), Nat.add_sub_cancel, List.getElem?_map]

theorem relocHeap_set (P h : Heap α) (j : Nat) (b : Block α) :
    (relocHeap P h).set (j + P.length) (Block.shift P.length b) = relocHeap P (h.set j b) := by
  unfold relocHeap
  rw [List.set_append_right _ _ (by omega), Nat.add_sub_cancel, List.map_set]

theorem relocHeap_append_fresh (P h : Heap α) (c : Nat) :
    relocHeap P h ++ [Block.fresh c] = relocHeap P (h ++ [Block.fresh c]) := by
  unfold relocHeap
  simp [Block.shift, Block.fresh, Element.shift, Element.fresh, Stack.new]

theorem slot_reloc (P h : Heap α) (p : EPtr) :
    slot (relocHeap P h) (EPtr.shift P.length p) = (slot h p).map (Element.shift P.length) := by
  unfold slot
  simp only [EPtr.shift, getElem?_relocHeap]
  cases h[p.blk]? with
  | none => rfl
  | some b => simp [Block.shift, List.getElem?_map]

theorem putElem_reloc (P h : Heap α) (p : EPtr) (e : Element α) :
    putElem (relocHeap P h) (EPtr.shift P.length p) (Element.shift P.length e)
      = relocHeap P (putElem h p e) := by
  unfold putElem
  simp only [EPtr.shift, getElem?_relocHeap]
  cases h[p.blk]? with
  | none => rfl
  | some b =>
    simp only [Option.map_some']
    rw [← relocHeap_set]
    congr 1
    simp [Block.shift, List.map_set]

theorem elemAt_reloc {h : Heap α} {p : Option EPtr} {e : Element α} (he : elemAt h p = .ok e)
    (P : Heap α) :
    elemAt (relocHeap P h) (p.map (EPtr.shift P.length)) = .ok (Element.shift P.length e) := by
  obtain ⟨q, rfl, hs⟩ := elemAt_ok he
  exact elemAt_of_slot (by rw [slot_reloc, hs]; rfl)

theorem updElem_reloc {h h1 : Heap α} {p : Option EPtr} {f : Element α → Element α}
    (hu : updElem h p f = .ok h1) (P : Heap α) (g : Element α → Element α)
    (hg : ∀ e, g (Element.shift P.length e) = Element.shift P.length (f e)) :
    updElem (relocHeap P h) (p.map (EPtr.shift P.length)) g = .ok (relocHeap P h1) := by
  obtain ⟨q, e, rfl, hs, rfl⟩ := updElem_ok hu
  have hs1 : slot (relocHeap P h) (EPtr.shift P.length q) = some (Element.shift P.length e) := by
    rw [slot_reloc, hs]; rfl
  rw [Option.map_some', updElem_of_slot hs1, hg, putElem_reloc]

theorem blockAt_reloc {h : Heap α} {b : Option Nat} {blk : Block α}
    (hb : blockAt h b = .ok blk) (P : Heap α) :
    blockAt (relocHeap P h) (b.map fun i => i + P.length) = .ok (Block.shift P.length blk) := by
  obtain ⟨j, rfl, hj, hr⟩ := blockAt_ok hb
  exact blockAt_of (by rw [getElem?_relocHeap, hj]; rfl) hr

theorem updBlock_reloc {h h1 : Heap α} {b : Option Nat} {f : Block α → Block α}
    (hu : updBlock h b f = .ok h1) (P : Heap α) (g : Block α → Block α)
    (hg : ∀ x, g (Block.shift P.length x) = Block.shift P.length (f x)) :
    updBlock (relocHeap P h) (b.map fun i => i + P.length) g = .ok (relocHeap P h1) := by
  obtain ⟨j, blk, rfl, hj, hr, rfl⟩ := updBlock_ok hu
  have hj1 : (relocHeap P h)[j + P.length]? = some (Block.shift P.length blk) := by
    rw [getElem?_relocHeap, hj]; rfl
  rw [Option.map_some', updBlock_of hj1 hr, hg, relocHeap_set]

theorem elementAddr_reloc {h : Heap α} {b : Option Nat} {k : Nat} {p : EPtr}
    (he : elementAddr h b k = .ok p) (P : Heap α) :
    elementAddr (relocHeap P h) (b.map fun i => i + P.length) k
      = .ok (EPtr.shift P.length p) := by
  unfold elementAddr at he ⊢
  obtain ⟨blk, e1, he⟩ := bind_ok he
  simp only [blockAt_reloc e1 P, bind, Except.bind]
  cases b with
  | none => cases he
  | some i =>
    cases he
    rfl

theorem addBlock_reloc {s s1 : BucketStorage α} (h : addBlock s = .ok s1) (P : Heap α)
    (d : Nat) : addBlock (reloc P d s) = .ok (reloc P d s1) := by
  unfold addBlock at h
  obtain ⟨h1, e1, h⟩ := bind_ok h
  obtain ⟨h2, e2, h⟩ := bind_ok h
  obtain ⟨h3, e3, h⟩ := bind_ok h
  obtain ⟨h4, e4, h⟩ := bind_ok h
  cases h
  have hnb : (reloc P d s).heap.length = s.heap.length + P.length := relocHeap_length _ _
  have h0eq : (reloc P d s).heap ++ [Block.fresh (reloc P d s).block_capacity_]
      = relocHeap P (s.heap ++ [Block.fresh s.block_capacity_]) := relocHeap_append_fresh _ _ _
  have E1 : updElem (relocHeap P (s.heap ++ [Block.fresh s.block_capacity_]))
      (some ⟨s.heap.length + P.length, 0⟩)
      (fun e => { e with previous_ := (reloc P d s).last_object_ }) = .ok (relocHeap P h1) :=
    updElem_reloc e1 P _ (fun _ => rfl)
  have E2 : updElem (relocHeap P h1) (reloc P d s).last_object_
      (fun e => { e with next_ := some ⟨s.heap.length + P.length, 0⟩ }) = .ok (relocHeap P h2) :=
    updElem_reloc e2 P _ (fun _ => rfl)
  have E3 : updBlock (relocHeap P h2) (some (s.heap.length + P.length))
      (fun b => { b with previous_ := (reloc P d s).tail_block_ }) = .ok (relocHeap P h3) :=
    updBlock_reloc e3 P _ (fun _ => rfl)
  have E4 : updBlock (relocHeap P h3) (reloc P d s).tail_block_
      (fun b => { b with next_ := some (s.heap.length + P.length) }) = .ok (relocHeap P h4) :=
    updBlock_reloc e4 P _ (fun _ => rfl)
  unfold addBlock
  simp only [hnb, h0eq, E1, E2, E3, E4, bind, Except.bind]
  rfl

theorem writeStep_eq_tail (ci cap : Nat) (s : BucketStorage α) (v : α) :
    writeStep ci cap s v = firstStep s >>= fun s2 => writeTail ci cap s2 v := rfl

theorem firstStep_reloc {s s1 : BucketStorage α} (h : firstStep s = .ok s1) (P : Heap α)
    (d : Nat) : firstStep (reloc P d s) = .ok (reloc P d s1) := by
  unfold firstStep at h ⊢
  cases hf : s.first_element_ with
  | none =>
    have hf1 : (reloc P d s).first_element_ = none := by simp [reloc, hf]
    simp only [hf] at h
    simp only [hf1]
    obtain ⟨p, hp, hp2⟩ := map_ok h
    subst hp2
    have E2 : elementAddr (reloc P d s).heap (reloc P d s).tail_block_ 0
        = .ok (EPtr.shift P.length p) := elementAddr_reloc hp P
    simp only [E2, Except.map]
    simp only [reloc, hf, Option.map_none', Option.map_some']
  | some q =>
    have hf1 : (reloc P d s).first_element_ = some (EPtr.shift P.length q) := by
      simp [reloc, hf]
    simp only [hf] at h
    simp only [hf1]
    cases h
    rfl

theorem writeTail_reloc {ci cap : Nat} {a2 s1 : BucketStorage α} {v : α} {it : Iterator}
    (h : writeTail ci cap a2 v = .ok (s1, it)) (P : Heap α) (d : Nat) :
    writeTail ci cap (reloc P d a2) v = .ok (reloc P d s1, Iterator.shift P.length it) := by
  have hsz : ∀ n, ((n + d) % wordSize + 1) % wordSize = ((n + 1) % wordSize + d) % wordSize := by
    intro n
    simp only [wordSize]
    omega
  unfold writeTail at h ⊢
  obtain ⟨here, e3, h⟩ := bind_ok h
  obtain ⟨h1, e4, h⟩ := bind_ok h
  obtain ⟨h3, e5, h⟩ := bind_ok h
  obtain ⟨here2, e6, h⟩ := bind_ok h
  obtain ⟨h4, e7, h⟩ := bind_ok h
  obtain ⟨h5, e8, h⟩ := bind_ok h
  cases h
  have E3 : elementAddr (reloc P d a2).heap (reloc P d a2).tail_block_ (ci % cap)
      = .ok (EPtr.shift P.length here) := elementAddr_reloc e3 P
  have E4 : updElem (reloc P d a2).heap (some (EPtr.shift P.length here))
      (fun e => { e with index_ := ci % cap }) = .ok (relocHeap P h1) :=
    updElem_reloc e4 P _ (fun _ => rfl)
  have E5 : (if (ci % cap + 1) % cap ≠ 0 then
        (updElem (relocHeap P h1) (some (EPtr.shift P.length here)) fun e =>
          { e with next_ := some (EPtr.shift P.length here).succ }) >>= fun h2 =>
          updElem h2 (some (EPtr.shift P.length here).succ) fun e =>
            { e with previous_ := some (EPtr.shift P.length here) }
      else pure (relocHeap P h1)) = .ok (relocHeap P h3) := by
    split at e5
    · rename_i hcnd
      rw [if_pos hcnd]
      obtain ⟨h2, e6, e7⟩ := bind_ok e5
      have E6 : updElem (relocHeap P h1) (some (EPtr.shift P.length here))
          (fun e => { e with next_ := some (EPtr.shift P.length here).succ })
          = .ok (relocHeap P h2) := updElem_reloc e6 P _ (fun _ => rfl)
      have E7 : updElem (relocHeap P h2) (some (EPtr.shift P.length here).succ)
          (fun e => { e with previous_ := some (EPtr.shift P.length here) })
          = .ok (relocHeap P h3) := updElem_reloc e7 P _ (fun _ => rfl)
      simp only [E6, bind, Except.bind, E7]
    · rename_i hcnd
      rw [if_neg hcnd]
      cases e5
      rfl
  have E6 : elementAddr (relocHeap P h3) (reloc P d a2).tail_block_ (ci % cap)
      = .ok (EPtr.shift P.length here2) := elementAddr_reloc e6 P
  have E7 : updElem (relocHeap P h3) (some (EPtr.shift P.length here2))
      (fun e => { e with value_ := some v }) = .ok (relocHeap P h4) :=
    updElem_reloc e7 P _ (fun _ => rfl)
  have E8 : updElem (relocHeap P h4) (some (EPtr.shift P.length here2))
      (fun e => { e with is_active_ := true }) = .ok (relocHeap P h5) :=
    updElem_reloc e8 P _ (fun _ => rfl)
  simp only [bind, Except.bind] at E5
  simp only [E3, E4, E5, E6, E7, E8, bind, Except.bind]
  simp only [reloc, Iterator.shift, hsz, Option.map_some']

theorem writeStep_reloc {ci cap : Nat} {s s1 : BucketStorage α} {v : α} {it : Iterator}
    (h : writeStep ci cap s v = .ok (s1, it)) (P : Heap α) (d : Nat) :
    writeStep ci cap (reloc P d s) v = .ok (reloc P d s1, Iterator.shift P.length it) := by
  rw [writeStep_eq_tail] at h ⊢
  obtain ⟨a2, e2, h⟩ := bind_ok h
  simp only [firstStep_reloc e2 P d, bind, Except.bind]
  exact writeTail_reloc h P d

theorem insert_reloc {s s1 : BucketStorage α} {v : α} {it : Iterator}
    (hld : s.last_deleting_.empty = true) (hcap : s.block_capacity_ ≠ 0)
    (h : BucketStorage.insert s v = .ok (s1, it)) (P : Heap α) (d : Nat) :
    BucketStorage.insert (reloc P d s) v = .ok (reloc P d s1, Iterator.shift P.length it) := by
  have hld1 : (reloc P d s).last_deleting_.empty = true := by
    simp only [Stack.empty, Stack.size, beq_iff_eq] at hld ⊢
    simp only [reloc, List.length_map]
    exact hld
  rw [insert_eq_writeStep s v hld hcap] at h
  rw [insert_eq_writeStep (reloc P d s) v hld1 hcap]
  obtain ⟨a1, e1, h⟩ := bind_ok h
  have hc : (reloc P d s).block_capacity_ = s.block_capacity_ := rfl
  have hi : (reloc P d s).current_index_ = s.current_index_ := rfl
  have E1 : (if s.current_index_ / s.block_capacity_ > 0 ∧
        s.current_index_ % s.block_capacity_ = 0 then addBlock (reloc P d s)
      else pure (reloc P d s)) = .ok (reloc P d a1) := by
    split at e1
    · rename_i hcnd
      rw [if_pos hcnd]
      exact addBlock_reloc e1 P d
    · rename_i hcnd
      rw [if_neg hcnd]
      cases e1
      rfl
  simp only [hc, hi, E1, bind, Except.bind]
  exact writeStep_reloc h P d

theorem elemCount_relocHeap (P h : Heap α) :
    elemCount (relocHeap P h) = elemCount P + elemCount h := by
  unfold relocHeap
  rw [elemCount_append]
  congr 1
  simp only [elemCount, List.map_map]
  congr 2
  funext b
  simp [Block.shift]

theorem skipInactive_reloc {H : Heap α} (P : Heap α) :
    ∀ (f : Nat) (p r : EPtr), Iterator.skipInactive f H p = .ok r →
      ∀ g, f ≤ g → Iterator.skipInactive g (relocHeap P H) (EPtr.shift P.length p)
        = .ok (EPtr.shift P.length r) := by
  intro f
  induction f with
  | zero => intro p r h; cases h
  | succ k ih =>
    intro p r h g hg
    obtain ⟨g1, rfl⟩ : ∃ g1, g = g1 + 1 := ⟨g - 1, by omega⟩
    unfold Iterator.skipInactive at h ⊢
    obtain ⟨e, e1, h⟩ := bind_ok h
    have E1 : elemAt (relocHeap P H) (some (EPtr.shift P.length p))
        = .ok (Element.shift P.length e) := elemAt_reloc e1 P
    simp only [E1, bind, Except.bind]
    cases hq : e.next_ with
    | none =>
      simp only [hq] at h
      cases h
      simp [Element.shift, hq]
    | some q =>
      simp only [hq] at h
      simp only [Element.shift, hq, Option.map_some']
      split at h
      · rename_i ha
        rw [if_pos ha]
        cases h
        rfl
      · rename_i ha
        rw [if_neg ha]
        exact ih q r h g1 (by omega)

theorem incr_reloc {s : BucketStorage α} {it r : Iterator} (h : Iterator.incr s it = .ok r)
    (P : Heap α) (d : Nat) :
    Iterator.incr (reloc P d s) (Iterator.shift P.length it) = .ok (Iterator.shift P.length r) := by
  unfold Iterator.incr at h ⊢
  cases hn : it.current_node_ with
  | none =>
    simp only [hn] at h
    cases h
    simp [Iterator.shift, hn, reloc]
  | some p =>
    simp only [hn] at h
    have hn1 : (Iterator.shift P.length it).current_node_ = some (EPtr.shift P.length p) := by
      simp [Iterator.shift, hn]
    simp only [hn1]
    obtain ⟨e, e1, h⟩ := bind_ok h
    have E1 : elemAt (reloc P d s).heap (some (EPtr.shift P.length p))
        = .ok (Element.shift P.length e) := elemAt_reloc e1 P
    simp only [E1, bind, Except.bind]
    cases hq : e.next_ with
    | none =>
      simp only [hq] at h
      cases h
      simp [Element.shift, hq, Iterator.shift, hn, EPtr.shift, EPtr.succ]
    | some q =>
      simp only [hq] at h
      simp only [Element.shift, hq, Option.map_some']
      obtain ⟨r1, e2, h⟩ := bind_ok h
      obtain ⟨er, e3, h⟩ := bind_ok h
      obtain ⟨blk, e4, h⟩ := bind_ok h
      cases h
      have E2 : Iterator.skipInactive (elemCount (reloc P d s).heap + 1) (reloc P d s).heap
          (EPtr.shift P.length q) = .ok (EPtr.shift P.length r1) :=
        skipInactive_reloc P _ q r1 e2 _ (by
          show elemCount s.heap + 1 ≤ elemCount (relocHeap P s.heap) + 1
          rw [elemCount_relocHeap]; omega)
      have E3 : elemAt (reloc P d s).heap (some (EPtr.shift P.length r1))
          = .ok (Element.shift P.length er) := elemAt_reloc e3 P
      have E4 : (if (Element.shift P.length er).index_ = 0 then
            (blockAt (reloc P d s).heap (Iterator.shift P.length it).current_block_).map
              fun b => b.next_
          else pure (Iterator.shift P.length it).current_block_)
          = .ok (blk.map fun i => i + P.length) := by
        have hidx : (Element.shift P.length er).index_ = er.index_ := rfl
        rw [hidx]
        split at e4
        · rename_i hi
          rw [if_pos hi]
          obtain ⟨b, hb, hb2⟩ := map_ok e4
          have := blockAt_reloc hb P
          rw [show (reloc P d s).heap = relocHeap P s.heap from rfl,
            show (Iterator.shift P.length it).current_block_
              = it.current_block_.map (fun i => i + P.length) from rfl, this, ← hb2]
          rfl
        · rename_i hi
          rw [if_neg hi]
          cases e4
          rfl
      simp only [E2, E3, E4]
      rfl

theorem deref_reloc {s : BucketStorage α} {it : Iterator} {v : α}
    (h : Iterator.deref s it = .ok v) (P : Heap α) (d : Nat) :
    Iterator.deref (reloc P d s) (Iterator.shift P.length it) = .ok v := by
  unfold Iterator.deref at h ⊢
  obtain ⟨e, e1, h⟩ := bind_ok h
  have E1 : elemAt (reloc P d s).heap (Iterator.shift P.length it).current_node_
      = .ok (Element.shift P.length e) := elemAt_reloc e1 P
  simp only [E1, bind, Except.bind]
  exact h

theorem getCurrent_reloc (s : BucketStorage α) (it : Iterator) (P : Heap α) (d : Nat) :
    Iterator.getCurrent (reloc P d s) (Iterator.shift P.length it)
      = ((Iterator.getCurrent s it).1.map (fun i => i + P.length),
         (Iterator.getCurrent s it).2) := by
  unfold Iterator.getCurrent
  cases hn : it.current_node_ with
  | none =>
    cases hl : s.last_object_ <;> simp [Iterator.shift, hn, reloc, hl, EPtr.shift]
  | some p => simp [Iterator.shift, hn, EPtr.shift]

theorem eq_reloc (s : BucketStorage α) (a b : Iterator) (P : Heap α) (d : Nat) :
    Iterator.eq (reloc P d s) (Iterator.shift P.length a) (Iterator.shift P.length b)
      = Iterator.eq s a b := by
  unfold Iterator.eq
  rw [getCurrent_reloc, getCurrent_reloc]
  rcases Iterator.getCurrent s a with ⟨oa, ia⟩
  rcases Iterator.getCurrent s b with ⟨ob, ib⟩
  cases oa <;> cases ob <;> simp [Prod.ext_iff]

theorem end_reloc (s : BucketStorage α) (P : Heap α) (d : Nat) :
    end_ (reloc P d s) = Iterator.shift P.length (end_ s) := rfl

theorem begin_reloc (s : BucketStorage α) (P : Heap α) (d : Nat) :
    begin (reloc P d s) = Iterator.shift P.length (begin s) := by
  unfold begin
  cases hh : s.head_block_ <;> simp [reloc, Iterator.shift, hh]

theorem valuesFrom_reloc (s : BucketStorage α) (P : Heap α) (d : Nat) :
    ∀ (f : Nat) (it : Iterator) (l : List α), BucketStorage.valuesFrom f s it = .ok l →
      BucketStorage.valuesFrom f (reloc P d s) (Iterator.shift P.length it) = .ok l := by
  intro f
  induction f with
  | zero => intro it l h; cases h
  | succ k ih =>
    intro it l h
    unfold BucketStorage.valuesFrom at h ⊢
    rw [end_reloc, eq_reloc]
    split at h
    · rename_i hend
      rw [if_pos hend]
      exact h
    · rename_i hend
      rw [if_neg hend]
      obtain ⟨v, e1, h⟩ := bind_ok h
      obtain ⟨it1, e2, h⟩ := bind_ok h
      obtain ⟨rest, e3, h⟩ := bind_ok h
      simp only [deref_reloc e1 P d, incr_reloc e2 P d, ih it1 rest e3, bind, Except.bind]
      exact h

theorem values_reloc {s : BucketStorage α} {f : Nat} {l : List α}
    (h : BucketStorage.values f s = .ok l) (P : Heap α) (d : Nat) :
    BucketStorage.values f (reloc P d s) = .ok l := by
  unfold BucketStorage.values at h ⊢
  rw [begin_reloc]
  exact valuesFrom_reloc s P d f _ l h

theorem block_shift_above (B : Nat) (b : Block α) : Block.Above B (Block.shift B b) := by
  refine ⟨?_, ?_, ?_, ?_⟩
  · intro i hi
    simp only [Block.shift, Option.map_eq_some'] at hi
    obtain ⟨a, -, rfl⟩ := hi
    omega
  · intro i hi
    simp only [Block.shift, Option.map_eq_some'] at hi
    obtain ⟨a, -, rfl⟩ := hi
    omega
  · intro e he
    simp only [Block.shift, List.mem_map] at he
    obtain ⟨a, -, rfl⟩ := he
    constructor
    · intro p hp
      simp only [Element.shift, Option.map_eq_some'] at hp
      obtain ⟨q, -, rfl⟩ := hp
      simp [EPtr.shift]
    · intro p hp
      simp only [Element.shift, Option.map_eq_some'] at hp
      obtain ⟨q, -, rfl⟩ := hp
      simp [EPtr.shift]
  · intro x hx
    simp only [Block.shift, List.mem_map] at hx
    obtain ⟨a, -, rfl⟩ := hx
    refine ⟨?_, ?_, ?_⟩ <;>
    · intro p hp
      simp only [DeletedCell.shift, Option.map_eq_some'] at hp
      obtain ⟨q, -, rfl⟩ := hp
      simp [EPtr.shift]

theorem sep_relocHeap (P h : Heap α) : Sep P (relocHeap P h) := by
  refine ⟨fun i hi => ?_, fun j b hj hb => ?_⟩
  · unfold relocHeap
    rw [List.getElem?_append_left hi]
  · unfold relocHeap at hb
    rw [List.getElem?_append_right hj, List.getElem?_map, Option.map_eq_some'] at hb
    obtain ⟨a, -, rfl⟩ := hb
    exact block_shift_above _ a

theorem owned_reloc (P : Heap α) (d : Nat) (u : BucketStorage α) : Owned P (reloc P d u) := by
  have hB : ∀ o : Option Nat, AboveB P.length (o.map fun i => i + P.length) := by
    intro o i hi
    simp only [Option.map_eq_some'] at hi
    obtain ⟨a, -, rfl⟩ := hi
    omega
  have hP : ∀ o : Option EPtr, AboveP P.length (o.map (EPtr.shift P.length)) := by
    intro o p hp
    simp only [Option.map_eq_some'] at hp
    obtain ⟨q, -, rfl⟩ := hp
    simp [EPtr.shift]
  refine { mem := sep_relocHeap P u.heap, head := hB _, tail := hB _, last := hP _,
           firstElem := hP _, stack := ?_ }
  intro x hx
  simp only [reloc, List.mem_map] at hx
  obtain ⟨a, -, rfl⟩ := hx
  exact hB a

theorem mutated_owned {P : Heap α} {t t1 : BucketStorage α} {its : List Iterator}
    (hO : Owned P t) (hm : Mutated t t1 its) :
    Owned P t1 ∧ ∀ it ∈ its, Iterator.Above P.length it := by
  induction hm with
  | start => exact ⟨hO, fun it hit => absurd hit (List.not_mem_nil _)⟩
  | atBegin _ ih =>
    refine ⟨ih.1, fun it hit => ?_⟩
    rcases List.mem_cons.mp hit with rfl | hit
    · refine ⟨?_, ih.1.head⟩
      unfold BucketStorage.begin
      simp only []
      split
      · exact ih.1.firstElem
      · exact aboveP_none _
    · exact ih.2 it hit
  | atEnd _ ih =>
    refine ⟨ih.1, fun it hit => ?_⟩
    rcases List.mem_cons.mp hit with rfl | hit
    · exact ⟨aboveP_none _, ih.1.tail⟩
    · exact ih.2 it hit
  | step _ hmem hrun ih =>
    refine ⟨ih.1, fun it hit => ?_⟩
    rcases List.mem_cons.mp hit with rfl | hit
    · exact incr_above ih.1 (ih.2 _ hmem) hrun
    · exact ih.2 it hit
  | back _ hmem hrun ih =>
    refine ⟨ih.1, fun it hit => ?_⟩
    rcases List.mem_cons.mp hit with rfl | hit
    · exact decr_above ih.1 (ih.2 _ hmem) hrun
    · exact ih.2 it hit
  | ins _ hrun ih =>
    obtain ⟨O2, ha⟩ := owned_insert ih.1 hrun
    refine ⟨O2, fun it hit => ?_⟩
    rcases List.mem_cons.mp hit with rfl | hit
    · exact ha
    · exact ih.2 it hit
  | del _ hmem hrun ih =>
    obtain ⟨O2, ha⟩ := owned_erase ih.1 (ih.2 _ hmem) hrun
    refine ⟨O2, fun it hit => ?_⟩
    rcases List.mem_cons.mp hit with rfl | hit
    · exact ha
    · exact ih.2 it hit

theorem Shape.transferLoop {c : Nat} {vs : List α} {m r : Nat} {s : BucketStorage α}
    (hS : Shape c vs m r s) (hnorm : 1 ≤ r ∨ vs.length = 0) (hc : 1 ≤ c)
    (hW : vs.length < wordSize) (d bc : Nat) :
    ∀ k j i pos fuel (u : BucketStorage α) (mu ru : Nat), j < m → i < c →
      j * c + i + k = vs.length → 1 ≤ k → k < fuel →
      Shape c (vs.take (j * c + i)) mu ru u → (1 ≤ ru ∨ j * c + i = 0) →
      ∃ u1 m1 r1, BucketStorage.transferLoop fuel s (reloc s.heap d u)
          ⟨some ⟨j, i⟩, some j, bc, pos⟩ = .ok (reloc s.heap d u1) ∧
        Shape c vs m1 r1 u1 ∧ (1 ≤ r1 ∨ vs.length = 0) := by
  intro k
  induction k with
  | zero => intro j i pos fuel u mu ru _ _ _ h; omega
  | succ k ih =>
    intro j i pos fuel u mu ru hj hi hg _ hf hSu hnu
    have hu : j * c + i < vs.length := by omega
    have hpos : vs.length ≠ 0 := by omega
    have hr1 : 1 ≤ r := by
      rcases hnorm with h | h
      · exact h
      · omega
    have hused := (hS.used_iff hj hi).mpr hu
    obtain ⟨f, rfl⟩ : ∃ f, fuel = f + 1 := ⟨fuel - 1, by omega⟩
    have hne : Iterator.eq s ⟨some ⟨j, i⟩, some j, bc, pos⟩ (end_ s) = false := by
      simp only [Iterator.eq, hS.end_current hr1 hpos]
      simp only [Iterator.getCurrent, beq_eq_false_iff_ne, ne_eq, Prod.mk.injEq, Option.some.injEq,
        not_and]
      intro hjm hir
      subst hjm hir
      omega
    have he : elemAt (reloc s.heap d u).heap (some ⟨j, i⟩) = .ok (expElem c vs m r j i) :=
      elemAt_append (elemAt_of_slot (hS.hslot j i hj hi)) _
    have hlen : (vs.take (j * c + i)).length = j * c + i := by
      rw [List.length_take]; omega
    obtain ⟨u1, it, m1, r1, hins, hS1, hr1', -, -⟩ :=
      hSu.insert (by rw [hlen]; exact hnu) hc (by rw [hlen]; omega) vs[j * c + i]
    have htake : vs.take (j * c + i) ++ [vs[j * c + i]] = vs.take (j * c + i + 1) := by
      rw [← List.concat_eq_append, List.take_concat_get]
    rw [htake] at hS1
    have hld : u.last_deleting_.empty = true := by rw [hSu.hld]; rfl
    have hcap : u.block_capacity_ ≠ 0 := by rw [hSu.hcap]; omega
    have hins1 := insert_reloc hld hcap hins s.heap d
    obtain ⟨it1, hinc, hcase⟩ := hS.incr hnorm hj hi hu bc pos
    have hinc1 : Iterator.incr { s with heap := (reloc s.heap d u1).heap }
        ⟨some ⟨j, i⟩, some j, bc, pos⟩ = .ok it1 := incr_append hinc _
    simp only [BucketStorage.transferLoop, hne, Bool.false_eq_true, if_false, he, bind,
      Except.bind, expElem, if_pos hused, List.getElem?_eq_getElem hu, hins1, Except.map, hinc1]
    rcases hcase with ⟨hlt, j1, i1, hj1, hi1, hg1, rfl⟩ | ⟨heq, hnode⟩
    · rw [← hg1] at hS1
      exact ih j1 i1 _ f u1 m1 r1 hj1 hi1 (by omega) (by omega) (by omega) hS1 (Or.inl hr1')
    · obtain ⟨f1, rfl⟩ : ∃ f1, f = f1 + 1 := ⟨f - 1, by omega⟩
      have hend : Iterator.eq s it1 (end_ s) = true := by
        rw [Iterator.eq, hS.end_current hr1 hpos]
        simp [Iterator.getCurrent, hnode]
      rw [heq, List.take_length] at hS1
      simp only [BucketStorage.transferLoop, hend, if_true]
      exact ⟨u1, m1, r1, rfl, hS1, Or.inl hr1'⟩

theorem Shape.copyConstruct {c : Nat} {vs : List α} {m r : Nat} {s : BucketStorage α}
    (hS : Shape c vs m r s) (hnorm : 1 ≤ r ∨ vs.length = 0) (hc : 1 ≤ c)
    (hW : vs.length < wordSize) (fuel : Nat) (hf : vs.length < fuel) :
    ∃ u1 m1 r1, BucketStorage.copyConstruct fuel s = .ok (reloc s.heap s.size_ u1) ∧
      Shape c vs m1 r1 u1 ∧ (1 ≤ r1 ∨ vs.length = 0) := by
  obtain ⟨u0, h0, hS0⟩ := shape_construct (α := α) c hc
  have hc0 : c ≠ 0 := by omega
  rw [construct, if_neg hc0] at h0
  cases h0
  have hsz : s.size_ % wordSize = s.size_ :=
    Nat.mod_eq_of_lt (by rw [hS.hsize]; exact hW)
  have ht0 : initializationContainer
      { heap := s.heap, last_deleting_ := Stack.new, head_block_ := none,
        tail_block_ := none, last_object_ := none, first_element_ := none,
        size_ := s.size_, block_capacity_ := s.block_capacity_, current_index_ := 0 }
      = reloc s.heap s.size_ (initializationContainer
          { heap := [], last_deleting_ := Stack.new, head_block_ := none, tail_block_ := none,
            last_object_ := none, first_element_ := none, size_ := 0,
            block_capacity_ := c, current_index_ := 0 }) := by
    simp only [initializationContainer, reloc, relocHeap, hsz, hS.hcap, List.nil_append,
      List.map_cons, List.map_nil, List.length_nil, Nat.zero_add, Option.map_some',
      Option.map_none', Stack.new]
    simp [Block.shift, Block.fresh, Element.shift, Element.fresh, Stack.new, hsz]
  have hhead : s.head_block_.isNone = false := by rw [hS.hhead]; rfl
  unfold BucketStorage.copyConstruct
  rw [hhead, ht0]
  simp only [Bool.false_eq_true, if_false]
  obtain ⟨f, rfl⟩ : ∃ f, fuel = f + 1 := ⟨fuel - 1, by omega⟩
  by_cases hpos : vs.length = 0
  · have hnil : vs = [] := List.eq_nil_of_length_eq_zero hpos
    subst hnil
    have hend : Iterator.eq s (begin s) (end_ s) = true := by
      simp [Iterator.eq, Iterator.getCurrent, begin, end_, hS.hfirst, hS.hlast]
    simp only [BucketStorage.transferLoop, hend, if_true]
    exact ⟨_, 1, 0, rfl, hS0, Or.inr rfl⟩
  · have hb : begin s = ⟨some ⟨0, 0⟩, some 0, s.block_capacity_, 0⟩ := by
      simp [begin, hS.hhead, hS.hfirst, hpos]
    rw [hb]
    have hm := hS.hm
    exact hS.transferLoop hnorm hc hW s.size_ s.block_capacity_ vs.length 0 0 0 (f + 1) _ 1 0
      (by omega) (by omega) (by simp) (by omega) hf (by simpa using hS0) (Or.inr (by simp))

/-- Claim C12.  For every block capacity `c ≥ 1` and every list `vs` of values whose length is
a `size_type` value, let `s` be the storage built by inserting `vs` into a fresh `Storage(c)`.
Iterating `s` yields `vs`.  The copy constructor applied to `s` returns a storage `t`, in the
same memory, whose iteration yields `vs` as well; afterwards iterating `s` still yields `vs`,
and it still does after any sequence of `insert` and `erase` calls on `t` that return, each
`erase` applied to an iterator of `t` the caller obtained from `begin()`, `end()`, `++`, `--`,
`insert` or `erase`. -/
theorem C12_copy_preserves_sequence (c : Nat) (hc : 1 ≤ c) (vs : List α)
    (hn : vs.length < wordSize) :
    ∃ s, (construct c >>= fun s0 => insertAll s0 vs) = .ok s ∧
      ∀ fuel, vs.length < fuel →
        values fuel s = .ok vs ∧
        ∃ t, copyConstruct fuel s = .ok t ∧
          values fuel t = .ok vs ∧
          values fuel { s with heap := t.heap } = .ok vs ∧
          ∀ t1 its, Mutated t t1 its → values fuel { s with heap := t1.heap } = .ok vs := by
  obtain ⟨s0, h0, hS0⟩ := shape_construct (α := α) c hc
  obtain ⟨s, m, r, h1, hS, hnorm⟩ := hS0.insertAll hc vs (Or.inr rfl) (by simpa using hn)
  simp only [List.nil_append] at hS hnorm
  refine ⟨s, by simp only [h0, bind, Except.bind]; exact h1, fun fuel hf => ?_⟩
  have hv := hS.values hnorm fuel hf
  obtain ⟨u1, m1, r1, hcopy, hS1, hnorm1⟩ := hS.copyConstruct hnorm hc hn fuel hf
  have hO := owned_reloc s.heap s.size_ u1
  refine ⟨hv, _, hcopy, values_reloc (hS1.values hnorm1 fuel hf) _ _,
    values_of_sep hv hO.mem, fun t1 its hm => ?_⟩
  exact values_of_sep hv (mutated_owned hO hm).1.mem

/-- Instance of C12: `Storage(2)` holding 1, 2, 3 and its copy. -/
theorem C12_copy_preserves_sequence_witness :
    (1 : Nat) ≤ 2 ∧ [1, 2, 3].length < wordSize ∧
    ∃ s, (construct 2 >>= fun s0 => insertAll s0 [1, 2, 3]) = .ok s ∧
      ∀ fuel, [1, 2, 3].length < fuel →
        values fuel s = .ok [1, 2, 3] ∧
        ∃ t, copyConstruct fuel s = .ok t ∧
          values fuel t = .ok [1, 2, 3] ∧
          values fuel { s with heap := t.heap } = .ok [1, 2, 3] ∧
          ∀ t1 its, Mutated t t1 its →
            values fuel { s with heap := t1.heap } = .ok [1, 2, 3] :=
  ⟨by decide, by decide, C12_copy_preserves_sequence 2 (by decide) [1, 2, 3] (by decide)⟩

theorem stack_applyAll_nodes (ops : List (StackOp α)) :
    ∀ s : Stack α, s.stale = 0 →
      ∃ s1, s.applyAll ops = .ok s1 ∧ s1.nodes = pendingFrom s.nodes ops ∧ s1.stale = 0 := by
  induction ops with
  | nil => intro s hs; exact ⟨s, rfl, rfl, hs⟩
  | cons op ops ih =>
    intro s hs
    cases op with
    | push v =>
      obtain ⟨s1, h1, h2, h3⟩ := ih (s.add v) hs
      exact ⟨s1, h1, h2, h3⟩
    | pop =>
      cases hn : s.nodes with
      | nil =>
        have hp : s.pop = .ok s := by simp [Stack.pop, hn, hs]
        obtain ⟨s1, h1, h2, h3⟩ := ih s hs
        refine ⟨s1, ?_, ?_, h3⟩
        · simp only [Stack.applyAll, hp, bind, Except.bind]
          exact h1
        · rw [h2, hn]
          rfl
      | cons a t =>
        have hp : s.pop = .ok { s with nodes := t } := by simp [Stack.pop, hn]
        obtain ⟨s1, h1, h2, h3⟩ := ih { s with nodes := t } hs
        refine ⟨s1, ?_, ?_, h3⟩
        · simp only [Stack.applyAll, hp, bind, Except.bind]
          exact h1
        · rw [h2]
          rfl

/-- Claim C21, refuted on the free stack the storage itself leaves behind.  The first part
holds for every stack: `top()` fails with the empty-container error exactly when `empty()` is
true, which is exactly when `size()` is 0.  The second part holds for stacks changed by `add`
and `pop` only: after any sequence of these calls on a new stack, `size()` is the number of
values pushed and not yet popped, and `top()` returns the most recent of them, or fails with the
empty-container error when there is none.  It fails for a stack that was the target of the
compiler-generated copy assignment from a stack destroyed afterwards: the target has the size
of the source, so it is non-empty whenever the source was, and `top()` reads a deleted node.
`delBlock` builds such a stack: in `Storage s(2)` holding 1 to 6, after the erase of 1, 3, 5
and then 6 (which reclaims block 2), `last_deleting_` answered `top()` with block 2 before the
last erase, and after it `empty()` is false, `size()` is 2 and `top()` reads a deleted node. -/
theorem C21_top_reads_deleted_node_after_copy_assignment :
    (∀ s : Stack α, (s.top = .error .emptyStack ↔ s.empty = true) ∧
      (s.empty = true ↔ s.size = 0)) ∧
    (∀ ops : List (StackOp α), ∃ s, Stack.applyAll Stack.new ops = .ok s ∧
      s.size = (pendingValues ops).length ∧
      s.top = (match pendingValues ops with
        | [] => .error .emptyStack
        | v :: _ => .ok v)) ∧
    (∀ src : Stack α, (Stack.copyThenDestroySource src).size = src.size ∧
      (src.size ≠ 0 → (Stack.copyThenDestroySource src).empty = false ∧
        (Stack.copyThenDestroySource src).top = .error .useAfterFree)) ∧
    (reclaimThirdBlock.map fun r =>
        (r.2.2.1.last_deleting_.top, r.2.2.2.last_deleting_.empty,
         r.2.2.2.last_deleting_.size, r.2.2.2.last_deleting_.top))
      = .ok (.ok (some 2), false, 2, .error .useAfterFree) := by
  refine ⟨?_, ?_, ?_, by decide⟩
  · intro s
    constructor
    · cases hn : s.nodes with
      | nil =>
        by_cases hs : s.stale = 0
        · simp [Stack.top, Stack.empty, Stack.size, hn, hs]
        · simp [Stack.top, Stack.empty, Stack.size, hn, hs]
      | cons a t => simp [Stack.top, Stack.empty, Stack.size, hn]
    · simp [Stack.empty]
  · intro ops
    obtain ⟨s, h1, h2, h3⟩ := stack_applyAll_nodes ops (Stack.new : Stack α) rfl
    refine ⟨s, h1, ?_, ?_⟩
    · simp only [Stack.size, h2, h3, pendingValues, Stack.new, Nat.add_zero]
    · have h2' : s.nodes = pendingValues ops := h2
      cases hp : pendingValues ops with
      | nil =>
        rw [hp] at h2'
        simp [Stack.top, h2', h3]
      | cons v rest =>
        rw [hp] at h2'
        simp [Stack.top, h2']
  · intro src
    refine ⟨by simp [Stack.copyThenDestroySource, Stack.size], fun h => ?_⟩
    constructor
    · simp only [Stack.copyThenDestroySource, Stack.empty, Stack.size, List.length_nil,
        Nat.zero_add]
      exact beq_false_of_ne h
    · simp only [Stack.copyThenDestroySource, Stack.top]
      exact if_neg h

theorem stack_drain_addAll (vs : List α) :
    ∀ s : Stack α, (s.addAll vs).drain vs.length = .ok (vs.reverse, s) := by
  induction vs using List.reverseRecOn with
  | nil => intro s; rfl
  | append_singleton vs v ih =>
    intro s
    have hadd : ∀ (l : List α) (t : Stack α), t.addAll (l ++ [v]) = (t.addAll l).add v := by
      intro l
      induction l with
      | nil => intro t; rfl
      | cons a l ihl => intro t; simp only [List.cons_append, Stack.addAll]; exact ihl _
    rw [hadd, List.length_append, List.length_singleton, List.reverse_append,
      List.reverse_singleton, List.singleton_append]
    simp only [Stack.drain, Stack.top, Stack.pop, Stack.add, bind, Except.bind]
    have := ih s
    simp only [] at this ⊢
    rw [this]

/-- Claim C22.  For every stack `s` and value `v`: after `add(v)` the size is the old size
plus 1 and `top()` returns `v`; a following `pop()` returns the stack `s` itself, with the same
contents in the same order and the same size.  After `add` of `v1`, ..., `vn` on any stack,
`n` rounds of `top()` followed by `pop()` return `vn`, ..., `v1` in that order and leave the
stack as it was before the pushes. -/
theorem C22_stack_lifo (s : Stack α) (v : α) :
    (s.add v).size = s.size + 1 ∧ (s.add v).top = .ok v ∧ (s.add v).pop = .ok s ∧
    ∀ vs : List α, (s.addAll vs).drain vs.length = .ok (vs.reverse, s) := by
  refine ⟨?_, rfl, rfl, fun vs => stack_drain_addAll vs s⟩
  simp only [Stack.size, Stack.add, List.length_cons]
  omega

theorem updElem_slot {h h1 : Heap α} {p : Option EPtr} {f : Element α → Element α}
    (hu : updElem h p f = .ok h1) (q : EPtr) :
    slot h1 q = if p = some q then (slot h q).map f else slot h q := by
  obtain ⟨q0, e, rfl, hs, rfl⟩ := updElem_ok hu
  rw [slot_putElem]
  by_cases hq : q = q0
  · subst hq
    simp [hs]
  · have hq2 : ¬ (some q0 = some q) := fun hh => hq (Option.some.inj hh).symm
    rw [if_neg hq, if_neg hq2]

theorem updElem_slot_some {h h1 : Heap α} {q : EPtr} {f : Element α → Element α}
    (hu : updElem h (some q) f = .ok h1) : ∃ e, slot h q = some e ∧ slot h1 q = some (f e) := by
  obtain ⟨q0, e, hq, hs, rfl⟩ := updElem_ok hu
  cases hq
  exact ⟨e, hs, by rw [slot_putElem, if_pos rfl, hs]; rfl⟩

/-- Claim C23, for every state.  When the reuse path of `insert` runs on a storage whose
global free stack has block `b` on top, whose top tombstone is `(L, P, R)` with all three
present, and the call returns, then the returned iterator references `P`, which holds the
value and is active; the backward link of `P` is `L`; the forward link of `L` is `P` (when `L`
is not `P`) and the backward link of `R` is `P` (when `R` is not `P`).  The forward link of
`P`, however, is `L`: it is `R` only when `L` and `R` are the same slot. -/
theorem C23_reuse_links_position_to_left (s s1 : BucketStorage α) (v : α) (it : Iterator)
    (b : Nat) (blk : Block α) (L P R : EPtr) (rest : List (Option Nat))
    (rest1 : List DeletedCell)
    (hld : s.last_deleting_.nodes = some b :: rest) (hb : s.heap[b]? = some blk)
    (hdc : blk.deleted_cells_.nodes = ⟨some L, some P, some R⟩ :: rest1)
    (h : BucketStorage.insert s v = .ok (s1, it)) :
    it.current_node_ = some P ∧
    ∃ eP, slot s1.heap P = some eP ∧ eP.value_ = some v ∧ eP.is_active_ = true ∧
      eP.previous_ = some L ∧ eP.next_ = some L ∧ (eP.next_ = some R ↔ L = R) ∧
      (L ≠ P → ∃ eL, slot s1.heap L = some eL ∧ eL.next_ = some P) ∧
      (R ≠ P → ∃ eR, slot s1.heap R = some eR ∧ eR.previous_ = some P) := by
  have hempty : s.last_deleting_.empty = false := by
    simp [Stack.empty, Stack.size, hld]
  unfold BucketStorage.insert at h
  rw [hempty] at h
  simp only [Bool.not_false, if_true] at h
  unfold insertInDeletedCell at h
  obtain ⟨r, e0, h⟩ := bind_ok h
  obtain ⟨h5, e5, h⟩ := bind_ok h
  obtain ⟨h6, e6, h⟩ := bind_ok h
  cases h
  unfold insertInDeletedCellBody at e0
  obtain ⟨tb, t1, e0⟩ := bind_ok e0
  obtain ⟨ld, t2, e0⟩ := bind_ok e0
  obtain ⟨blk1, t3, e0⟩ := bind_ok e0
  obtain ⟨cell, t4, e0⟩ := bind_ok e0
  obtain ⟨dc, t5, e0⟩ := bind_ok e0
  obtain ⟨h0, u0, e0⟩ := bind_ok e0
  obtain ⟨h1, u1, e0⟩ := bind_ok e0
  obtain ⟨h2, u2, e0⟩ := bind_ok e0
  obtain ⟨h3, u3, e0⟩ := bind_ok e0
  obtain ⟨h4, u4, e0⟩ := bind_ok e0
  cases e0
  have htb : tb = some b := by
    simp only [Stack.top, hld] at t1
    cases t1; rfl
  subst htb
  obtain ⟨j, hj, hblk1, -⟩ := blockAt_ok t3
  cases hj
  rw [hb] at hblk1
  cases hblk1
  have hcell : cell = ⟨some L, some P, some R⟩ := by
    simp only [Stack.top, hdc] at t4
    cases t4; rfl
  subst hcell
  simp only [] at u1 u2 u3 u4 e5 e6
  obtain ⟨a1, ha1, hs1⟩ := updElem_slot_some u1
  obtain ⟨a2, ha2, hs2⟩ := updElem_slot_some u2
  obtain ⟨a3, ha3, hs3⟩ := updElem_slot_some u3
  obtain ⟨a4, ha4, hs4⟩ := updElem_slot_some u4
  obtain ⟨a5, ha5, hs5⟩ := updElem_slot_some e5
  obtain ⟨a6, ha6, hs6⟩ := updElem_slot_some e6
  rw [hs3] at ha4
  cases ha4
  rw [hs4] at ha5
  cases ha5
  rw [hs5] at ha6
  cases ha6
  refine ⟨rfl, _, hs6, rfl, rfl, rfl, rfl, ?_, ?_, ?_⟩
  · simp only [Option.some.injEq]
  · intro hne
    have hne2 : ¬ (some P = some L) := fun hh => hne (Option.some.inj hh).symm
    have k6 := updElem_slot e6 L
    have k5 := updElem_slot e5 L
    have k4 := updElem_slot u4 L
    have k3 := updElem_slot u3 L
    have k2 := updElem_slot u2 L
    rw [if_neg hne2] at k6 k5 k4 k3
    rw [k6, k5, k4, k3, k2, hs1]
    by_cases hRL : (some R : Option EPtr) = some L
    · rw [if_pos hRL]
      exact ⟨_, rfl, rfl⟩
    · rw [if_neg hRL]
      exact ⟨_, rfl, rfl⟩
  · intro hne
    have hne2 : ¬ (some P = some R) := fun hh => hne (Option.some.inj hh).symm
    have k6 := updElem_slot e6 R
    have k5 := updElem_slot e5 R
    have k4 := updElem_slot u4 R
    have k3 := updElem_slot u3 R
    rw [if_neg hne2] at k6 k5 k4 k3
    rw [k6, k5, k4, k3, hs2]
    exact ⟨_, rfl, rfl⟩

/-- Instance of C23: `Storage s(4)` holding 1, 2, 3, 4 after the erase of 2; insert 7.  The
tombstone is (block 0 index 0, block 0 index 1, block 0 index 2); the slot of 7 ends up linked
forward to index 0, not to index 2. -/
theorem C23_reuse_links_position_to_left_witness :
    fourEraseSecond.1.last_deleting_.nodes = some 0 :: [] ∧
    fourEraseSecond.1.heap[0]? = some (fourEraseSecond.1.heap.headD (Block.fresh 0)) ∧
    (fourEraseSecond.1.heap.headD (Block.fresh 0)).deleted_cells_.nodes
      = ⟨some ⟨0, 0⟩, some ⟨0, 1⟩, some ⟨0, 2⟩⟩ :: [] ∧
    BucketStorage.insert fourEraseSecond.1 7
      = .ok (resultOf (BucketStorage.insert fourEraseSecond.1 7)) ∧
    (⟨0, 0⟩ : EPtr) ≠ ⟨0, 2⟩ ∧
    ((resultOf (BucketStorage.insert fourEraseSecond.1 7)).2.current_node_ = some ⟨0, 1⟩ ∧
    ∃ eP, slot (resultOf (BucketStorage.insert fourEraseSecond.1 7)).1.heap ⟨0, 1⟩ = some eP ∧
      eP.value_ = some 7 ∧ eP.is_active_ = true ∧
      eP.previous_ = some ⟨0, 0⟩ ∧ eP.next_ = some ⟨0, 0⟩ ∧
      (eP.next_ = some ⟨0, 2⟩ ↔ (⟨0, 0⟩ : EPtr) = ⟨0, 2⟩) ∧
      ((⟨0, 0⟩ : EPtr) ≠ ⟨0, 1⟩ → ∃ eL,
        slot (resultOf (BucketStorage.insert fourEraseSecond.1 7)).1.heap ⟨0, 0⟩ = some eL ∧
        eL.next_ = some ⟨0, 1⟩) ∧
      ((⟨0, 2⟩ : EPtr) ≠ ⟨0, 1⟩ → ∃ eR,
        slot (resultOf (BucketStorage.insert fourEraseSecond.1 7)).1.heap ⟨0, 2⟩ = some eR ∧
        eR.previous_ = some ⟨0, 1⟩)) :=
  ⟨by decide, by decide, by decide, by decide, by decide,
    C23_reuse_links_position_to_left fourEraseSecond.1
      (resultOf (BucketStorage.insert fourEraseSecond.1 7)).1 7
      (resultOf (BucketStorage.insert fourEraseSecond.1 7)).2 0
      (fourEraseSecond.1.heap.headD (Block.fresh 0)) ⟨0, 0⟩ ⟨0, 1⟩ ⟨0, 2⟩ [] []
      (by decide) (by decide) (by decide) (by decide)⟩

/-- Claim C24, for every block capacity `c ≥ 1`, every list `vs` of at least `c` values and
every value `v`: in the storage built by inserting `vs` into a fresh `Storage(c)`,
`insert(v)` returns an iterator that dereferences to `v` and references a slot of block
`vs.length / c`, which is not block 0, while its tracked block is block 0, the head block.
When `c ≥ 2` and `erase` of that iterator returns, the tombstone of the slot is the only
tombstone of block 0, the block that owns the slot has none, and the global free stack holds
block 0. -/
theorem C24_insert_iterator_tracks_head_block (c : Nat) (hc : 1 ≤ c) (vs : List α)
    (hfull : c ≤ vs.length) (hW : vs.length + 1 < wordSize) (v : α) :
    ∃ s s1 it p, (construct c >>= fun s0 => insertAll s0 vs) = .ok s ∧
      BucketStorage.insert s v = .ok (s1, it) ∧ it.current_node_ = some p ∧
      Iterator.deref s1 it = .ok v ∧ p.blk = vs.length / c ∧ p.blk ≠ 0 ∧
      it.current_block_ = some 0 ∧
      (2 ≤ c → ∀ s2 r, erase s1 it = .ok (s2, r) →
        (∃ b0 d, s2.heap[0]? = some b0 ∧ b0.deleted_cells_.nodes = [d] ∧
          d.position_ = some p) ∧
        (∃ bp, s2.heap[p.blk]? = some bp ∧ bp.deleted_cells_.nodes = []) ∧
        s2.last_deleting_.nodes = [some 0]) := by
  obtain ⟨s0, h0, hS0⟩ := shape_construct (α := α) c hc
  obtain ⟨s, m, r, h1, hS, hnorm⟩ := hS0.insertAll hc vs (Or.inr rfl) (by simp; omega)
  simp only [List.nil_append] at hS hnorm
  obtain ⟨s1, it, m1, r1, hins, hS1, hr1, hnode, hblk⟩ := hS.insert hnorm hc hW v
  have hidx := hS1.index_eq
  have hr := hS1.hr
  have hm1 := hS1.hm
  simp only [List.length_append, List.length_singleton] at hidx
  obtain ⟨k, rfl⟩ : ∃ k, m1 = k + 1 := ⟨m1 - 1, by omega⟩
  obtain ⟨i, rfl⟩ : ∃ i, r1 = i + 1 := ⟨r1 - 1, by omega⟩
  simp only [Nat.add_sub_cancel] at hidx hnode
  have hn : vs.length = i + k * c := by omega
  have hdiv : vs.length / c = k := by
    rw [hn, Nat.add_mul_div_right _ _ (by omega), Nat.div_eq_of_lt (by omega), Nat.zero_add]
  have hk : k ≠ 0 := by
    rintro rfl
    omega
  have hused : k + 1 < k + 1 ∨ i < i + 1 := Or.inr (Nat.lt_succ_self i)
  have hsl := hS1.hslot k i (by omega) (by omega)
  have hget : (vs ++ [v])[k * c + i]? = some v := by
    have : k * c + i = vs.length := by omega
    rw [this]
    simp
  have hderef : Iterator.deref s1 it = .ok v := by
    simp only [Iterator.deref, hnode, elemAt_of_slot hsl, bind, Except.bind, expElem,
      if_pos hused, hget]
  refine ⟨s, s1, it, ⟨k, i⟩, by simp only [h0, bind, Except.bind]; exact h1, hins, hnode,
    hderef, hdiv.symm, hk, hblk, ?_⟩
  intro hc2 s2 r herase
  obtain ⟨b0, hb0, -, -, -, hdc0, -⟩ := hS1.hblk 0 (by omega)
  obtain ⟨bk, hbk, -, -, -, hdck, -⟩ := hS1.hblk k (by omega)
  obtain ⟨bi, blk, A, e, hbi, hblk0, -, hA, -, hld2, -, hsb⟩ := erase_no_reclaim herase (by
    intro bi blk hbi hb
    rw [hblk] at hbi
    cases hbi
    rw [hb0] at hb
    cases hb
    rw [hdc0, hS1.hcap]
    simp only [Stack.size, Stack.new, List.length_nil]
    omega)
  rw [hblk] at hbi
  cases hbi
  rw [hb0] at hblk0
  cases hblk0
  rw [hnode] at hA
  cases hA
  have hlt0 : 0 < s1.heap.length := (List.getElem?_eq_some_iff.mp hb0).1
  refine ⟨?_, ?_, ?_⟩
  · obtain ⟨b1, hb1, hh⟩ := hsb.2 0 _ (by rw [List.getElem?_set_self hlt0])
    refine ⟨b1, ⟨e.previous_, some ⟨k, i⟩, e.next_⟩, hb1, ?_, rfl⟩
    rw [hh.2.2.1]
    simp only [hdc0, Stack.add, Stack.new]
  · have hne : (0 : Nat) ≠ k := fun hh => hk hh.symm
    obtain ⟨b1, hb1, hh⟩ := hsb.2 k bk (by rw [List.getElem?_set_ne hne]; exact hbk)
    refine ⟨b1, hb1, ?_⟩
    rw [hh.2.2.1, hdck]
    rfl
  · rw [hld2, hS1.hld]
    rfl

/-- Instance of C24: `Storage s(2)`; insert 1, 2; `it3 = insert(3)`; `erase(it3)`.  The
iterator references block 1 index 0 and tracks block 0; the erase returns, block 0 then holds
one tombstone and block 1 none. -/
theorem C24_insert_iterator_tracks_head_block_witness :
    (1 : Nat) ≤ 2 ∧ 2 ≤ [1, 2].length ∧ [1, 2].length + 1 < wordSize ∧
    (eraseViaInsertIterator.map fun r =>
      r.1.heap.map fun b => b.deleted_cells_.nodes.map fun d => d.position_)
      = .ok [[some ⟨1, 0⟩], []] ∧
    ∃ s s1 it p, (construct 2 >>= fun s0 => insertAll s0 [1, 2]) = .ok s ∧
      BucketStorage.insert s 3 = .ok (s1, it) ∧ it.current_node_ = some p ∧
      Iterator.deref s1 it = .ok 3 ∧ p.blk = [1, 2].length / 2 ∧ p.blk ≠ 0 ∧
      it.current_block_ = some 0 ∧
      (2 ≤ 2 → ∀ s2 r, erase s1 it = .ok (s2, r) →
        (∃ b0 d, s2.heap[0]? = some b0 ∧ b0.deleted_cells_.nodes = [d] ∧
          d.position_ = some p) ∧
        (∃ bp, s2.heap[p.blk]? = some bp ∧ bp.deleted_cells_.nodes = []) ∧
        s2.last_deleting_.nodes = [some 0]) :=
  ⟨by decide, by decide, by decide, by decide,
    C24_insert_iterator_tracks_head_block 2 (by decide) [1, 2] (by decide) (by decide) 3⟩

theorem purgeLoop_succ (k : Nat) (old acc : Stack (Option Nat)) (block : Option Nat) :
    purgeLoop (k + 1) old acc block =
      if old.empty then .ok acc
      else old.top >>= fun link => old.pop >>= fun old1 =>
        purgeLoop k old1 (if link ≠ block then acc.add link else acc) block := rfl

theorem purgeLoop_eq (block : Option Nat) :
    ∀ (l : List (Option Nat)) (acc : Stack (Option Nat)),
      purgeLoop (l.length + 1) ⟨l, 0⟩ acc block
        = .ok ⟨(l.filter fun x => decide (x ≠ block)).reverse ++ acc.nodes, acc.stale⟩ := by
  intro l
  induction l with
  | nil =>
    intro acc
    simp [purgeLoop, Stack.empty, Stack.size]
  | cons a l ih =>
    intro acc
    have hne : (⟨a :: l, 0⟩ : Stack (Option Nat)).empty = false := by
      simp [Stack.empty, Stack.size]
    rw [List.length_cons, purgeLoop_succ, hne]
    simp only [Bool.false_eq_true, if_false, Stack.top, Stack.pop, bind, Except.bind]
    rw [ih]
    by_cases h : a = block
    · subst h
      simp
    · simp [h, Stack.add, List.filter_cons]

/-- Claim C25, evaluated on `Storage s(2)` holding 1 to 6 in three blocks, after the erase of
1, 3 and 5 (through `begin()`, `++` and the iterators `erase` returned, each tracking the
block of its slot) and then of 6, which reclaims block 2.  Before the last erase the global
free stack holds blocks 2, 1, 0, most recent first; afterwards it has two entries and no
node: the purge loop rebuilt the survivors in reverse order (for every stack it returns the
surviving entries reversed) and the copy assignment kept only the pointer to nodes that the
destructor of the rebuilt stack then deleted.  The next `insert` reads a deleted node. -/
theorem C25_purge_reverses_and_frees_survivors :
    (∀ (l : List (Option Nat)) (block : Option Nat),
      purgeLoop (l.length + 1) ⟨l, 0⟩ Stack.new block
        = .ok ⟨(l.filter fun x => decide (x ≠ block)).reverse, 0⟩)
    ∧ (reclaimThirdBlock.map fun r =>
        (r.1, r.2.1, r.2.2.1.last_deleting_, (r.2.2.1.heap.map fun b => b.previous_.isSome)))
      = .ok ([3, 5, 6], [some 1, some 2, some 2], ⟨[some 2, some 1, some 0], 0⟩,
             [false, true, true])
    ∧ purgeLoop 5 ⟨[some 2, some 2, some 1, some 0], 0⟩ Stack.new (some 2)
      = .ok ⟨[some 0, some 1], 0⟩
    ∧ (reclaimThirdBlock.map fun r =>
        (r.2.2.2.last_deleting_, (r.2.2.2.heap.map fun b => b.released), values 3 r.2.2.2))
      = .ok (⟨[], 2⟩, [false, false, true], .ok [2, 4])
    ∧ (reclaimThirdBlock >>= fun r => BucketStorage.insert r.2.2.2 9)
      = .error .useAfterFree := by
  refine ⟨fun l block => ?_, by decide, by decide, by decide, by decide⟩
  have := purgeLoop_eq block l Stack.new
  simpa [Stack.new] using this

theorem set_same {β : Type} {L : List β} {j : Nat} {x : β} (h : L[j]? = some x) :
    L.set j x = L := by
  apply List.ext_getElem?
  intro i
  rw [List.getElem?_set]
  by_cases hji : j = i
  · subst hji
    simp [(List.getElem?_eq_some_iff.mp h).1, h]
  · simp [hji]

theorem entry_setEntry {β : Type} (L : List (List β)) (j i : Nat) (v : β) (j1 i1 : Nat) :
    entry (setEntry L j i v) j1 i1 =
      if j1 = j ∧ i1 = i then (entry L j i).map (fun _ => v) else entry L j1 i1 := by
  unfold entry setEntry
  cases hj : L[j]? with
  | none =>
    by_cases hc : j1 = j ∧ i1 = i
    · obtain ⟨rfl, rfl⟩ := hc
      simp [hj]
    · simp only [if_neg hc]
  | some r =>
    have hlt : j < L.length := (List.getElem?_eq_some_iff.mp hj).1
    simp only [List.getElem?_set]
    by_cases hjj : j = j1
    · subst hjj
      simp only [hlt, if_true, hj, true_and]
      by_cases hii : i1 = i
      · subst hii
        simp only [if_true, List.getElem?_set]
        cases hr : r[i1]? with
        | none =>
          have := List.getElem?_eq_none_iff.mp hr
          simp
          omega
        | some x =>
          have := (List.getElem?_eq_some_iff.mp hr).1
          simp [this]
      · have : i ≠ i1 := fun h => hii h.symm
        simp [List.getElem?_set, this, hii]
    · have : ¬ (j1 = j ∧ i1 = i) := fun h => hjj h.1.symm
      simp [hjj, this]

theorem setEntry_same {β : Type} {L : List (List β)} {j i : Nat} {v : β}
    (h : entry L j i = some v) : setEntry L j i v = L := by
  unfold entry at h
  unfold setEntry
  cases hj : L[j]? with
  | none => rfl
  | some r =>
    simp only [hj] at h
    simp only []
    rw [set_same h, set_same hj]

theorem length_setEntry {β : Type} (L : List (List β)) (j i : Nat) (v : β) :
    (setEntry L j i v).length = L.length := by
  unfold setEntry
  cases L[j]? <;> simp

theorem entry_lt {β : Type} {L : List (List β)} {j i : Nat} {v : β} (h : entry L j i = some v) :
    j < L.length := by
  unfold entry at h
  cases hj : L[j]? with
  | none => simp [hj] at h
  | some r => exact (List.getElem?_eq_some_iff.mp hj).1

theorem entry_actsOf (h : Heap α) (q : EPtr) :
    entry (actsOf h) q.blk q.idx = (slot h q).map fun e => e.is_active_ := by
  unfold entry actsOf slot
  rw [List.getElem?_map]
  cases h[q.blk]? with
  | none => rfl
  | some b => simp [List.getElem?_map]

theorem length_linksOf (h : Heap α) : (linksOf h).length = h.length := by simp [linksOf]

theorem length_tombsOf (h : Heap α) : (tombsOf h).length = h.length := by simp [tombsOf]

theorem length_actsOf (h : Heap α) : (actsOf h).length = h.length := by simp [actsOf]

theorem getElem?_linksOf (h : Heap α) (j : Nat) : (linksOf h)[j]? = (h[j]?).map Block.link := by
  simp [linksOf, List.getElem?_map]

theorem getElem?_tombsOf (h : Heap α) (j : Nat) : (tombsOf h)[j]? = (h[j]?).map Block.tombs := by
  simp [tombsOf, List.getElem?_map]

theorem views_putElem (h : Heap α) (q : EPtr) (e : Element α) :
    tombsOf (putElem h q e) = tombsOf h ∧ linksOf (putElem h q e) = linksOf h ∧
    actsOf (putElem h q e) = setEntry (actsOf h) q.blk q.idx e.is_active_ := by
  unfold putElem setEntry
  cases hb : h[q.blk]? with
  | none =>
    have : (actsOf h)[q.blk]? = none := by simp [actsOf, List.getElem?_map, hb]
    simp [this]
  | some b =>
    have ha : (actsOf h)[q.blk]? = some (b.elements_.map fun e => e.is_active_) := by
      simp [actsOf, List.getElem?_map, hb]
    refine ⟨?_, ?_, ?_⟩
    · simp only [tombsOf, List.map_set]
      exact set_same (by simp [List.getElem?_map, hb, Block.tombs])
    · simp only [linksOf, List.map_set]
      exact set_same (by simp [List.getElem?_map, hb, Block.link])
    · simp only [ha]
      simp only [actsOf, List.map_set]

/-- A write through an element pointer that keeps the active flag changes none of the three
tables. -/
theorem views_updElem {h h1 : Heap α} {p : Option EPtr} {f : Element α → Element α}
    (hu : updElem h p f = .ok h1) (hf : ∀ e, (f e).is_active_ = e.is_active_) :
    tombsOf h1 = tombsOf h ∧ linksOf h1 = linksOf h ∧ actsOf h1 = actsOf h := by
  obtain ⟨q, e, rfl, hs, rfl⟩ := updElem_ok hu
  obtain ⟨a, b, c⟩ := views_putElem h q (f e)
  refine ⟨a, b, ?_⟩
  rw [c, hf]
  apply setEntry_same
  rw [entry_actsOf, hs]
  rfl

/-- A write of the active flag through an element pointer. -/
theorem views_setActive {h h1 : Heap α} {p : Option EPtr} {v : Bool}
    (hu : updElem h p (fun e => { e with is_active_ := v }) = .ok h1) :
    ∃ q, p = some q ∧ (∃ e, slot h q = some e) ∧ tombsOf h1 = tombsOf h ∧
      linksOf h1 = linksOf h ∧ actsOf h1 = setEntry (actsOf h) q.blk q.idx v := by
  obtain ⟨q, e, rfl, hs, rfl⟩ := updElem_ok hu
  obtain ⟨a, b, c⟩ := views_putElem h q { e with is_active_ := v }
  exact ⟨q, rfl, ⟨e, hs⟩, a, b, c⟩

/-- A write through a block pointer that keeps the element array. -/
theorem views_updBlock {h h1 : Heap α} {b : Option Nat} {f : Block α → Block α}
    (hu : updBlock h b f = .ok h1) (hf : ∀ x, (f x).elements_ = x.elements_) :
    ∃ j blk, b = some j ∧ h[j]? = some blk ∧ blk.released = false ∧
      tombsOf h1 = (tombsOf h).set j (f blk).tombs ∧
      linksOf h1 = (linksOf h).set j (f blk).link ∧ actsOf h1 = actsOf h := by
  obtain ⟨j, blk, rfl, hb, hr, rfl⟩ := updBlock_ok hu
  refine ⟨j, blk, rfl, hb, hr, ?_, ?_, ?_⟩
  · simp only [tombsOf, List.map_set]
  · simp only [linksOf, List.map_set]
  · simp only [actsOf, List.map_set]
    exact set_same (by simp [List.getElem?_map, hb, hf])

theorem entry_set {β : Type} (T : List (List β)) (j : Nat) (r : List β) (j1 i1 : Nat) :
    entry (T.set j r) j1 i1 = if j1 = j ∧ j < T.length then r[i1]? else entry T j1 i1 := by
  unfold entry
  rw [List.getElem?_set]
  by_cases hj : j = j1
  · subst hj
    by_cases hlt : j < T.length
    · simp [hlt]
    · simp [hlt, List.getElem?_eq_none (Nat.le_of_not_lt hlt)]
  · have : ¬ (j1 = j ∧ j < T.length) := fun h => hj h.1.symm
    simp [hj, this]

theorem entry_append_left {β : Type} {T : List (List β)} {j i : Nat} {v : β}
    (h : entry T j i = some v) (X : List (List β)) : entry (T ++ X) j i = some v := by
  have hlt := entry_lt h
  unfold entry at h ⊢
  rw [List.getElem?_append_left hlt]
  exact h

theorem entry_append_nil {β : Type} {T : List (List β)} {j i : Nat} {v : β}
    (h : entry (T ++ [[]]) j i = some v) : entry T j i = some v := by
  unfold entry at h ⊢
  by_cases hlt : j < T.length
  · rw [List.getElem?_append_left hlt] at h
    exact h
  · rw [List.getElem?_append_right (Nat.le_of_not_lt hlt)] at h
    cases hk : j - T.length with
    | zero => simp [hk] at h
    | succ m => simp [hk] at h

theorem named_append_nil {T : List (List DeletedCell)} {q : EPtr}
    (h : NamedIn (T ++ [[]]) q) : NamedIn T q := by
  obtain ⟨j, i, d, hd, hq⟩ := h
  exact ⟨j, i, d, entry_append_nil hd, hq⟩

theorem named_set_tail {T : List (List DeletedCell)} {j : Nat} {d : DeletedCell}
    {rest : List DeletedCell} (hj : T[j]? = some (d :: rest)) {q : EPtr}
    (h : NamedIn (T.set j rest) q) : NamedIn T q := by
  obtain ⟨j1, i1, d1, hd, hq⟩ := h
  rw [entry_set] at hd
  split at hd
  · rename_i hc
    obtain ⟨rfl, -⟩ := hc
    exact ⟨j1, i1 + 1, d1, by simp [entry, hj, hd], hq⟩
  · exact ⟨j1, i1, d1, hd, hq⟩

theorem named_set_nil {T : List (List DeletedCell)} {j : Nat} {q : EPtr}
    (h : NamedIn (T.set j []) q) : NamedIn T q := by
  obtain ⟨j1, i1, d1, hd, hq⟩ := h
  rw [entry_set] at hd
  split at hd
  · simp at hd
  · exact ⟨j1, i1, d1, hd, hq⟩

theorem named_set_cons {T : List (List DeletedCell)} {j : Nat} {d : DeletedCell}
    {r : List DeletedCell} (hj : T[j]? = some r) {p q : EPtr} (hd : d.position_ = some p)
    (h : NamedIn (T.set j (d :: r)) q) : q = p ∨ NamedIn T q := by
  obtain ⟨j1, i1, d1, hd1, hq⟩ := h
  rw [entry_set] at hd1
  split at hd1
  · rename_i hc
    obtain ⟨rfl, -⟩ := hc
    cases i1 with
    | zero =>
      simp only [List.getElem?_cons_zero, Option.some.injEq] at hd1
      subst hd1
      rw [hd] at hq
      cases hq
      exact Or.inl rfl
    | succ m =>
      simp only [List.getElem?_cons_succ] at hd1
      exact Or.inr ⟨j1, m, d1, by simp [entry, hj, hd1], hq⟩
  · exact Or.inr ⟨j1, i1, d1, hd1, hq⟩

theorem entry_setEntry_ne {β : Type} (L : List (List β)) {p q : EPtr} (v : β) (h : q ≠ p) :
    entry (setEntry L p.blk p.idx v) q.blk q.idx = entry L q.blk q.idx := by
  rw [entry_setEntry]
  have : ¬ (q.blk = p.blk ∧ q.idx = p.idx) := by
    intro hc
    apply h
    cases p; cases q
    simp_all
  rw [if_neg this]

/-- Reuse: the top tombstone of a block is popped and the slot it names becomes active. -/
theorem tomb_pop {T : List (List DeletedCell)} {A : List (List Bool)} (hT : TombInv T A)
    {j : Nat} {d : DeletedCell} {rest : List DeletedCell} (hj : T[j]? = some (d :: rest))
    {q : EPtr} (hq : d.position_ = some q) :
    TombInv (T.set j rest) (setEntry A q.blk q.idx true) := by
  have hlt : j < T.length := (List.getElem?_eq_some_iff.mp hj).1
  have h0 : entry T j 0 = some d := by simp [entry, hj]
  have back : ∀ j1 i1 d1, entry (T.set j rest) j1 i1 = some d1 →
      entry T j1 (if j1 = j then i1 + 1 else i1) = some d1 := by
    intro j1 i1 d1 h
    rw [entry_set] at h
    by_cases hc : j1 = j
    · subst hc
      simp only [hlt, and_self, if_true] at h
      simp [entry, hj, h]
    · simp only [hc, false_and, if_false] at h
      simp [hc, h]
  constructor
  · intro j1 i1 d1 h
    have hb := back j1 i1 d1 h
    obtain ⟨q1, hq1, ha⟩ := hT.inactive _ _ _ hb
    refine ⟨q1, hq1, ?_⟩
    have hne : q1 ≠ q := by
      intro he
      subst he
      have := hT.unique _ _ _ _ _ _ hb h0 (hq1.trans hq.symm)
      by_cases hc : j1 = j
      · simp [hc] at this
      · exact hc this.1
    rw [entry_setEntry_ne A true hne]
    exact ha
  · intro j1 i1 d1 j2 i2 d2 h1 h2 hp
    have := hT.unique _ _ _ _ _ _ (back _ _ _ h1) (back _ _ _ h2) hp
    obtain ⟨hj12, hi⟩ := this
    subst hj12
    refine ⟨rfl, ?_⟩
    by_cases hc : j1 = j
    · simp only [hc, if_true] at hi
      omega
    · simpa [hc] using hi

/-- Erase: a tombstone naming an active slot is pushed and the slot stops being active. -/
theorem tomb_push {T : List (List DeletedCell)} {A : List (List Bool)} (hT : TombInv T A)
    {j : Nat} {r : List DeletedCell} (hj : T[j]? = some r) {q : EPtr}
    (ha : entry A q.blk q.idx = some true) {d : DeletedCell} (hd : d.position_ = some q) :
    TombInv (T.set j (d :: r)) (setEntry A q.blk q.idx false) := by
  have hlt : j < T.length := (List.getElem?_eq_some_iff.mp hj).1
  have back : ∀ j1 i1 d1, entry (T.set j (d :: r)) j1 i1 = some d1 →
      (j1 = j ∧ i1 = 0 ∧ d1 = d) ∨
      (entry T j1 (if j1 = j then i1 - 1 else i1) = some d1 ∧ (j1 = j → 1 ≤ i1)) := by
    intro j1 i1 d1 h
    rw [entry_set] at h
    by_cases hc : j1 = j
    · subst hc
      simp only [hlt, and_self, if_true] at h
      cases i1 with
      | zero =>
        simp only [List.getElem?_cons_zero, Option.some.injEq] at h
        exact Or.inl ⟨rfl, rfl, h.symm⟩
      | succ m =>
        simp only [List.getElem?_cons_succ] at h
        exact Or.inr ⟨by simp [entry, hj, h], fun _ => by omega⟩
    · simp only [hc, false_and, if_false] at h
      exact Or.inr ⟨by simp [hc, h], fun hh => absurd hh hc⟩
  have old_ne : ∀ j1 i1 d1, entry T j1 i1 = some d1 → d1.position_ ≠ some q := by
    intro j1 i1 d1 h he
    obtain ⟨q1, hq1, hf⟩ := hT.inactive _ _ _ h
    rw [he] at hq1
    cases hq1
    rw [ha] at hf
    cases hf
  constructor
  · intro j1 i1 d1 h
    rcases back j1 i1 d1 h with ⟨-, -, rfl⟩ | ⟨hb, -⟩
    · refine ⟨q, hd, ?_⟩
      rw [entry_setEntry, if_pos ⟨rfl, rfl⟩, ha]
      rfl
    · obtain ⟨q1, hq1, hf⟩ := hT.inactive _ _ _ hb
      refine ⟨q1, hq1, ?_⟩
      have hne : q1 ≠ q := fun he => old_ne _ _ _ hb (he ▸ hq1)
      rw [entry_setEntry_ne A false hne]
      exact hf
  · intro j1 i1 d1 j2 i2 d2 h1 h2 hp
    rcases back j1 i1 d1 h1 with ⟨rfl, rfl, rfl⟩ | ⟨hb1, hi1⟩
    · rcases back j2 i2 d2 h2 with ⟨rfl, rfl, rfl⟩ | ⟨hb2, -⟩
      · exact ⟨rfl, rfl⟩
      · exact absurd (hp.symm.trans hd) (old_ne _ _ _ hb2)
    · rcases back j2 i2 d2 h2 with ⟨rfl, rfl, rfl⟩ | ⟨hb2, hi2⟩
      · exact absurd (hp.trans hd) (old_ne _ _ _ hb1)
      · obtain ⟨hj12, hi⟩ := hT.unique _ _ _ _ _ _ hb1 hb2 hp
        subst hj12
        refine ⟨rfl, ?_⟩
        by_cases hc : j1 = j
        · have a1 := hi1 hc
          have a2 := hi2 hc
          simp only [hc, if_true] at hi
          omega
        · simpa [hc] using hi

/-- Release of a block: its tombstones are gone. -/
theorem tomb_release {T : List (List DeletedCell)} {A : List (List Bool)} (hT : TombInv T A)
    (j : Nat) : TombInv (T.set j []) A := by
  have back : ∀ j1 i1 d1, entry (T.set j []) j1 i1 = some d1 → entry T j1 i1 = some d1 := by
    intro j1 i1 d1 h
    rw [entry_set] at h
    split at h
    · simp at h
    · exact h
  exact ⟨fun j1 i1 d1 h => hT.inactive _ _ _ (back _ _ _ h),
    fun j1 i1 d1 j2 i2 d2 h1 h2 hp => hT.unique _ _ _ _ _ _ (back _ _ _ h1) (back _ _ _ h2) hp⟩

/-- A new block: no tombstone, and the old slots keep their flags. -/
theorem tomb_append {T : List (List DeletedCell)} {A : List (List Bool)} (hT : TombInv T A)
    (r : List Bool) : TombInv (T ++ [[]]) (A ++ [r]) := by
  constructor
  · intro j i d h
    obtain ⟨q, hq, ha⟩ := hT.inactive _ _ _ (entry_append_nil h)
    exact ⟨q, hq, entry_append_left ha _⟩
  · intro j i d j1 i1 d1 h1 h2 hp
    exact hT.unique _ _ _ _ _ _ (entry_append_nil h1) (entry_append_nil h2) hp

/-- Append: a slot that no tombstone names becomes active. -/
theorem tomb_activate {T : List (List DeletedCell)} {A : List (List Bool)} (hT : TombInv T A)
    {q : EPtr} (hq : ¬ NamedIn T q) : TombInv T (setEntry A q.blk q.idx true) := by
  constructor
  · intro j i d h
    obtain ⟨q1, hq1, ha⟩ := hT.inactive _ _ _ h
    refine ⟨q1, hq1, ?_⟩
    have hne : q1 ≠ q := fun he => hq ⟨j, i, d, h, he ▸ hq1⟩
    rw [entry_setEntry_ne A true hne]
    exact ha
  · exact hT.unique

/-- The slots of a block allocated just now are unused. -/
theorem region_fresh {T : List (List DeletedCell)} {A : List (List Bool)} (hT : TombInv T A)
    (c k : Nat) : RegionFree (T ++ [[]]) (A ++ [List.replicate c false]) A.length k := by
  intro i a _ ha
  constructor
  · unfold entry at ha
    simp only [List.getElem?_append_right (Nat.le_refl _), Nat.sub_self,
      List.getElem?_cons_zero, List.getElem?_replicate] at ha
    split at ha
    · cases ha; rfl
    · cases ha
  · intro hn
    obtain ⟨j1, i1, d1, hd, hq⟩ := named_append_nil hn
    obtain ⟨q1, hq1, hf⟩ := hT.inactive _ _ _ hd
    rw [hq] at hq1
    cases hq1
    exact Nat.lt_irrefl _ (entry_lt hf)

/-- A slot that is active or named by a tombstone does not lie in an unused region. -/
theorem not_in_region {T : List (List DeletedCell)} {A : List (List Bool)} {t k : Nat}
    (hR : RegionFree T A t k) {q : EPtr} {a : Bool} (ha : entry A q.blk q.idx = some a)
    (hq : a = true ∨ NamedIn T q) : ¬ (q.blk = t ∧ k ≤ q.idx) := by
  intro hc
  obtain ⟨rfl, hk⟩ := hc
  obtain ⟨hf, hn⟩ := hR q.idx a hk ha
  rcases hq with h | h
  · rw [h] at hf
    cases hf
  · exact hn h

/-- A change of the flag of a slot outside an unused region, together with tombstones that name
at most that slot in addition, keeps the region unused. -/
theorem region_setEntry {T T1 : List (List DeletedCell)} {A : List (List Bool)} {t k : Nat}
    (hR : RegionFree T A t k) {q : EPtr} (hq : ¬ (q.blk = t ∧ k ≤ q.idx)) (v : Bool)
    (hn : ∀ q1, NamedIn T1 q1 → q1 = q ∨ NamedIn T q1) :
    RegionFree T1 (setEntry A q.blk q.idx v) t k := by
  intro i a hk ha
  have hne : (⟨t, i⟩ : EPtr) ≠ q := by
    intro he
    subst he
    exact hq ⟨rfl, hk⟩
  have h1 := entry_setEntry_ne A v hne
  simp only [] at h1
  rw [h1] at ha
  obtain ⟨hf, hnn⟩ := hR i a hk ha
  refine ⟨hf, fun hc => ?_⟩
  rcases hn _ hc with h | h
  · exact hne h
  · exact hnn h

theorem cursor_setEntry {T T1 : List (List DeletedCell)} {A : List (List Bool)} {L : List Link}
    {tail : Option Nat} {ci cap : Nat} (hC : CursorInv T A L tail ci cap) {q : EPtr} {a : Bool}
    (ha : entry A q.blk q.idx = some a) (hq : a = true ∨ NamedIn T q) (v : Bool)
    (hn : ∀ q1, NamedIn T1 q1 → q1 = q ∨ NamedIn T q1) :
    CursorInv T1 (setEntry A q.blk q.idx v) L tail ci cap := by
  intro t l ht hl hr hp
  have hR := hC t l ht hl hr hp
  exact region_setEntry hR (not_in_region hR ha hq) v hn

/-- The region only depends on which blocks are released. -/
theorem cursor_links {T T1 : List (List DeletedCell)} {A : List (List Bool)} {L L1 : List Link}
    {tail : Option Nat} {ci cap : Nat} (hC : CursorInv T A L tail ci cap)
    (hn : ∀ q1, NamedIn T1 q1 → NamedIn T q1)
    (hL : ∀ (t : Nat) (l1 : Link), L1[t]? = some l1 → l1.released = false →
      ∃ l : Link, L[t]? = some l ∧ l.released = false) :
    CursorInv T1 A L1 tail ci cap := by
  intro t l1 ht hl hr hp
  obtain ⟨l, hl0, hr0⟩ := hL t l1 hl hr
  have hR := hC t l ht hl0 hr0 hp
  intro i a hk ha
  obtain ⟨hf, hnn⟩ := hR i a hk ha
  exact ⟨hf, fun hc => hnn (hn _ hc)⟩

/-- After a block has been reclaimed the cursor moves back by one block. -/
theorem cursor_decr {T : List (List DeletedCell)} {A : List (List Bool)} {L : List Link}
    {tail : Option Nat} {ci cap : Nat} (hC : CursorInv T A L tail ci cap)
    (hcap : 1 ≤ cap) (hci : cap + 1 ≤ ci) : CursorInv T A L tail (ci - cap) cap := by
  have hmod : (ci - cap) % cap = ci % cap := by
    have : ci = (ci - cap) + cap := by omega
    conv => rhs; rw [this]
    simp
  intro t l ht hl hr hp
  rw [hmod] at hp ⊢
  apply hC t l ht hl hr
  rcases hp with h | h
  · exact Or.inl h
  · left
    intro h0
    have hlt : ci - cap < cap := by
      by_contra hc
      have := Nat.div_pos (Nat.le_of_not_lt hc) hcap
      omega
    have hz : (ci - cap) % cap = ci - cap := Nat.mod_eq_of_lt hlt
    rw [hmod, h0] at hz
    omega

/-- The append path writes the slot at the cursor and moves the cursor on. -/
theorem cursor_advance {T : List (List DeletedCell)} {A : List (List Bool)} {L : List Link}
    {t ci cap : Nat} (hR : RegionFree T A t (ci % cap)) (hcap : 1 ≤ cap) :
    CursorInv T (setEntry A t (ci % cap) true) L (some t) (ci + 1) cap := by
  intro t1 l ht hl hr hp
  cases ht
  have hk : ci % cap < cap := Nat.mod_lt _ hcap
  have hd := Nat.div_add_mod ci cap
  have hstep : (ci + 1) % cap = ci % cap + 1 := by
    by_cases hlt : ci % cap + 1 < cap
    · have he : ci + 1 = cap * (ci / cap) + (ci % cap + 1) := by omega
      rw [he, Nat.mul_add_mod, Nat.mod_eq_of_lt hlt]
    · exfalso
      have he : ci + 1 = cap * (ci / cap + 1) := by
        rw [Nat.mul_add, Nat.mul_one]
        omega
      have hz : (ci + 1) % cap = 0 := by
        rw [he]
        exact Nat.mul_mod_right _ _
      have hge : cap ≤ ci + 1 := by
        rw [he]
        exact Nat.le_mul_of_pos_right _ (Nat.succ_pos _)
      have := Nat.div_pos hge hcap
      rcases hp with h | h
      · exact h hz
      · omega
  rw [hstep]
  intro i a hki ha
  have hne : (⟨t, i⟩ : EPtr) ≠ ⟨t, ci % cap⟩ := by
    intro he
    cases he
    omega
  have h1 := entry_setEntry_ne A (p := ⟨t, ci % cap⟩) true hne
  simp only [] at h1
  rw [h1] at ha
  exact hR i a (by omega) ha

theorem getElem?_set_of {β : Type} {L : List β} {i : Nat} {x : β} (hx : L[i]? = some x) (y : β)
    (j : Nat) : (L.set i y)[j]? = if j = i then some y else L[j]? := by
  have hlt : i < L.length := (List.getElem?_eq_some_iff.mp hx).1
  rw [List.getElem?_set]
  by_cases h : i = j
  · subst h
    simp [hlt]
  · have : ¬ j = i := fun hh => h hh.symm
    simp [h, this]

theorem linked_set {L : List Link} {i : Nat} {x : Link} (hx : L[i]? = some x) (y : Link) :
    linked (L.set i y) + (if x.counted = true then 1 else 0)
      = linked L + (if y.counted = true then 1 else 0) := by
  obtain ⟨hlt, hxi⟩ := List.getElem?_eq_some_iff.mp hx
  unfold linked
  rw [List.countP_set _ _ _ _ hlt, hxi]
  cases hc : x.counted with
  | true =>
    have hpos : 0 < List.countP Link.counted L :=
      List.countP_pos_iff.mpr ⟨x, hxi ▸ List.getElem_mem hlt, hc⟩
    simp only [if_true]
    omega
  | false =>
    simp only [Bool.false_eq_true, if_false]
    omega

theorem linked_pos {L : List Link} {i : Nat} {x : Link} (hx : L[i]? = some x)
    (hc : x.counted = true) : 1 ≤ linked L := by
  obtain ⟨hlt, hxi⟩ := List.getElem?_eq_some_iff.mp hx
  exact List.countP_pos_iff.mpr ⟨x, hxi ▸ List.getElem_mem hlt, hc⟩

theorem linkInv_later {L : List Link} {tail : Option Nat} {ci cap : Nat}
    (hI : LinkInv L tail ci cap) {ci1 : Nat} (h : ci ≤ ci1) : LinkInv L tail ci1 cap :=
  ⟨hI.back, hI.inrange, hI.last, fun hm => Nat.le_trans (hI.room hm) h⟩

theorem linkInv_noTail {L : List Link} {tail : Option Nat} {ci cap : Nat}
    (hI : LinkInv L tail ci cap) : LinkInv L none ci cap :=
  ⟨hI.back, hI.inrange, fun _ _ h _ _ => (by cases h), hI.room⟩

/-- Release of a block cell. -/
theorem link_release {L : List Link} {tail : Option Nat} {ci cap : Nat}
    (hI : LinkInv L tail ci cap) {i : Nat} {x : Link} (hx : L[i]? = some x) :
    LinkInv (L.set i ⟨true, none, none⟩) tail ci cap := by
  have hg := getElem?_set_of hx (⟨true, none, none⟩ : Link)
  constructor
  · intro j y p lp hj hyr hyp hp hpr
    rw [hg] at hj hp
    split at hj
    · cases hj; cases hyr
    · split at hp
      · cases hp; cases hpr
      · exact hI.back j y p lp hj hyr hyp hp hpr
  · intro j y p hj hyr hyp
    rw [hg] at hj
    rw [List.length_set]
    split at hj
    · cases hj; cases hyr
    · exact hI.inrange j y p hj hyr hyp
  · intro t l ht hl hr
    rw [hg] at hl
    split at hl
    · cases hl; cases hr
    · exact hI.last t l ht hl hr
  · intro hm
    have := linked_set hx (⟨true, none, none⟩ : Link)
    have hnc : (⟨true, none, none⟩ : Link).counted = false := rfl
    rw [hnc] at this
    simp only [Bool.false_eq_true, if_false, Nat.add_zero] at this
    have hle : linked (L.set i ⟨true, none, none⟩) ≤ linked L := by omega
    have h1 := hI.room (Nat.le_trans hm hle)
    have := Nat.mul_le_mul_left cap hle
    omega

/-- A new block cell without links becomes the tail block. -/
theorem link_fresh {L : List Link} {tail : Option Nat} {ci cap : Nat}
    (hI : LinkInv L tail ci cap) :
    LinkInv (L ++ [⟨false, none, none⟩]) (some L.length) ci cap := by
  have hg : ∀ j, (L ++ [(⟨false, none, none⟩ : Link)])[j]? =
      if j < L.length then L[j]? else if j = L.length then some ⟨false, none, none⟩ else none := by
    intro j
    by_cases h : j < L.length
    · simp [h, List.getElem?_append_left h]
    · rw [List.getElem?_append_right (Nat.le_of_not_lt h)]
      by_cases h2 : j = L.length
      · simp [h2]
      · have : j - L.length ≠ 0 := by omega
        simp only [h, h2, if_false]
        cases hk : j - L.length with
        | zero => exact absurd hk this
        | succ m => simp
  constructor
  · intro j y p lp hj hyr hyp hp hpr
    rw [hg] at hj hp
    split at hj
    · have hpl := hI.inrange j y p hj hyr hyp
      rw [if_pos hpl] at hp
      exact hI.back j y p lp hj hyr hyp hp hpr
    · split at hj
      · cases hj; cases hyp
      · cases hj
  · intro j y p hj hyr hyp
    rw [hg] at hj
    rw [List.length_append]
    split at hj
    · have := hI.inrange j y p hj hyr hyp
      omega
    · split at hj
      · cases hj; cases hyp
      · cases hj
  · intro t l ht hl hr
    cases ht
    rw [hg] at hl
    simp only [Nat.lt_irrefl, if_false, if_true, Option.some.injEq] at hl
    subst hl
    rfl
  · intro hm
    have : linked (L ++ [(⟨false, none, none⟩ : Link)]) = linked L := by
      unfold linked
      rw [List.countP_append]
      simp [Link.counted]
    rw [this] at hm ⊢
    exact hI.room hm

/-- Method `addBlock` followed by the cursor increment of `insertBody`: the new cell is linked
behind the tail block and becomes the tail block. -/
theorem link_addBlock {L : List Link} {t ci cap : Nat} {lt : Link}
    (hI : LinkInv L (some t) ci cap) (ht : L[t]? = some lt) (hr : lt.released = false)
    (hmod : ci % cap = 0) (hdiv : 0 < ci / cap) :
    LinkInv (((L ++ [(⟨false, none, none⟩ : Link)]).set L.length ⟨false, none, some t⟩).set t
        ⟨false, some L.length, lt.previous_⟩) (some L.length) (ci + 1) cap := by
  have htl : t < L.length := (List.getElem?_eq_some_iff.mp ht).1
  have hne : t ≠ L.length := Nat.ne_of_lt htl
  have h0 : (L ++ [(⟨false, none, none⟩ : Link)])[L.length]? = some ⟨false, none, none⟩ := by
    simp
  have g1 := getElem?_set_of h0 (⟨false, none, some t⟩ : Link)
  have h1 : ((L ++ [(⟨false, none, none⟩ : Link)]).set L.length ⟨false, none, some t⟩)[t]?
      = some lt := by
    rw [g1, if_neg hne, List.getElem?_append_left htl, ht]
  have g2 := getElem?_set_of h1 (⟨false, some L.length, lt.previous_⟩ : Link)
  have hg : ∀ j, (((L ++ [(⟨false, none, none⟩ : Link)]).set L.length ⟨false, none, some t⟩).set t
        ⟨false, some L.length, lt.previous_⟩)[j]? =
      if j = t then some ⟨false, some L.length, lt.previous_⟩
      else if j = L.length then some ⟨false, none, some t⟩
      else if j < L.length then L[j]? else none := by
    intro j
    rw [g2, g1]
    by_cases a : j = t
    · simp [a]
    · by_cases b : j = L.length
      · simp [a, b]
      · simp only [a, b, if_false]
        by_cases c : j < L.length
        · simp [c, List.getElem?_append_left c]
        · simp only [c, if_false]
          rw [List.getElem?_append_right (Nat.le_of_not_lt c)]
          cases hk : j - L.length with
          | zero => omega
          | succ m => simp
  have hlen : (((L ++ [(⟨false, none, none⟩ : Link)]).set L.length ⟨false, none, some t⟩).set t
        ⟨false, some L.length, lt.previous_⟩).length = L.length + 1 := by simp
  have htn : lt.next_ = none := hI.last t lt rfl ht hr
  -- no block other than the new one has the tail block as its previous block
  have noprev : ∀ (j : Nat) (y : Link), L[j]? = some y → y.released = false →
      y.previous_ ≠ some t := by
    intro j y hj hyr hyp
    have := hI.back j y t lt hj hyr hyp ht hr
    rw [htn] at this
    cases this
  constructor
  · intro j y p lp hj hyr hyp hp hpr
    rw [hg] at hj hp
    by_cases a : j = t
    · subst a
      simp only [if_true, Option.some.injEq] at hj
      subst hj
      simp only [] at hyp
      have hpl := hI.inrange j lt p ht hr hyp
      have c : p ≠ j := fun hc => noprev j lt ht hr (hc ▸ hyp)
      have d : p ≠ L.length := Nat.ne_of_lt hpl
      simp only [c, d, hpl, if_false, if_true] at hp
      exact hI.back j lt p lp ht hr hyp hp hpr
    · simp only [a, if_false] at hj
      by_cases b : j = L.length
      · subst b
        simp only [if_true, Option.some.injEq] at hj
        subst hj
        simp only [Option.some.injEq] at hyp
        subst hyp
        simp only [if_true, Option.some.injEq] at hp
        subst hp
        rfl
      · simp only [b, if_false] at hj
        split at hj
        · have hpn := noprev j y hj hyr
          have hpl := hI.inrange j y p hj hyr hyp
          have c : p ≠ t := fun hc => hpn (hc ▸ hyp)
          have d : p ≠ L.length := Nat.ne_of_lt hpl
          simp only [c, d, hpl, if_false, if_true] at hp
          exact hI.back j y p lp hj hyr hyp hp hpr
        · cases hj
  · intro j y p hj hyr hyp
    rw [hg] at hj
    rw [hlen]
    by_cases a : j = t
    · subst a
      simp only [if_true, Option.some.injEq] at hj
      subst hj
      simp only [] at hyp
      have := hI.inrange j lt p ht hr hyp
      omega
    · simp only [a, if_false] at hj
      by_cases b : j = L.length
      · subst b
        simp only [if_true, Option.some.injEq] at hj
        subst hj
        simp only [Option.some.injEq] at hyp
        omega
      · simp only [b, if_false] at hj
        split at hj
        · have := hI.inrange j y p hj hyr hyp
          omega
        · cases hj
  · intro t1 l ht1 hl hlr
    cases ht1
    rw [hg] at hl
    simp only [Ne.symm hne, if_false, if_true, Option.some.injEq] at hl
    subst hl
    rfl
  · intro _
    have e1 := linked_set h1 (⟨false, some L.length, lt.previous_⟩ : Link)
    have e2 := linked_set h0 (⟨false, none, some t⟩ : Link)
    have e0 : linked (L ++ [(⟨false, none, none⟩ : Link)]) = linked L := by
      unfold linked
      rw [List.countP_append]
      simp [Link.counted]
    have c1 : lt.counted = false := by simp [Link.counted, htn]
    have c2 : (⟨false, some L.length, lt.previous_⟩ : Link).counted = true := rfl
    have c3 : (⟨false, none, some t⟩ : Link).counted = false := rfl
    have c4 : (⟨false, none, none⟩ : Link).counted = false := rfl
    rw [c1, c2] at e1
    rw [c3, c4, e0] at e2
    simp only [Bool.false_eq_true, if_false, if_true, Nat.add_zero] at e1 e2
    rw [e1, e2]
    have hk := Nat.div_add_mod ci cap
    rw [hmod, Nat.add_zero] at hk
    by_cases hm : 1 ≤ linked L
    · have hroom := hI.room hm
      have hlt : linked L < ci / cap := by
        apply Nat.lt_of_mul_lt_mul_left (a := cap)
        omega
      have := Nat.mul_le_mul_left cap (show linked L + 1 ≤ ci / cap from hlt)
      omega
    · have hz : linked L = 0 := by omega
      rw [hz]
      have := Nat.mul_le_mul_left cap hdiv
      omega

theorem room_after_reclaim {cap ci m m1 : Nat} (h : cap * m + 1 ≤ ci) (hm : m = m1 + 1) :
    cap ≤ ci ∧ cap * m1 + 1 ≤ ci - cap := by
  subst hm
  rw [Nat.mul_succ] at h
  omega

/-- Method `delBlock`, both neighbours present: the previous block is linked to the next
block, the block is released and the cursor moves back by one block. -/
theorem link_unlink_both {L : List Link} {tail : Option Nat} {ci cap X p n : Nat}
    {lx lp ln lx1 : Link} (hI : LinkInv L tail ci cap)
    (hX : L[X]? = some lx) (hXr : lx.released = false) (hXp : lx.previous_ = some p)
    (hXn : lx.next_ = some n) (hp : L[p]? = some lp) (hpr : lp.released = false)
    (hn : (L.set p { lp with next_ := some n })[n]? = some ln) (hnr : ln.released = false)
    (hX1 : ((L.set p { lp with next_ := some n }).set n { ln with previous_ := some p })[X]?
      = some lx1) (hX1r : lx1.released = false) :
    LinkInv (((L.set p { lp with next_ := some n }).set n { ln with previous_ := some p }).set X
      ⟨true, none, none⟩) tail (ci - cap) cap ∧ cap + 1 ≤ ci := by
  have gA := getElem?_set_of hp ({ lp with next_ := some n } : Link)
  have gB := getElem?_set_of hn ({ ln with previous_ := some p } : Link)
  have gC := getElem?_set_of hX1 (⟨true, none, none⟩ : Link)
  have hpn : lp.next_ = some X := hI.back X lx p lp hX hXr hXp hp hpr
  have descB : ∀ (j : Nat) (y : Link),
      ((L.set p { lp with next_ := some n }).set n { ln with previous_ := some p })[j]? = some y →
      ∃ y0 : Link, L[j]? = some y0 ∧ y.released = y0.released ∧
        y.previous_ = (if j = n then some p else y0.previous_) ∧
        y.next_ = (if j = p then some n else y0.next_) := by
    intro j y hj
    rw [gB] at hj
    by_cases a : j = n
    · subst a
      simp only [if_true, Option.some.injEq] at hj
      subst hj
      rw [gA] at hn
      by_cases b : j = p
      · subst b
        simp only [if_true, Option.some.injEq] at hn
        subst hn
        exact ⟨lp, hp, rfl, by simp, by simp⟩
      · simp only [b, if_false] at hn
        exact ⟨ln, hn, rfl, by simp, by simp [b]⟩
    · simp only [a, if_false] at hj
      rw [gA] at hj
      by_cases b : j = p
      · subst b
        simp only [if_true, Option.some.injEq] at hj
        subst hj
        exact ⟨lp, hp, rfl, by simp [a], by simp⟩
      · simp only [b, if_false] at hj
        exact ⟨y, hj, rfl, by simp [a], by simp [b]⟩
  have descC : ∀ (j : Nat) (y : Link),
      (((L.set p { lp with next_ := some n }).set n { ln with previous_ := some p }).set X
        ⟨true, none, none⟩)[j]? = some y → y.released = false →
      j ≠ X ∧ ∃ y0 : Link, L[j]? = some y0 ∧ y0.released = false ∧
        y.previous_ = (if j = n then some p else y0.previous_) ∧
        y.next_ = (if j = p then some n else y0.next_) := by
    intro j y hj hyr
    rw [gC] at hj
    by_cases a : j = X
    · simp only [a, if_true, Option.some.injEq] at hj
      subst hj
      cases hyr
    · simp only [a, if_false] at hj
      obtain ⟨y0, h0, hr0, hp0, hn0⟩ := descB j y hj
      exact ⟨a, y0, h0, hr0 ▸ hyr, hp0, hn0⟩
  have hlen : (((L.set p { lp with next_ := some n }).set n { ln with previous_ := some p }).set X
      ⟨true, none, none⟩).length = L.length := by simp
  have hcount : linked L = linked (((L.set p { lp with next_ := some n }).set n
      { ln with previous_ := some p }).set X ⟨true, none, none⟩) + 1 := by
    have e1 := linked_set hp ({ lp with next_ := some n } : Link)
    have e2 := linked_set hn ({ ln with previous_ := some p } : Link)
    have e3 := linked_set hX1 (⟨true, none, none⟩ : Link)
    have c1 : lp.counted = true := by simp [Link.counted, hpr, hpn]
    have c2 : ({ lp with next_ := some n } : Link).counted = true := by simp [Link.counted, hpr]
    have c3 : ({ ln with previous_ := some p } : Link).counted = ln.counted := rfl
    have c4 : lx1.counted = true := by
      obtain ⟨y0, h0, -, -, hn0⟩ := descB X lx1 hX1
      rw [hX] at h0
      cases h0
      have : lx1.next_.isSome = true := by
        rw [hn0]
        by_cases b : X = p
        · simp [b]
        · simp [b, hXn]
      simp [Link.counted, hX1r, this]
    have c5 : (⟨true, none, none⟩ : Link).counted = false := rfl
    rw [c1, c2] at e1
    rw [c3] at e2
    rw [c4, c5] at e3
    simp only [Bool.false_eq_true, if_false, if_true, Nat.add_zero] at e1 e3
    omega
  have hroom := room_after_reclaim (hI.room (by omega)) hcount
  refine ⟨⟨?_, ?_, ?_, fun _ => hroom.2⟩, ?_⟩
  · intro j y q lq hj hyr hyq hq hqr
    obtain ⟨hjX, y0, h0, hr0, hp0, -⟩ := descC j y hj hyr
    obtain ⟨hqX, q0, hq0, hqr0, -, hqn0⟩ := descC q lq hq hqr
    rw [hqn0]
    by_cases a : j = n
    · rw [if_pos a] at hp0
      rw [hp0] at hyq
      cases hyq
      rw [if_pos rfl, a]
    · rw [if_neg a] at hp0
      have hb := hI.back j y0 q q0 h0 hr0 (hp0 ▸ hyq) hq0 hqr0
      by_cases b : q = p
      · subst b
        rw [hp] at hq0
        cases hq0
        rw [hpn] at hb
        cases hb
        exact absurd rfl hjX
      · rw [if_neg b]
        exact hb
  · intro j y q hj hyr hyq
    obtain ⟨-, y0, h0, hr0, hp0, -⟩ := descC j y hj hyr
    rw [hlen]
    by_cases a : j = n
    · rw [if_pos a] at hp0
      rw [hp0] at hyq
      cases hyq
      exact (List.getElem?_eq_some_iff.mp hp).1
    · rw [if_neg a] at hp0
      exact hI.inrange j y0 q h0 hr0 (hp0 ▸ hyq)
  · intro t l ht hl hlr
    obtain ⟨-, l0, h0, hr0, -, hn0⟩ := descC t l hl hlr
    have hl0 := hI.last t l0 ht h0 hr0
    by_cases b : t = p
    · subst b
      rw [hp] at h0
      cases h0
      rw [hpn] at hl0
      cases hl0
    · rw [hn0, if_neg b]
      exact hl0
  · omega

/-- Method `delBlock`, only a previous block present. -/
theorem link_unlink_prev {L : List Link} {tail : Option Nat} {ci cap X p : Nat}
    {lx lp lx1 : Link} (hI : LinkInv L tail ci cap)
    (hX : L[X]? = some lx) (hXr : lx.released = false) (hXp : lx.previous_ = some p)
    (hXn : lx.next_ = none) (hp : L[p]? = some lp) (hpr : lp.released = false)
    (hX1 : (L.set p { lp with next_ := none })[X]? = some lx1) :
    LinkInv ((L.set p { lp with next_ := none }).set X ⟨true, none, none⟩) tail (ci - cap) cap
      ∧ cap + 1 ≤ ci := by
  have gA := getElem?_set_of hp ({ lp with next_ := none } : Link)
  have gC := getElem?_set_of hX1 (⟨true, none, none⟩ : Link)
  have hpn : lp.next_ = some X := hI.back X lx p lp hX hXr hXp hp hpr
  have hXp_ne : X ≠ p := by
    intro he
    subst he
    rw [hX] at hp
    cases hp
    rw [hXn] at hpn
    cases hpn
  have descC : ∀ (j : Nat) (y : Link),
      ((L.set p { lp with next_ := none }).set X ⟨true, none, none⟩)[j]? = some y →
      y.released = false →
      j ≠ X ∧ ∃ y0 : Link, L[j]? = some y0 ∧ y0.released = false ∧
        y.previous_ = y0.previous_ ∧ y.next_ = (if j = p then none else y0.next_) := by
    intro j y hj hyr
    rw [gC] at hj
    by_cases a : j = X
    · simp only [a, if_true, Option.some.injEq] at hj
      subst hj
      cases hyr
    · simp only [a, if_false] at hj
      rw [gA] at hj
      by_cases b : j = p
      · subst b
        simp only [if_true, Option.some.injEq] at hj
        subst hj
        exact ⟨a, lp, hp, hpr, rfl, by simp⟩
      · simp only [b, if_false] at hj
        exact ⟨a, y, hj, hyr, rfl, by simp [b]⟩
  have hlen : ((L.set p { lp with next_ := none }).set X ⟨true, none, none⟩).length
      = L.length := by simp
  have hcount : linked L
      = linked ((L.set p { lp with next_ := none }).set X ⟨true, none, none⟩) + 1 := by
    have e1 := linked_set hp ({ lp with next_ := none } : Link)
    have e3 := linked_set hX1 (⟨true, none, none⟩ : Link)
    have c1 : lp.counted = true := by simp [Link.counted, hpr, hpn]
    have c2 : ({ lp with next_ := none } : Link).counted = false := by simp [Link.counted]
    have c4 : lx1.counted = false := by
      rw [gA, if_neg hXp_ne, hX] at hX1
      cases hX1
      simp [Link.counted, hXn]
    have c5 : (⟨true, none, none⟩ : Link).counted = false := rfl
    rw [c1, c2] at e1
    rw [c4, c5] at e3
    simp only [Bool.false_eq_true, if_false, if_true, Nat.add_zero] at e1 e3
    omega
  have hroom := room_after_reclaim (hI.room (by omega)) hcount
  refine ⟨⟨?_, ?_, ?_, fun _ => hroom.2⟩, ?_⟩
  · intro j y q lq hj hyr hyq hq hqr
    obtain ⟨hjX, y0, h0, hr0, hp0, -⟩ := descC j y hj hyr
    obtain ⟨hqX, q0, hq0, hqr0, -, hqn0⟩ := descC q lq hq hqr
    rw [hqn0]
    have hb := hI.back j y0 q q0 h0 hr0 (hp0 ▸ hyq) hq0 hqr0
    by_cases b : q = p
    · subst b
      rw [hp] at hq0
      cases hq0
      rw [hpn] at hb
      cases hb
      exact absurd rfl hjX
    · rw [if_neg b]
      exact hb
  · intro j y q hj hyr hyq
    obtain ⟨-, y0, h0, hr0, hp0, -⟩ := descC j y hj hyr
    rw [hlen]
    exact hI.inrange j y0 q h0 hr0 (hp0 ▸ hyq)
  · intro t l ht hl hlr
    obtain ⟨-, l0, h0, hr0, -, hn0⟩ := descC t l hl hlr
    have hl0 := hI.last t l0 ht h0 hr0
    rw [hn0]
    split
    · rfl
    · exact hl0
  · omega

/-- Method `delBlock`, only a next block present. -/
theorem link_unlink_next {L : List Link} {tail : Option Nat} {ci cap X n : Nat}
    {lx ln lx1 : Link} (hI : LinkInv L tail ci cap)
    (hX : L[X]? = some lx) (hXr : lx.released = false)
    (hXn : lx.next_ = some n) (hn : L[n]? = some ln)
    (hX1 : (L.set n { ln with previous_ := none })[X]? = some lx1) :
    LinkInv ((L.set n { ln with previous_ := none }).set X ⟨true, none, none⟩) tail (ci - cap) cap
      ∧ cap + 1 ≤ ci := by
  have gA := getElem?_set_of hn ({ ln with previous_ := none } : Link)
  have gC := getElem?_set_of hX1 (⟨true, none, none⟩ : Link)
  have descA : ∀ (j : Nat) (y : Link),
      (L.set n { ln with previous_ := none })[j]? = some y →
      ∃ y0 : Link, L[j]? = some y0 ∧ y.released = y0.released ∧
        y.previous_ = (if j = n then none else y0.previous_) ∧ y.next_ = y0.next_ := by
    intro j y hj
    rw [gA] at hj
    by_cases b : j = n
    · subst b
      simp only [if_true, Option.some.injEq] at hj
      subst hj
      exact ⟨ln, hn, rfl, by simp, rfl⟩
    · simp only [b, if_false] at hj
      exact ⟨y, hj, rfl, by simp [b], rfl⟩
  have descC : ∀ (j : Nat) (y : Link),
      ((L.set n { ln with previous_ := none }).set X ⟨true, none, none⟩)[j]? = some y →
      y.released = false →
      j ≠ X ∧ ∃ y0 : Link, L[j]? = some y0 ∧ y0.released = false ∧
        y.previous_ = (if j = n then none else y0.previous_) ∧ y.next_ = y0.next_ := by
    intro j y hj hyr
    rw [gC] at hj
    by_cases a : j = X
    · simp only [a, if_true, Option.some.injEq] at hj
      subst hj
      cases hyr
    · simp only [a, if_false] at hj
      obtain ⟨y0, h0, hr0, hp0, hn0⟩ := descA j y hj
      exact ⟨a, y0, h0, hr0 ▸ hyr, hp0, hn0⟩
  have hlen : ((L.set n { ln with previous_ := none }).set X ⟨true, none, none⟩).length
      = L.length := by simp
  have hcount : linked L
      = linked ((L.set n { ln with previous_ := none }).set X ⟨true, none, none⟩) + 1 := by
    have e1 := linked_set hn ({ ln with previous_ := none } : Link)
    have e3 := linked_set hX1 (⟨true, none, none⟩ : Link)
    have c3 : ({ ln with previous_ := none } : Link).counted = ln.counted := rfl
    have c4 : lx1.counted = true := by
      obtain ⟨y0, h0, hr0, -, hn0⟩ := descA X lx1 hX1
      rw [hX] at h0
      cases h0
      simp [Link.counted, hr0, hn0, hXr, hXn]
    have c5 : (⟨true, none, none⟩ : Link).counted = false := rfl
    rw [c3] at e1
    rw [c4, c5] at e3
    simp only [Bool.false_eq_true, if_false, if_true, Nat.add_zero] at e3
    omega
  have hroom := room_after_reclaim (hI.room (by omega)) hcount
  refine ⟨⟨?_, ?_, ?_, fun _ => hroom.2⟩, ?_⟩
  · intro j y q lq hj hyr hyq hq hqr
    obtain ⟨hjX, y0, h0, hr0, hp0, -⟩ := descC j y hj hyr
    obtain ⟨hqX, q0, hq0, hqr0, -, hqn0⟩ := descC q lq hq hqr
    rw [hqn0]
    by_cases a : j = n
    · rw [if_pos a] at hp0
      rw [hp0] at hyq
      cases hyq
    · rw [if_neg a] at hp0
      exact hI.back j y0 q q0 h0 hr0 (hp0 ▸ hyq) hq0 hqr0
  · intro j y q hj hyr hyq
    obtain ⟨-, y0, h0, hr0, hp0, -⟩ := descC j y hj hyr
    rw [hlen]
    by_cases a : j = n
    · rw [if_pos a] at hp0
      rw [hp0] at hyq
      cases hyq
    · rw [if_neg a] at hp0
      exact hI.inrange j y0 q h0 hr0 (hp0 ▸ hyq)
  · intro t l ht hl hlr
    obtain ⟨-, l0, h0, hr0, -, hn0⟩ := descC t l hl hlr
    rw [hn0]
    exact hI.last t l0 ht h0 hr0
  · omega

theorem stillOpen_refl (L : List Link) : StillOpen L L := fun _ l1 h hr => ⟨l1, h, hr⟩

theorem stillOpen_trans {L L1 L2 : List Link} (a : StillOpen L L1) (b : StillOpen L1 L2) :
    StillOpen L L2 := by
  intro t l2 h hr
  obtain ⟨l1, h1, hr1⟩ := b t l2 h hr
  exact a t l1 h1 hr1

theorem stillOpen_set {L : List Link} {i : Nat} {x : Link} (hx : L[i]? = some x) (y : Link)
    (h : y.released = false → x.released = false) : StillOpen L (L.set i y) := by
  intro t l1 ht hr
  rw [getElem?_set_of hx] at ht
  split at ht
  · rename_i hti
    cases ht
    exact ⟨x, hti ▸ hx, h hr⟩
  · exact ⟨l1, ht, hr⟩

theorem link_of_getElem? {h : Heap α} {j : Nat} {b : Block α} (hb : h[j]? = some b) :
    (linksOf h)[j]? = some b.link := by
  rw [getElem?_linksOf, hb]
  rfl

theorem tombs_of_getElem? {h : Heap α} {j : Nat} {b : Block α} (hb : h[j]? = some b) :
    (tombsOf h)[j]? = some b.tombs := by
  rw [getElem?_tombsOf, hb]
  rfl

theorem stack_top_pop {β : Type} {st st1 : Stack β} {v : β} (ht : st.top = .ok v)
    (hp : st.pop = .ok st1) : st.nodes = v :: st1.nodes := by
  unfold Stack.top at ht
  unfold Stack.pop at hp
  cases hn : st.nodes with
  | nil =>
    rw [hn] at ht
    simp only [] at ht
    split at ht <;> cases ht
  | cons a t =>
    rw [hn] at ht hp
    cases ht
    cases hp
    rfl

theorem views_destroyWalk :
    ∀ (f : Nat) (h h1 : Heap α) (el : Option EPtr), destroyWalk f h el = .ok h1 →
      tombsOf h1 = tombsOf h ∧ linksOf h1 = linksOf h ∧ actsOf h1 = actsOf h := by
  intro f
  induction f with
  | zero => intro h h1 el hw; cases hw
  | succ k ih =>
    intro h h1 el hw
    unfold destroyWalk at hw
    split at hw
    · cases hw; exact ⟨rfl, rfl, rfl⟩
    · obtain ⟨e, -, hw⟩ := bind_ok hw
      split at hw
      · cases hw; exact ⟨rfl, rfl, rfl⟩
      · obtain ⟨h2, e2, hw⟩ := bind_ok hw
        obtain ⟨a, b, c⟩ := views_updElem e2 (fun _ => rfl)
        obtain ⟨a1, b1, c1⟩ := ih h2 h1 e.next_ hw
        exact ⟨a1.trans a, b1.trans b, c1.trans c⟩

/-- Expression `delete block`: the cell is released, its links and tombstones are dropped, and
no active flag changes. -/
theorem views_deleteBlock {h h1 : Heap α} {b : Option Nat} (hd : deleteBlock h b = .ok h1) :
    ∃ (i : Nat) (lx : Link), b = some i ∧ (linksOf h)[i]? = some lx ∧ lx.released = false ∧
      tombsOf h1 = (tombsOf h).set i [] ∧ linksOf h1 = (linksOf h).set i ⟨true, none, none⟩ ∧
      actsOf h1 = actsOf h := by
  unfold deleteBlock at hd
  obtain ⟨blk0, e0, hd⟩ := bind_ok hd
  obtain ⟨i, rfl, hb0, hr0⟩ := blockAt_ok e0
  simp only [] at hd
  obtain ⟨h2, e1, hd⟩ := bind_ok hd
  obtain ⟨h3, e2, hd⟩ := bind_ok hd
  obtain ⟨a1, b1, c1⟩ := views_updElem e1 (fun _ => rfl)
  obtain ⟨a2, b2, c2⟩ := views_destroyWalk _ _ _ _ e2
  obtain ⟨j, blk, hj, hb, hr, a3, b3, c3⟩ := views_updBlock hd (fun _ => rfl)
  cases hj
  refine ⟨i, blk0.link, rfl, link_of_getElem? hb0, hr0, ?_, ?_, ?_⟩
  · rw [a3, a2, a1]
    rfl
  · rw [b3, b2, b1]
    rfl
  · rw [c3, c2, c1]

/-- Method `addBlock` on a storage whose tail block lies inside the store. -/
theorem views_addBlock {s s1 : BucketStorage α} (h : addBlock s = .ok s1) {t : Nat}
    (ht : s.tail_block_ = some t) (hlt : t < s.heap.length) :
    ∃ lt : Link, (linksOf s.heap)[t]? = some lt ∧ lt.released = false ∧
      tombsOf s1.heap = tombsOf s.heap ++ [[]] ∧
      actsOf s1.heap = actsOf s.heap ++ [List.replicate s.block_capacity_ false] ∧
      linksOf s1.heap = (((linksOf s.heap) ++ [(⟨false, none, none⟩ : Link)]).set
        (linksOf s.heap).length ⟨false, none, some t⟩).set t
          ⟨false, some (linksOf s.heap).length, lt.previous_⟩ ∧
      s1.tail_block_ = some s.heap.length ∧ s1.current_index_ = s.current_index_ ∧
      s1.block_capacity_ = s.block_capacity_ ∧ s1.last_deleting_ = s.last_deleting_ := by
  unfold addBlock at h
  obtain ⟨h1, e1, h⟩ := bind_ok h
  obtain ⟨h2, e2, h⟩ := bind_ok h
  obtain ⟨h3, e3, h⟩ := bind_ok h
  obtain ⟨h4, e4, h⟩ := bind_ok h
  cases h
  have T0 : tombsOf (s.heap ++ [Block.fresh s.block_capacity_]) = tombsOf s.heap ++ [[]] := by
    simp [tombsOf, Block.tombs, Block.fresh, Stack.new]
  have A0 : actsOf (s.heap ++ [Block.fresh s.block_capacity_])
      = actsOf s.heap ++ [List.replicate s.block_capacity_ false] := by
    simp [actsOf, Block.fresh, Element.fresh]
  have L0 : linksOf (s.heap ++ [Block.fresh s.block_capacity_])
      = linksOf s.heap ++ [(⟨false, none, none⟩ : Link)] := by
    simp [linksOf, Block.link, Block.fresh]
  obtain ⟨a1, b1, c1⟩ := views_updElem e1 (fun _ => rfl)
  obtain ⟨a2, b2, c2⟩ := views_updElem e2 (fun _ => rfl)
  obtain ⟨j3, blk3, hj3, hb3, hr3, a3, b3, c3⟩ := views_updBlock e3 (fun _ => rfl)
  cases hj3
  rw [ht] at e4
  obtain ⟨j4, blk4, hj4, hb4, hr4, a4, b4, c4⟩ := views_updBlock e4 (fun _ => rfl)
  cases hj4
  have hlen : (linksOf s.heap).length = s.heap.length := length_linksOf _
  -- the new cell, as `updBlock` found it
  have l3 : blk3.link = ⟨false, none, none⟩ := by
    have := link_of_getElem? hb3
    rw [b2, b1, L0, ← hlen] at this
    simp only [List.getElem?_append_right (Nat.le_refl _), Nat.sub_self,
      List.getElem?_cons_zero, Option.some.injEq] at this
    exact this.symm
  have t3 : blk3.tombs = [] := by
    have := tombs_of_getElem? hb3
    rw [a2, a1, T0] at this
    have hl : (tombsOf s.heap).length = s.heap.length := length_tombsOf _
    rw [← hl] at this
    simp only [List.getElem?_append_right (Nat.le_refl _), Nat.sub_self,
      List.getElem?_cons_zero, Option.some.injEq] at this
    exact this.symm
  have L3 : linksOf h3 = ((linksOf s.heap) ++ [(⟨false, none, none⟩ : Link)]).set
      (linksOf s.heap).length ⟨false, none, some t⟩ := by
    rw [b3, b2, b1, L0, hlen]
    congr 1
    have e : ({ blk3 with previous_ := s.tail_block_ } : Block α).link
        = { blk3.link with previous_ := s.tail_block_ } := rfl
    rw [e, l3, ht]
  have T3 : tombsOf h3 = tombsOf s.heap ++ [[]] := by
    rw [a3, a2, a1]
    have e : ({ blk3 with previous_ := s.tail_block_ } : Block α).tombs = blk3.tombs := rfl
    rw [e]
    rw [set_same]
    · exact T0
    · have := tombs_of_getElem? hb3
      rw [a2, a1] at this
      exact this
  have l4 : (linksOf s.heap)[t]? = some blk4.link := by
    have := link_of_getElem? hb4
    rw [L3] at this
    have hne : t ≠ (linksOf s.heap).length := by omega
    rw [List.getElem?_set_ne (Ne.symm hne), List.getElem?_append_left (by omega)] at this
    exact this
  refine ⟨blk4.link, l4, hr4, ?_, ?_, ?_, rfl, rfl, rfl, rfl⟩
  · rw [a4]
    have e : ({ blk4 with next_ := some s.heap.length } : Block α).tombs = blk4.tombs := rfl
    rw [e, set_same (tombs_of_getElem? hb4)]
    exact T3
  · rw [c4, c3, c2, c1]
    exact A0
  · rw [b4, L3, hlen]
    congr 1
    have e : ({ blk4 with next_ := some s.heap.length } : Block α).link
        = ⟨blk4.released, some s.heap.length, blk4.link.previous_⟩ := rfl
    rw [e, hr4]

theorem views_append_fresh (h : Heap α) (c : Nat) :
    tombsOf (h ++ [Block.fresh c]) = tombsOf h ++ [[]] ∧
    actsOf (h ++ [Block.fresh c]) = actsOf h ++ [List.replicate c false] ∧
    linksOf (h ++ [Block.fresh c]) = linksOf h ++ [(⟨false, none, none⟩ : Link)] := by
  refine ⟨?_, ?_, ?_⟩
  · simp [tombsOf, Block.tombs, Block.fresh, Stack.new]
  · simp [actsOf, Block.fresh, Element.fresh]
  · simp [linksOf, Block.link, Block.fresh]

/-- Method `initializationContainer` on a consistent store. -/
theorem inv_initializationContainer {n : Nat} {s : BucketStorage α} {tl : Option Nat}
    (hc : 1 ≤ s.block_capacity_) (hci : s.current_index_ ≤ n)
    (hT : TombInv (tombsOf s.heap) (actsOf s.heap))
    (hL : LinkInv (linksOf s.heap) tl s.current_index_ s.block_capacity_) :
    Inv n (initializationContainer s) := by
  obtain ⟨a, b, c⟩ := views_append_fresh s.heap s.block_capacity_
  unfold initializationContainer
  refine ⟨hc, hci, ?_, ?_, ?_, ?_⟩
  · intro t ht
    simp only [Option.some.injEq] at ht
    subst ht
    simp
  · simp only [a, b]
    exact tomb_append hT _
  · simp only [a, b, c]
    intro t l ht _ _ _
    simp only [Option.some.injEq] at ht
    subst ht
    have := region_fresh hT s.block_capacity_ (s.current_index_ % s.block_capacity_)
    rw [length_actsOf] at this
    exact this
  · simp only [c]
    have := link_fresh hL
    rw [length_linksOf] at this
    exact this

/-- The constructor leaves a consistent storage. -/
theorem inv_construct {c : Nat} {s : BucketStorage α} (h : construct c = .ok s) : Inv 0 s := by
  unfold construct at h
  split at h
  · cases h
  · rename_i hc
    cases h
    have hT : TombInv (tombsOf ([] : Heap α)) (actsOf ([] : Heap α)) :=
      ⟨fun j i d h => (by simp [entry, tombsOf] at h),
        fun j i d _ _ _ h => (by simp [entry, tombsOf] at h)⟩
    have hL : LinkInv (linksOf ([] : Heap α)) none 0 c :=
      ⟨fun j y p lp h => (by simp [linksOf] at h), fun j y p h => (by simp [linksOf] at h),
        fun t l h => (by cases h), fun h => (by simp [linked, linksOf] at h)⟩
    exact inv_initializationContainer (Nat.pos_of_ne_zero hc) (Nat.le_refl _) hT hL

theorem addBlock_tail {s s1 : BucketStorage α} (h : addBlock s = .ok s1) :
    ∃ t, s.tail_block_ = some t := by
  unfold addBlock at h
  obtain ⟨h1, e1, h⟩ := bind_ok h
  obtain ⟨h2, e2, h⟩ := bind_ok h
  obtain ⟨h3, e3, h⟩ := bind_ok h
  obtain ⟨h4, e4, h⟩ := bind_ok h
  obtain ⟨j, blk, hj, -⟩ := updBlock_ok e4
  exact ⟨j, hj⟩

/-- What `insertBody` does to the three tables: either it allocates a block first (the cursor
stands at the start of a block and is not in the first one), or the tables stay as they
are. -/
theorem views_insertBody {n : Nat} {s s1 : BucketStorage α} (hI : Inv n s)
    (h : insertBody s = .ok s1) :
    s1.block_capacity_ = s.block_capacity_ ∧
    s1.current_index_ = (s.current_index_ + 1) % wordSize ∧
    ((0 < s.current_index_ / s.block_capacity_ ∧ s.current_index_ % s.block_capacity_ = 0 ∧
      ∃ (t : Nat) (lt : Link), s.tail_block_ = some t ∧ (linksOf s.heap)[t]? = some lt ∧
        lt.released = false ∧
        tombsOf s1.heap = tombsOf s.heap ++ [[]] ∧
        actsOf s1.heap = actsOf s.heap ++ [List.replicate s.block_capacity_ false] ∧
        linksOf s1.heap = (((linksOf s.heap) ++ [(⟨false, none, none⟩ : Link)]).set
          (linksOf s.heap).length ⟨false, none, some t⟩).set t
            ⟨false, some (linksOf s.heap).length, lt.previous_⟩ ∧
        s1.tail_block_ = some s.heap.length) ∨
     (¬ (0 < s.current_index_ / s.block_capacity_ ∧
          s.current_index_ % s.block_capacity_ = 0) ∧
      tombsOf s1.heap = tombsOf s.heap ∧ actsOf s1.heap = actsOf s.heap ∧
      linksOf s1.heap = linksOf s.heap ∧ s1.tail_block_ = s.tail_block_)) := by
  unfold insertBody at h
  split at h
  · cases h
  · obtain ⟨a1, e1, h⟩ := bind_ok h
    obtain ⟨a2, e2, h⟩ := bind_ok h
    obtain ⟨here, e3, h⟩ := bind_ok h
    obtain ⟨h1, e4, h⟩ := bind_ok h
    obtain ⟨h3, e5, h⟩ := bind_ok h
    cases h
    have k2 : a2.heap = a1.heap ∧ a2.tail_block_ = a1.tail_block_ ∧
        a2.current_index_ = a1.current_index_ ∧ a2.block_capacity_ = a1.block_capacity_ := by
      split at e2
      · obtain ⟨p, -, hp⟩ := map_ok e2
        rw [← hp]
        exact ⟨rfl, rfl, rfl, rfl⟩
      · cases e2
        exact ⟨rfl, rfl, rfl, rfl⟩
    obtain ⟨x4, y4, z4⟩ := views_updElem e4 (fun _ => rfl)
    have k5 : tombsOf h3 = tombsOf h1 ∧ linksOf h3 = linksOf h1 ∧ actsOf h3 = actsOf h1 := by
      split at e5
      · obtain ⟨h2, e6, e7⟩ := bind_ok e5
        obtain ⟨x6, y6, z6⟩ := views_updElem e6 (fun _ => rfl)
        obtain ⟨x7, y7, z7⟩ := views_updElem e7 (fun _ => rfl)
        exact ⟨x7.trans x6, y7.trans y6, z7.trans z6⟩
      · cases e5
        exact ⟨rfl, rfl, rfl⟩
    obtain ⟨x5, y5, z5⟩ := k5
    obtain ⟨k2h, k2t, k2c, k2b⟩ := k2
    rw [k2h] at x4 y4 z4
    split at e1
    · rename_i hcond
      obtain ⟨t, ht⟩ := addBlock_tail e1
      obtain ⟨lt, hl, hr, a, b, c, d, e, f, -⟩ := views_addBlock e1 ht (hI.tail_lt t ht)
      refine ⟨k2b.trans f, ?_, Or.inl ⟨hcond.1, hcond.2, t, lt, ht, hl, hr, ?_, ?_, ?_, ?_⟩⟩
      · simp only [k2c, e]
      · exact (x5.trans x4).trans a
      · exact (z5.trans z4).trans b
      · exact (y5.trans y4).trans c
      · exact k2t.trans d
    · rename_i hcond
      cases e1
      refine ⟨k2b, ?_, Or.inr ⟨?_, x5.trans x4, z5.trans z4, y5.trans y4, k2t⟩⟩
      · simp only [k2c]
      · exact hcond

theorem elementAddr_ok {h : Heap α} {b : Option Nat} {k : Nat} {p : EPtr}
    (he : elementAddr h b k = .ok p) :
    ∃ j blk, b = some j ∧ h[j]? = some blk ∧ blk.released = false ∧ p = ⟨j, k⟩ := by
  unfold elementAddr at he
  obtain ⟨blk, e0, he⟩ := bind_ok he
  obtain ⟨j, rfl, hb, hr⟩ := blockAt_ok e0
  cases he
  exact ⟨j, blk, rfl, hb, hr, rfl⟩

/-- The reuse path of `insert` on a consistent storage: the slot it writes was named by the
top tombstone, hence not active, and the storage stays consistent. -/
theorem insertInDeletedCell_inv {n : Nat} {s s1 : BucketStorage α} {v : α} {it : Iterator}
    (hI : Inv n s) (h : insertInDeletedCell s v = .ok (s1, it)) :
    Inv (n + 1) s1 ∧
      ∀ p e, it.current_node_ = some p → slot s.heap p = some e → e.is_active_ = false := by
  unfold insertInDeletedCell at h
  obtain ⟨r, e0, h⟩ := bind_ok h
  obtain ⟨g1, e1, h⟩ := bind_ok h
  obtain ⟨g2, e2, h⟩ := bind_ok h
  cases h
  unfold insertInDeletedCellBody at e0
  obtain ⟨tb, -, e0⟩ := bind_ok e0
  obtain ⟨ld, -, e0⟩ := bind_ok e0
  obtain ⟨blk, eb, e0⟩ := bind_ok e0
  obtain ⟨cell, et, e0⟩ := bind_ok e0
  obtain ⟨dc, ep, e0⟩ := bind_ok e0
  obtain ⟨h0, e00, e0⟩ := bind_ok e0
  obtain ⟨h1, e01, e0⟩ := bind_ok e0
  obtain ⟨h2, e02, e0⟩ := bind_ok e0
  obtain ⟨h3, e03, e0⟩ := bind_ok e0
  obtain ⟨h4, e04, e0⟩ := bind_ok e0
  cases e0
  obtain ⟨j, rfl, hb, hr⟩ := blockAt_ok eb
  have hnodes := stack_top_pop et ep
  obtain ⟨j0, blk0, hj0, hb0, -, a0, b0, c0⟩ := views_updBlock e00 (fun _ => rfl)
  cases hj0
  rw [hb] at hb0
  cases hb0
  obtain ⟨a1, b1, c1⟩ := views_updElem e01 (fun _ => rfl)
  obtain ⟨a2, b2, c2⟩ := views_updElem e02 (fun _ => rfl)
  obtain ⟨a3, b3, c3⟩ := views_updElem e03 (fun _ => rfl)
  obtain ⟨a4, b4, c4⟩ := views_updElem e04 (fun _ => rfl)
  simp only [] at e1 e2
  obtain ⟨a5, b5, c5⟩ := views_updElem e1 (fun _ => rfl)
  obtain ⟨P, hP, -, a6, b6, c6⟩ := views_setActive e2
  have hTj : (tombsOf s.heap)[j]? = some (cell :: dc.nodes) := by
    rw [tombs_of_getElem? hb]
    simp [Block.tombs, hr, hnodes]
  have hT : tombsOf g2 = (tombsOf s.heap).set j dc.nodes := by
    rw [a6, a5, a4, a3, a2, a1, a0]
    simp [Block.tombs, hr]
  have hL : linksOf g2 = linksOf s.heap := by
    rw [b6, b5, b4, b3, b2, b1, b0]
    have e : ({ blk with deleted_cells_ := dc } : Block α).link = blk.link := rfl
    rw [e]
    exact set_same (link_of_getElem? hb)
  have hA : actsOf g2 = setEntry (actsOf s.heap) P.blk P.idx true := by
    rw [c6, c5, c4, c3, c2, c1, c0]
  have h0e : entry (tombsOf s.heap) j 0 = some cell := by simp [entry, hTj]
  obtain ⟨q, hq, hinact⟩ := hI.tomb.inactive j 0 cell h0e
  rw [hP] at hq
  cases hq
  have hnamed : NamedIn (tombsOf s.heap) P := ⟨j, 0, cell, h0e, hP⟩
  refine ⟨⟨hI.cap_pos, Nat.le_succ_of_le hI.ci_le, ?_, ?_, ?_, ?_⟩, ?_⟩
  · intro t ht
    have := hI.tail_lt t ht
    show t < g2.length
    rw [← length_linksOf g2, hL, length_linksOf]
    exact this
  · show TombInv (tombsOf g2) (actsOf g2)
    rw [hT, hA]
    exact tomb_pop hI.tomb hTj hP
  · show CursorInv (tombsOf g2) (actsOf g2) (linksOf g2) s.tail_block_ s.current_index_
      s.block_capacity_
    rw [hT, hA, hL]
    exact cursor_setEntry hI.cursor hinact (Or.inr hnamed) true
      (fun q1 hq1 => Or.inr (named_set_tail hTj hq1))
  · show LinkInv (linksOf g2) s.tail_block_ s.current_index_ s.block_capacity_
    rw [hL]
    exact hI.link
  · intro p e hp hs
    simp only [] at hp
    rw [hP] at hp
    cases hp
    have := entry_actsOf s.heap P
    rw [hs, hinact] at this
    simp only [Option.map_some', Option.some.injEq] at this
    exact this.symm

/-- The append path of `insert` on a consistent storage: the slot it writes was unused, and
the storage stays consistent. -/
theorem insert_append_inv {n : Nat} {s s1 : BucketStorage α} {v : α} {it : Iterator}
    (hI : Inv n s) (hn : n + 1 < wordSize)
    (h : (insertBody s >>= fun b1 =>
      elementAddr b1.heap b1.tail_block_ (s.current_index_ % s.block_capacity_) >>= fun here =>
      updElem b1.heap (some here) (fun e => { e with value_ := some v }) >>= fun g1 =>
      updElem g1 (some here) (fun e => { e with is_active_ := true }) >>= fun g2 =>
      (.ok ({ b1 with heap := g2, size_ := (b1.size_ + 1) % wordSize },
         { current_node_ := some here, current_block_ := b1.head_block_,
           block_capacity_ := b1.block_capacity_, current_position_ := 0 }) :
        Except Fault (BucketStorage α × Iterator))) = .ok (s1, it)) :
    Inv (n + 1) s1 ∧
      ∀ p e, it.current_node_ = some p → slot s.heap p = some e → e.is_active_ = false := by
  obtain ⟨b1, e0, h⟩ := bind_ok h
  obtain ⟨here, e3, h⟩ := bind_ok h
  obtain ⟨g1, e1, h⟩ := bind_ok h
  obtain ⟨g2, e2, h⟩ := bind_ok h
  cases h
  obtain ⟨hcap, hci, hcase⟩ := views_insertBody hI e0
  obtain ⟨t, bt, htl, hbt, hbr, rfl⟩ := elementAddr_ok e3
  obtain ⟨xv, yv, zv⟩ := views_updElem e1 (fun _ => rfl)
  obtain ⟨q, hq, ⟨eq, hslot⟩, xa, ya, za⟩ := views_setActive e2
  cases hq
  simp only [] at za
  have hent : entry (actsOf b1.heap) t (s.current_index_ % s.block_capacity_)
      = some eq.is_active_ := by
    rw [← zv]
    have := entry_actsOf g1 ⟨t, s.current_index_ % s.block_capacity_⟩
    rw [hslot] at this
    exact this
  have hci1 : (s.current_index_ + 1) % wordSize = s.current_index_ + 1 := by
    apply Nat.mod_eq_of_lt
    have := hI.ci_le
    omega
  rw [hci1] at hci
  have hT : tombsOf g2 = tombsOf b1.heap := xa.trans xv
  have hL : linksOf g2 = linksOf b1.heap := ya.trans yv
  have hA : actsOf g2 = setEntry (actsOf b1.heap) t (s.current_index_ % s.block_capacity_) true := by
    rw [za, zv]
  have hlen : g2.length = b1.heap.length := by
    rw [← length_linksOf g2, hL, length_linksOf]
  have hbtl : t < b1.heap.length := (List.getElem?_eq_some_iff.mp hbt).1
  rcases hcase with ⟨hdiv, hmod, t0, lt, ht0, hl, hr, a, b, c, d⟩ | ⟨hcond, a, b, c, d⟩
  · -- a block was allocated
    rw [htl] at d
    cases d
    have hR := region_fresh hI.tomb s.block_capacity_ (s.current_index_ % s.block_capacity_)
    rw [length_actsOf] at hR
    rw [b] at hent
    have hun := (hR _ _ (Nat.le_refl _) hent).2
    have hlink := hI.link
    rw [ht0] at hlink
    have hlink2 := link_addBlock hlink hl hr hmod hdiv
    refine ⟨⟨?_, ?_, ?_, ?_, ?_, ?_⟩, ?_⟩
    · show 1 ≤ b1.block_capacity_
      rw [hcap]
      exact hI.cap_pos
    · show b1.current_index_ ≤ n + 1
      rw [hci]
      have := hI.ci_le
      omega
    · intro t1 ht1
      show t1 < g2.length
      have ht1' : b1.tail_block_ = some t1 := ht1
      rw [htl] at ht1'
      cases ht1'
      rw [hlen]
      exact hbtl
    · show TombInv (tombsOf g2) (actsOf g2)
      rw [hT, hA, a, b]
      exact tomb_activate (tomb_append hI.tomb _) (q := ⟨s.heap.length, _⟩) hun
    · show CursorInv (tombsOf g2) (actsOf g2) (linksOf g2) b1.tail_block_ b1.current_index_
        b1.block_capacity_
      rw [hT, hA, a, b, htl, hci, hcap]
      exact cursor_advance hR hI.cap_pos
    · show LinkInv (linksOf g2) b1.tail_block_ b1.current_index_ b1.block_capacity_
      rw [hL, c, htl, hci, hcap]
      rw [length_linksOf] at hlink2 ⊢
      exact hlink2
    · intro p e hp hs
      simp only [Option.some.injEq] at hp
      subst hp
      have := slot_lt_length hs
      simp at this
  · -- the cursor stays in the tail block
    rw [d] at htl
    have hlt : (linksOf s.heap)[t]? = some bt.link := by
      rw [← c]
      exact link_of_getElem? hbt
    have hprem : s.current_index_ % s.block_capacity_ ≠ 0 ∨
        s.current_index_ / s.block_capacity_ = 0 := by
      by_cases hz : s.current_index_ % s.block_capacity_ = 0
      · right
        by_contra hd
        exact hcond ⟨Nat.pos_of_ne_zero hd, hz⟩
      · exact Or.inl hz
    have hR := hI.cursor t bt.link htl hlt hbr hprem
    rw [b] at hent
    have hfree := hR _ _ (Nat.le_refl _) hent
    refine ⟨⟨?_, ?_, ?_, ?_, ?_, ?_⟩, ?_⟩
    · show 1 ≤ b1.block_capacity_
      rw [hcap]
      exact hI.cap_pos
    · show b1.current_index_ ≤ n + 1
      rw [hci]
      have := hI.ci_le
      omega
    · intro t1 ht1
      show t1 < g2.length
      have ht1' : b1.tail_block_ = some t1 := ht1
      rw [d, htl] at ht1'
      cases ht1'
      rw [hlen]
      exact hbtl
    · show TombInv (tombsOf g2) (actsOf g2)
      rw [hT, hA, a, b]
      exact tomb_activate hI.tomb (q := ⟨t, _⟩) hfree.2
    · show CursorInv (tombsOf g2) (actsOf g2) (linksOf g2) b1.tail_block_ b1.current_index_
        b1.block_capacity_
      rw [hT, hA, a, b, d, htl, hci, hcap]
      exact cursor_advance hR hI.cap_pos
    · show LinkInv (linksOf g2) b1.tail_block_ b1.current_index_ b1.block_capacity_
      rw [hL, c, d, hci, hcap]
      exact linkInv_later hI.link (Nat.le_succ _)
    · intro p e hp hs
      simp only [Option.some.injEq] at hp
      subst hp
      have := entry_actsOf s.heap ⟨t, s.current_index_ % s.block_capacity_⟩
      rw [hs] at this
      simp only [Option.map_some'] at this
      rw [hent] at this
      simp only [Option.some.injEq] at this
      rw [← this]
      exact hfree.1

/-- Method `insert` on a consistent storage that has seen fewer than `2^64 - 1` calls: the slot
of the returned iterator was not active before the call, and the storage stays consistent. -/
theorem insert_inv {n : Nat} {s s1 : BucketStorage α} {v : α} {it : Iterator}
    (hI : Inv n s) (hn : n + 1 < wordSize) (h : BucketStorage.insert s v = .ok (s1, it)) :
    Inv (n + 1) s1 ∧
      ∀ p e, it.current_node_ = some p → slot s.heap p = some e → e.is_active_ = false := by
  unfold BucketStorage.insert at h
  split at h
  · exact insertInDeletedCell_inv hI h
  · exact insert_append_inv hI hn h

theorem inv_later {n m : Nat} {s : BucketStorage α} (hI : Inv n s) (h : n ≤ m) : Inv m s :=
  ⟨hI.cap_pos, Nat.le_trans hI.ci_le h, hI.tail_lt, hI.tomb, hI.cursor, hI.link⟩

theorem clearLoop_inv {tail : Option Nat} {ci cap : Nat} :
    ∀ (f : Nat) (h h1 : Heap α) (temp : Option Nat), clearLoop f h temp = .ok h1 →
      TombInv (tombsOf h) (actsOf h) → LinkInv (linksOf h) tail ci cap →
      TombInv (tombsOf h1) (actsOf h1) ∧ LinkInv (linksOf h1) tail ci cap := by
  intro f
  induction f with
  | zero => intro h h1 temp hw; cases hw
  | succ k ih =>
    intro h h1 temp hw hT hL
    unfold clearLoop at hw
    split at hw
    · cases hw; exact ⟨hT, hL⟩
    · obtain ⟨blk, -, hw⟩ := bind_ok hw
      obtain ⟨h2, e2, hw⟩ := bind_ok hw
      obtain ⟨i, lx, -, hlx, -, a, b, c⟩ := views_deleteBlock e2
      refine ih h2 h1 blk.next_ hw ?_ ?_
      · rw [a, c]
        exact tomb_release hT i
      · rw [b]
        exact link_release hL hlx

/-- Method `clear` on a consistent storage. -/
theorem clear_inv {n : Nat} {s s1 : BucketStorage α} (hI : Inv n s) (h : clear s = .ok s1) :
    Inv n s1 := by
  unfold clear at h
  split at h
  · cases h; exact hI
  · obtain ⟨h1, e1, h⟩ := bind_ok h
    cases h
    obtain ⟨hT, hL⟩ := clearLoop_inv _ _ _ _ e1 hI.tomb hI.link
    exact ⟨hI.cap_pos, hI.ci_le, fun t ht => (by cases ht), hT,
      fun t l ht => (by cases ht), linkInv_noTail hL⟩

theorem sub_wrap {ci cap : Nat} (h : cap + 1 ≤ ci) (hci : ci < wordSize) :
    (ci + wordSize - cap % wordSize) % wordSize = ci - cap := by
  have hc : cap % wordSize = cap := Nat.mod_eq_of_lt (by omega)
  rw [hc]
  have : ci + wordSize - cap = (ci - cap) + wordSize := by omega
  rw [this, Nat.add_mod_right]
  exact Nat.mod_eq_of_lt (by omega)

/-- The relinking branches of `delBlock` followed by `delete block`: the tombstones of the
block are dropped, no active flag changes, no block comes back from release, and the chain
of blocks is consistent with the cursor moved back by one block. -/
theorem reclaim_views {s s1 : BucketStorage α} {X : Nat} {blk : Block α} {h5 : Heap α}
    {tail : Option Nat} {ci cap : Nat} (hI : LinkInv (linksOf s.heap) tail ci cap)
    (hb : s.heap[X]? = some blk) (hr : blk.released = false)
    (hcond : ¬ (blk.previous_.isNone ∧ blk.next_.isNone))
    (eu : unlinkBlock s blk.previous_ blk.next_ = .ok s1)
    (ed : deleteBlock s1.heap (some X) = .ok h5) :
    tombsOf h5 = (tombsOf s.heap).set X [] ∧ actsOf h5 = actsOf s.heap ∧
    StillOpen (linksOf s.heap) (linksOf h5) ∧ LinkInv (linksOf h5) tail (ci - cap) cap ∧
    cap + 1 ≤ ci ∧ s1.tail_block_ = s.tail_block_ ∧ s1.current_index_ = s.current_index_ ∧
    s1.block_capacity_ = s.block_capacity_ := by
  obtain ⟨i, lx1, hi, hlx1, hlx1r, a5, b5, c5⟩ := views_deleteBlock ed
  cases hi
  have hX := link_of_getElem? hb
  have hrel : StillOpen (linksOf s1.heap) (linksOf h5) := by
    rw [b5]
    exact stillOpen_set hlx1 _ (fun hc => by cases hc)
  unfold unlinkBlock at eu
  split at eu
  · rename_i p n hp hn
    obtain ⟨h1, e1, eu⟩ := bind_ok eu
    obtain ⟨h2, e2, eu⟩ := bind_ok eu
    obtain ⟨pe, -, eu⟩ := bind_ok eu
    obtain ⟨ne, -, eu⟩ := bind_ok eu
    obtain ⟨h3, e5, eu⟩ := bind_ok eu
    obtain ⟨h4, e6, eu⟩ := bind_ok eu
    cases eu
    obtain ⟨j1, bp, hj1, hbp, hbpr, a1, b1, c1⟩ := views_updBlock e1 (fun _ => rfl)
    cases hj1
    obtain ⟨j2, bn, hj2, hbn, hbnr, a2, b2, c2⟩ := views_updBlock e2 (fun _ => rfl)
    cases hj2
    obtain ⟨a3, b3, c3⟩ := views_updElem e5 (fun _ => rfl)
    obtain ⟨a4, b4, c4⟩ := views_updElem e6 (fun _ => rfl)
    have hlp := link_of_getElem? hbp
    have hln := link_of_getElem? hbn
    have ep : ({ bp with next_ := some n } : Block α).link = { bp.link with next_ := some n } := rfl
    have en : ({ bn with previous_ := some p } : Block α).link
        = { bn.link with previous_ := some p } := rfl
    rw [ep] at b1
    rw [en] at b2
    rw [b1] at hln b2
    have hL4 : linksOf h4 = ((linksOf s.heap).set p { bp.link with next_ := some n }).set n
        { bn.link with previous_ := some p } := by rw [b4, b3, b2]
    simp only [] at hlx1 b5 a5 c5 hrel
    rw [hL4] at hlx1 b5 hrel
    have hT4 : tombsOf h4 = tombsOf s.heap := by
      rw [a4, a3, a2]
      have e2' : ({ bn with previous_ := some p } : Block α).tombs = bn.tombs := rfl
      rw [e2', set_same (tombs_of_getElem? hbn), a1]
      have e1' : ({ bp with next_ := some n } : Block α).tombs = bp.tombs := rfl
      rw [e1', set_same (tombs_of_getElem? hbp)]
    obtain ⟨hlink, hge⟩ := link_unlink_both hI hX hr hp hn hlp hbpr hln hbnr hlx1 hlx1r
    exact ⟨by rw [a5, hT4], by rw [c5, c4, c3, c2, c1],
      stillOpen_trans (stillOpen_trans (stillOpen_set hlp _ (fun _ => hbpr))
        (stillOpen_set hln _ (fun _ => hbnr))) hrel,
      by rw [b5]; exact hlink, hge, rfl, rfl, rfl⟩
  · rename_i p hp hn
    obtain ⟨h1, e1, eu⟩ := bind_ok eu
    obtain ⟨pe, -, eu⟩ := bind_ok eu
    obtain ⟨h2, e5, eu⟩ := bind_ok eu
    cases eu
    obtain ⟨j1, bp, hj1, hbp, hbpr, a1, b1, c1⟩ := views_updBlock e1 (fun _ => rfl)
    cases hj1
    obtain ⟨a3, b3, c3⟩ := views_updElem e5 (fun _ => rfl)
    have hlp := link_of_getElem? hbp
    have ep : ({ bp with next_ := none } : Block α).link = { bp.link with next_ := none } := rfl
    rw [ep] at b1
    have hL4 : linksOf h2 = (linksOf s.heap).set p { bp.link with next_ := none } := by
      rw [b3, b1]
    simp only [] at hlx1 b5 a5 c5 hrel
    rw [hL4] at hlx1 b5 hrel
    have hT4 : tombsOf h2 = tombsOf s.heap := by
      rw [a3, a1]
      have e1' : ({ bp with next_ := none } : Block α).tombs = bp.tombs := rfl
      rw [e1', set_same (tombs_of_getElem? hbp)]
    obtain ⟨hlink, hge⟩ := link_unlink_prev hI hX hr hp hn hlp hbpr hlx1
    exact ⟨by rw [a5, hT4], by rw [c5, c3, c1],
      stillOpen_trans (stillOpen_set hlp _ (fun _ => hbpr)) hrel,
      by rw [b5]; exact hlink, hge, rfl, rfl, rfl⟩
  · rename_i n hp hn
    obtain ⟨h1, e1, eu⟩ := bind_ok eu
    obtain ⟨ne, -, eu⟩ := bind_ok eu
    obtain ⟨h2, e5, eu⟩ := bind_ok eu
    cases eu
    obtain ⟨j1, bn, hj1, hbn, hbnr, a1, b1, c1⟩ := views_updBlock e1 (fun _ => rfl)
    cases hj1
    obtain ⟨a3, b3, c3⟩ := views_updElem e5 (fun _ => rfl)
    have hln := link_of_getElem? hbn
    have en : ({ bn with previous_ := none } : Block α).link
        = { bn.link with previous_ := none } := rfl
    rw [en] at b1
    have hL4 : linksOf h2 = (linksOf s.heap).set n { bn.link with previous_ := none } := by
      rw [b3, b1]
    simp only [] at hlx1 b5 a5 c5 hrel
    rw [hL4] at hlx1 b5 hrel
    have hT4 : tombsOf h2 = tombsOf s.heap := by
      rw [a3, a1]
      have e1' : ({ bn with previous_ := none } : Block α).tombs = bn.tombs := rfl
      rw [e1', set_same (tombs_of_getElem? hbn)]
    obtain ⟨hlink, hge⟩ := link_unlink_next hI hX hr hn hln hlx1
    exact ⟨by rw [a5, hT4], by rw [c5, c3, c1],
      stillOpen_trans (stillOpen_set hln _ (fun _ => hbnr)) hrel,
      by rw [b5]; exact hlink, hge, rfl, rfl, rfl⟩
  · rename_i hp hn
    exfalso
    apply hcond
    rw [hp, hn]
    exact ⟨rfl, rfl⟩

/-- Method `delBlock` on a consistent storage. -/
theorem delBlock_inv {n : Nat} {s s1 : BucketStorage α} {block : Option Nat}
    (hI : Inv n s) (hn : n < wordSize) (h : delBlock s block = .ok s1) : Inv n s1 := by
  unfold delBlock at h
  obtain ⟨blk, eb, h⟩ := bind_ok h
  obtain ⟨X, rfl, hb, hr⟩ := blockAt_ok eb
  split at h
  · obtain ⟨s2, e1, h⟩ := map_ok h
    rw [← h]
    have I2 := clear_inv hI e1
    exact inv_initializationContainer I2.cap_pos I2.ci_le I2.tomb I2.link
  · rename_i hcond
    obtain ⟨s2, eu, h⟩ := bind_ok h
    obtain ⟨acc, -, h⟩ := bind_ok h
    obtain ⟨h5, ed, h⟩ := bind_ok h
    cases h
    obtain ⟨hT, hA, hO, hL, hge, ht, hc, hcap⟩ := reclaim_views hI.link hb hr hcond eu ed
    have hci : s.current_index_ < wordSize := Nat.lt_of_le_of_lt hI.ci_le hn
    have hw := sub_wrap hge hci
    have hlen : h5.length = s.heap.length := by
      rw [← length_tombsOf h5, hT, List.length_set, length_tombsOf]
    refine ⟨?_, ?_, ?_, ?_, ?_, ?_⟩
    · show 1 ≤ s2.block_capacity_
      rw [hcap]
      exact hI.cap_pos
    · show (s2.current_index_ + wordSize - s2.block_capacity_ % wordSize) % wordSize ≤ n
      rw [hc, hcap, hw]
      have := hI.ci_le
      omega
    · intro t ht1
      show t < h5.length
      have ht2 : s2.tail_block_ = some t := ht1
      rw [ht] at ht2
      rw [hlen]
      exact hI.tail_lt t ht2
    · show TombInv (tombsOf h5) (actsOf h5)
      rw [hT, hA]
      exact tomb_release hI.tomb X
    · show CursorInv (tombsOf h5) (actsOf h5) (linksOf h5) s2.tail_block_
        ((s2.current_index_ + wordSize - s2.block_capacity_ % wordSize) % wordSize)
        s2.block_capacity_
      rw [hT, hA, ht, hc, hcap, hw]
      exact cursor_decr (cursor_links hI.cursor (fun q hq => named_set_nil hq) hO)
        hI.cap_pos hge
    · show LinkInv (linksOf h5) s2.tail_block_
        ((s2.current_index_ + wordSize - s2.block_capacity_ % wordSize) % wordSize)
        s2.block_capacity_
      rw [ht, hc, hcap, hw]
      exact hL

/-- Method `erase`, called with an iterator whose node is an active slot, on a consistent
storage. -/
theorem erase_inv {n : Nat} {s s1 : BucketStorage α} {pos r : Iterator} {e : Element α}
    (hI : Inv n s) (hn : n < wordSize) (he : elemAt s.heap pos.current_node_ = .ok e)
    (ha : e.is_active_ = true) (h : erase s pos = .ok (s1, r)) : Inv n s1 := by
  unfold erase at h
  obtain ⟨blk, eb, h⟩ := bind_ok h
  obtain ⟨e', ee, h⟩ := bind_ok h
  rw [he] at ee
  cases ee
  obtain ⟨h0, e0, h⟩ := bind_ok h
  obtain ⟨s2, e2, h⟩ := bind_ok h
  obtain ⟨h3, e3, h⟩ := bind_ok h
  obtain ⟨h4, e4, h⟩ := bind_ok h
  obtain ⟨pos1, -, h⟩ := bind_ok h
  obtain ⟨blk1, -, h⟩ := bind_ok h
  obtain ⟨bj, hbj, hb, hr⟩ := blockAt_ok eb
  obtain ⟨q, hq, hslot⟩ := elemAt_ok he
  rw [hbj] at e0
  obtain ⟨j0, blk0, hj0, hb0, -, a0, b0, c0⟩ := views_updBlock e0 (fun _ => rfl)
  cases hj0
  rw [hb] at hb0
  cases hb0
  have k2 : tombsOf s2.heap = tombsOf h0 ∧ linksOf s2.heap = linksOf h0 ∧
      actsOf s2.heap = actsOf h0 ∧ s2.tail_block_ = s.tail_block_ ∧
      s2.current_index_ = s.current_index_ ∧ s2.block_capacity_ = s.block_capacity_ := by
    split at e2
    · obtain ⟨h1, e21, e2⟩ := bind_ok e2
      obtain ⟨h2, e22, e2⟩ := bind_ok e2
      cases e2
      obtain ⟨x1, y1, z1⟩ := views_updElem e21 (fun _ => rfl)
      have k : tombsOf h2 = tombsOf h1 ∧ linksOf h2 = linksOf h1 ∧ actsOf h2 = actsOf h1 := by
        split at e22
        · exact views_updElem e22 (fun _ => rfl)
        · cases e22; exact ⟨rfl, rfl, rfl⟩
      exact ⟨k.1.trans x1, k.2.1.trans y1, k.2.2.trans z1, rfl, rfl, rfl⟩
    · obtain ⟨h1, e21, e2⟩ := bind_ok e2
      cases e2
      obtain ⟨x1, y1, z1⟩ := views_updElem e21 (fun _ => rfl)
      exact ⟨x1, y1, z1, rfl, rfl, rfl⟩
  obtain ⟨x2, y2, z2, ht2, hc2, hcap2⟩ := k2
  obtain ⟨x3, y3, z3⟩ := views_updElem e3 (fun _ => rfl)
  obtain ⟨q4, hq4, -, x4, y4, z4⟩ := views_setActive e4
  rw [hq] at hq4
  cases hq4
  have hTj : (tombsOf s.heap)[bj]? = some blk.tombs := tombs_of_getElem? hb
  have hT : tombsOf h4 = (tombsOf s.heap).set bj
      (⟨e.previous_, pos.current_node_, e.next_⟩ :: blk.tombs) := by
    rw [x4, x3, x2, a0]
    simp [Block.tombs, hr, Stack.add]
  have hL : linksOf h4 = linksOf s.heap := by
    rw [y4, y3, y2, b0]
    have e1 : ({ blk with deleted_cells_ :=
        blk.deleted_cells_.add ⟨e.previous_, pos.current_node_, e.next_⟩ } : Block α).link
        = blk.link := rfl
    rw [e1]
    exact set_same (link_of_getElem? hb)
  have hA : actsOf h4 = setEntry (actsOf s.heap) q.blk q.idx false := by
    rw [z4, z3, z2, c0]
  have hact : entry (actsOf s.heap) q.blk q.idx = some true := by
    rw [entry_actsOf, hslot]
    simp [ha]
  have hd : (⟨e.previous_, pos.current_node_, e.next_⟩ : DeletedCell).position_ = some q := hq
  have I4 : Inv n { s2 with heap := h4, size_ := (s2.size_ + wordSize - 1) % wordSize } := by
    refine ⟨?_, ?_, ?_, ?_, ?_, ?_⟩
    · show 1 ≤ s2.block_capacity_
      rw [hcap2]
      exact hI.cap_pos
    · show s2.current_index_ ≤ n
      rw [hc2]
      exact hI.ci_le
    · intro t ht1
      show t < h4.length
      have ht3 : s2.tail_block_ = some t := ht1
      rw [ht2] at ht3
      rw [← length_linksOf h4, hL, length_linksOf]
      exact hI.tail_lt t ht3
    · show TombInv (tombsOf h4) (actsOf h4)
      rw [hT, hA]
      exact tomb_push hI.tomb hTj hact hd
    · show CursorInv (tombsOf h4) (actsOf h4) (linksOf h4) s2.tail_block_ s2.current_index_
        s2.block_capacity_
      rw [hT, hA, hL, ht2, hc2, hcap2]
      exact cursor_setEntry hI.cursor hact (Or.inl rfl) false
        (fun q1 hq1 => named_set_cons hTj hd hq1)
    · show LinkInv (linksOf h4) s2.tail_block_ s2.current_index_ s2.block_capacity_
      rw [hL, ht2, hc2, hcap2]
      exact hI.link
  split at h
  · obtain ⟨s3, e7, h⟩ := map_ok h
    cases h
    exact delBlock_inv I4 hn e7
  · cases h
    exact I4

/-- Every state reached by fewer than `2^64` calls is consistent. -/
theorem reached_inv {c n : Nat} {s : BucketStorage α} (hr : Reached c n s) :
    n < wordSize → Inv n s := by
  induction hr with
  | start h => intro _; exact inv_construct h
  | afterInsert _ h ih =>
    intro hn
    exact (insert_inv (ih (by omega)) hn h).1
  | afterErase _ he ha h ih =>
    intro hn
    exact inv_later (erase_inv (ih (by omega)) (by omega) he ha h) (Nat.le_succ _)
  | afterClear _ h ih =>
    intro hn
    exact inv_later (clear_inv (ih (by omega)) h) (Nat.le_succ _)

/-- Claim C10.  Take any storage state reached from the constructor by fewer than `2^64 - 1`
calls of `insert`, `clear` and `erase` (each `erase` on an iterator whose node is an active
slot), and any value `v` for which `insert(v)` returns.  The returned iterator references a
slot that now is active and holds `v`, and that was not active before the call.  Every slot
that was active before the call is still a slot at the same block and index, still active, and
holds the same value.  Every slot other than the returned one keeps its value and its active
flag, so the returned slot is the only one whose value or flag changes. -/
theorem C10_insert_keeps_live_slots (c n : Nat) (s s1 : BucketStorage α) (v : α) (it : Iterator)
    (hr : Reached c n s) (hn : n + 1 < wordSize)
    (h : BucketStorage.insert s v = .ok (s1, it)) :
    ∃ p e1, it.current_node_ = some p ∧ slot s1.heap p = some e1 ∧ e1.value_ = some v ∧
      e1.is_active_ = true ∧
      (∀ e, slot s.heap p = some e → e.is_active_ = false) ∧
      (∀ q e, slot s.heap q = some e → e.is_active_ = true →
        ∃ e2, slot s1.heap q = some e2 ∧ e2.is_active_ = true ∧ e2.value_ = e.value_) ∧
      (∀ q e, q ≠ p → slot s.heap q = some e →
        ∃ e2, slot s1.heap q = some e2 ∧ e2.value_ = e.value_ ∧ e2.is_active_ = e.is_active_) := by
  obtain ⟨p, e1, hp, hs, hv, ha, hframe⟩ := insert_frame h
  have hI := reached_inv hr (by omega)
  have hfree := (insert_inv hI hn h).2 p
  refine ⟨p, e1, hp, hs, hv, ha, fun e he => hfree e hp he, ?_, hframe⟩
  intro q e hq hact
  have hne : q ≠ p := by
    intro hqp
    subst hqp
    rw [hfree e hp hq] at hact
    cases hact
  obtain ⟨e2, h2, hv2, ha2⟩ := hframe q e hne hq
  exact ⟨e2, h2, ha2.trans hact, hv2⟩

/-- Instance of C10: `Storage s(2)`; insert 1, 2, 3; erase the iterator `insert(2)` returned;
then `insert(4)`, which takes the reuse path. -/
theorem C10_insert_keeps_live_slots_witness :
    Reached 2 4 threeEraseSecond.1 ∧
    BucketStorage.insert threeEraseSecond.1 4
      = .ok (resultOf (BucketStorage.insert threeEraseSecond.1 4)) ∧
    ∃ p e1, (resultOf (BucketStorage.insert threeEraseSecond.1 4)).2.current_node_ = some p ∧
      slot (resultOf (BucketStorage.insert threeEraseSecond.1 4)).1.heap p = some e1 ∧
      e1.value_ = some 4 ∧ e1.is_active_ = true ∧
      (∀ e, slot threeEraseSecond.1.heap p = some e → e.is_active_ = false) ∧
      (∀ q e, slot threeEraseSecond.1.heap q = some e → e.is_active_ = true →
        ∃ e2, slot (resultOf (BucketStorage.insert threeEraseSecond.1 4)).1.heap q = some e2 ∧
          e2.is_active_ = true ∧ e2.value_ = e.value_) ∧
      (∀ q e, q ≠ p → slot threeEraseSecond.1.heap q = some e →
        ∃ e2, slot (resultOf (BucketStorage.insert threeEraseSecond.1 4)).1.heap q = some e2 ∧
          e2.value_ = e.value_ ∧ e2.is_active_ = e.is_active_) :=
  have e0 : construct 2 = .ok emptyOfTwo := by decide
  have e1 : BucketStorage.insert emptyOfTwo 1 = .ok (oneOfTwo.1, oneOfTwo.2) := by decide
  have e2 : BucketStorage.insert oneOfTwo.1 2 = .ok (twoOfTwo.1, twoOfTwo.2) := by decide
  have e3 : BucketStorage.insert twoOfTwo.1 3 = .ok (threeOfTwo.1, threeOfTwo.2) := by decide
  have e4 : elemAt threeOfTwo.1.heap twoOfTwo.2.current_node_
      = .ok ⟨some 2, true, 1, some ⟨1, 0⟩, some ⟨0, 0⟩⟩ := by decide
  have e5 : erase threeOfTwo.1 twoOfTwo.2 = .ok (threeEraseSecond.1, threeEraseSecond.2) := by
    decide
  have h4 : Reached 2 4 threeEraseSecond.1 :=
    Reached.afterErase
      (Reached.afterInsert (Reached.afterInsert (Reached.afterInsert (Reached.start e0) e1) e2) e3)
      e4 rfl e5
  ⟨h4, by decide,
    C10_insert_keeps_live_slots 2 4 threeEraseSecond.1 _ 4 _ h4 (by simp [wordSize])
      (by decide)⟩

end Lemmas

namespace Run

open BucketStorage

/-- Claim C2, evaluated on `Storage s(2)`; insert 1, 2; erase the iterator to 2.  Afterwards
`size()` is 1, yet the loop from `begin()` to `end()` visits two slots, the second of which,
block 0 index 1, is the erased one: it is inactive and dereferencing it reads a null value. -/
theorem C2_iteration_visits_erased_slot :
    (eraseLastOfFullBlock.map fun r =>
      (size r.1, (elemAt r.1.heap (some ⟨0, 1⟩)).map fun e => e.is_active_)) = .ok (1, .ok false)
    ∧ (∀ n, (eraseLastOfFullBlock >>= fun r => visited (n + 3) r.1)
        = .ok [some ⟨0, 0⟩, some ⟨0, 1⟩])
    ∧ (∀ n, (eraseLastOfFullBlock >>= fun r => values (n + 2) r.1) = .error .nullDeref) := by
  refine ⟨by decide, fun n => rfl, fun n => rfl⟩

/-- Claim C3, evaluated on `Storage s(3)`; insert 1, 2, 3; erase the iterator to 2; insert 4.
Four inserts and one erase leave `size()` at 2: the insert that reuses the vacated slot does
not count. -/
theorem C3_reuse_insert_not_counted :
    (reuseMiddle.map fun r => size r.1) = .ok 2 ∧ (2 : Nat) ≠ 4 - 1 := by
  decide

/-- Claim C4, evaluated on the scenario itself.  The value 4 lands in block 0 index 1 and the
returned iterator references that slot, but the slot is relinked forward to its left
neighbour: the loop from `begin()` never reaches `end()`.  It yields 1, 4, 1, 4, 1, 4 and the
sixth `++` reads the next block through a null block pointer, so no run returns `1, 4, 3`. -/
theorem C4_scenario_iteration_never_ends :
    (specScenario.map fun r =>
      (r.2.current_node_, (elemAt r.1.heap (some ⟨0, 1⟩)).map fun e => (e.value_, e.next_)))
      = .ok (some ⟨0, 1⟩, .ok (some 4, some ⟨0, 0⟩))
    ∧ (∀ n, (specScenario >>= fun r => values n r.1)
        = .error (if n < 6 then Fault.fuel else Fault.nullDeref)) := by
  refine ⟨by decide, fun n => ?_⟩
  by_cases h : n < 6
  · rw [if_pos h]
    interval_cases n <;> rfl
  · rw [if_neg h]
    obtain ⟨m, rfl⟩ : ∃ m, n = m + 6 := ⟨n - 6, by omega⟩
    rfl

/-- Claim C6, evaluated on `Storage s(2)`; insert 1, 2, 3, 4; erase 3; erase 4 through the
iterator the first erase returned.  That iterator references 4, the last live element.  The
second erase reclaims the tail block and returns an iterator one past the reclaimed array,
which differs from `end()` of the storage (one past block 0 index 1). -/
theorem C6_erase_reclaiming_tail_returns_stale_iterator :
    (eraseThird >>= fun r => (Iterator.deref r.1 r.2).map fun v => (v, values 4 r.1))
      = .ok (4, .ok [1, 2, 4])
    ∧ (eraseTailBlock.map fun r =>
        (Iterator.eq r.1 r.2 (end_ r.1), Iterator.getCurrent r.1 r.2,
         Iterator.getCurrent r.1 (end_ r.1), values 3 r.1))
      = .ok (false, (some 1, 2), (some 0, 2), .ok [1, 2]) := by
  decide

/-- Claim C7, evaluated on `Storage s(2)`; insert 1, 2; erase `begin()`; insert 3.  The erase
of the first live element completes and records a tombstone whose left neighbour is null; the
following insert takes the reuse path and calls `setNext` through that null pointer. -/
theorem C7_insert_after_erasing_first_faults :
    (eraseFirst.map fun r => (size r.1, r.1.last_deleting_.empty)) = .ok (1, false)
    ∧ (eraseFirst >>= fun r => insert r.1 3) = .error .nullDeref := by
  decide

/-- Claim C8, evaluated on `Storage s(2)`; insert 1, 2; `it3 = insert(3)`; `erase(it3)`;
`erase(begin())`.  Before the last call the slot block 0 index 1 is live and holds 2, and
`begin()` references block 0 index 0.  The iterator `insert` returned tracks the head block,
so both tombstones are counted in block 0: the last call reclaims block 0 and its destructor
destroys the value 2. -/
theorem C8_reclaim_destroys_live_value :
    (eraseViaInsertIterator.map fun r =>
      ((begin r.1).current_node_,
       (elemAt r.1.heap (some ⟨0, 1⟩)).map fun e => (e.is_active_, e.value_)))
      = .ok (some ⟨0, 0⟩, .ok (true, some 2))
    ∧ (eraseViaInsertIterator >>= fun r => (erase r.1 (begin r.1)).map fun q =>
        ((q.1.heap.map fun b => b.released),
         (elemAt q.1.heap (some ⟨0, 1⟩)).map fun e => e.value_))
      = .ok ([true, false], .ok none) := by
  decide

/-- Claim C9, evaluated on two storages of block capacity 2.  With one full block, erasing
`begin()` and then `begin()` again faults in the second erase (it calls `setPrevious` through
the null successor of the first live slot).  With two full blocks, erasing 3 and 4 through the
iterators their inserts returned reclaims block 0 instead of the vacated block 1: block 1
stays the head of the chain and the loop from `begin()` visits its two slots. -/
theorem C9_full_erase_does_not_reclaim_the_block :
    (eraseFirst >>= fun r => erase r.1 (begin r.1)) = .error .nullDeref
    ∧ (eraseSecondBlockViaInsertIterators.map fun r =>
        ((r.2.heap.map fun b => b.released), r.2.head_block_, visited 3 r.2))
      = .ok ([true, false], some 1, .ok [some ⟨1, 0⟩, some ⟨1, 1⟩])
    ∧ (eraseSecondBlockViaInsertIterators.map fun r => (capacity r.1, capacity r.2))
      = .ok (.ok 4, .ok 2) := by
  decide

/-- Claim C11, evaluated on `Storage s(2)`; insert 1, 2, 3; erase the iterator to 2; insert 4;
`s.shrink_to_fit()`.  The state is reached by insert and erase calls only and `size()` is 2,
but the loop of `shrink_to_fit` walks the same links as an iteration from `begin()`: it moves
1, 4, 1, 4, 1, 4 into the new storage and the sixth `++` reads the next block through a null
block pointer.  For every bound on the rounds of the loop the call does not return. -/
theorem C11_shrink_to_fit_never_returns_after_reuse :
    (specScenario.map fun r => (size r.1, values 6 r.1)) = .ok (2, .error .nullDeref)
    ∧ (∀ n, shrinkAfterReuse n = .error (if n < 6 then Fault.fuel else Fault.nullDeref)) := by
  refine ⟨by decide, fun n => ?_⟩
  by_cases h : n < 6
  · rw [if_pos h]
    interval_cases n <;> rfl
  · rw [if_neg h]
    obtain ⟨m, rfl⟩ : ∃ m, n = m + 6 := ⟨n - 6, by omega⟩
    rfl

/-- Claim C13, evaluated on `Storage s(2)`; insert 1, 2, 3; `Storage c(s)`.  Both storages
iterate over 1, 2, 3 and `s.size()` is 3, but `c.size()` is 6: the copy constructor starts
`size_` at `other.size_` and every `insert` of the copy loop increments it again. -/
theorem C13_copy_doubles_size :
    (copyOfThree.map fun r => (size r.1, size r.2, values 4 r.1, values 4 r.2))
      = .ok (3, 6, .ok [1, 2, 3], .ok [1, 2, 3]) := by
  decide

/-- Claim C16, evaluated on two states of `Storage s(2)`.  After insert 1 and `clear()`,
`size()` is 0 but the append cursor is still 1 and the storage has no block, so the next
`insert` reads the tail block through a null pointer.  After insert 1, erase `begin()` and
`clear()`, `clear` returns at once because `size()` is already 0: the cursor is still 1, the
global free stack still holds the block, and the next `insert` takes the reuse path and writes
through the null left neighbour of the tombstone. -/
theorem C16_clear_leaves_storage_unusable :
    (clearAfterInsert.map fun s => (size s, s.current_index_, s.head_block_, s.tail_block_))
      = .ok (0, 1, none, none)
    ∧ (clearAfterInsert >>= fun s => insert s 2) = .error .nullDeref
    ∧ (clearAfterErase.map fun s => (size s, s.current_index_, s.last_deleting_.empty))
      = .ok (0, 1, false)
    ∧ (clearAfterErase >>= fun s => insert s 2) = .error .nullDeref := by
  decide

/-- Claim C17, evaluated on `Storage a(3)` after insert 1, 2, 3 and erase of the iterator to
2, and a fresh `Storage b(3)`.  Before `a.swap(b)` the global free stack of `a` holds block 0
and that of `b` is empty; after the call each storage still has its own stack.  For all
storages `swap` leaves both `last_deleting_` members where they were. -/
theorem C17_swap_keeps_free_stacks :
    (∀ a b : BucketStorage Nat, (swap a b).1.last_deleting_ = a.last_deleting_ ∧
      (swap a b).2.last_deleting_ = b.last_deleting_)
    ∧ (erasedAndFresh.map fun r =>
        (r.1.last_deleting_, r.2.last_deleting_, (swap r.1 r.2).1.last_deleting_,
         (swap r.1 r.2).2.last_deleting_))
      = .ok (⟨[some 0], 0⟩, ⟨[], 0⟩, ⟨[some 0], 0⟩, ⟨[], 0⟩) := by
  refine ⟨fun a b => ⟨rfl, rfl⟩, by decide⟩

/-- Claim C19, evaluated on `Storage s(4)`; `i1 = insert(1)`; `i2 = insert(2)`;
`i3 = insert(3)`; `erase(i2)`; `i5 = insert(5)`; `erase(i3)`; `erase(i5)`; `erase(i1)`.  Each
erased iterator references a live element (holding 2, 3, 5 and 1 when erased).  The insert of
5 reuses a slot and does not count, so the fourth erase decrements `size_` from 0: `size()`
returns 2^64 - 1 while the append cursor is 3. -/
theorem C19_size_exceeds_cursor_after_reuse :
    (eraseAllAfterReuse.map fun r => (r.1, size r.2, r.2.current_index_))
      = .ok ([2, 3, 5, 1], 18446744073709551615, 3)
    ∧ ¬ (18446744073709551615 : Nat) ≤ 3 := by
  decide

/-- Claim C26, evaluated on `Storage s(2)`; insert 1, 2, 3, 4; erase 1, erase 3, insert 5,
erase 2 (block 0 is reclaimed), erase 5, erase 4, each erase through an iterator that
references the live value and tracks the block of its slot.  Before the last erase block 1 is
the only block of the chain; the last erase brings it to 2 tombstones and `delBlock` reclaims
it.  Afterwards `size()` is 0 and both references are unset, but the append cursor is 2 and
the global free stack still holds two entries for the released block 1; the next `insert`
takes the reuse path and reads the released block.  When `delBlock` is called on the only block
of a storage whose `size()` is already 0 (`Storage s(3)` after insert 1, 2 and the erase of
both), `clear` returns at once: the old block is not released and the two references still
point into it. -/
theorem C26_reclaiming_only_block_keeps_cursor_and_stack :
    (reclaimOnlyBlockByErase.map fun r => (r.1, r.2.1))
      = .ok ([3, 2, 5, 4], [some 1, some 0, some 1, some 1])
    ∧ (reclaimOnlyBlockByErase.map fun r =>
        (r.2.2.1.head_block_, r.2.2.1.heap.map fun b => (b.released, b.previous_, b.next_)))
      = .ok (some 1, [(true, none, none), (false, none, none)])
    ∧ (reclaimOnlyBlockByErase.map fun r =>
        (size r.2.2.2, r.2.2.2.current_index_, r.2.2.2.last_object_, r.2.2.2.first_element_))
      = .ok (0, 2, none, none)
    ∧ (reclaimOnlyBlockByErase.map fun r =>
        (r.2.2.2.last_deleting_, r.2.2.2.heap.map fun b => b.released))
      = .ok (⟨[some 1, some 1], 0⟩, [true, true, false])
    ∧ (reclaimOnlyBlockByErase >>= fun r => insert r.2.2.2 9) = .error .useAfterFree
    ∧ (reclaimOnlyBlockAfterErases.map fun r =>
        ((r.1.heap.map fun b => (b.previous_, b.next_)), size r.1))
      = .ok ([(none, none)], 0)
    ∧ (reclaimOnlyBlockAfterErases.map fun r =>
        (size r.2, r.2.current_index_, r.2.last_object_, r.2.first_element_))
      = .ok (0, 2, some ⟨0, 1⟩, some ⟨0, 2⟩)
    ∧ (reclaimOnlyBlockAfterErases.map fun r =>
        (r.2.last_deleting_, r.2.heap.map fun b => b.released))
      = .ok (⟨[some 0, some 0], 0⟩, [false, false]) := by
  refine ⟨by decide, by decide, by decide, by decide, by decide, by decide, by decide,
    by decide⟩

/-- Claim C27, evaluated on `Storage s(3)`; insert 1, 2, 3; erase the iterator to 2;
`s.shrink_to_fit()`.  The call returns and the storage iterates over 1, 3, but its global free
stack still holds block 0, the block of the old storage, which the call has released: `swap`
leaves `last_deleting_` in place.  The next `insert` takes the reuse path and reads the
released block. -/
theorem C27_shrink_to_fit_keeps_free_stack :
    (shrinkAfterErase.map fun s =>
      (s.last_deleting_, s.last_deleting_.empty, (s.heap.map fun b => b.released), values 3 s))
      = .ok (⟨[some 0], 0⟩, false, [true, false], .ok [1, 3])
    ∧ (shrinkAfterErase >>= fun s => insert s 9) = .error .useAfterFree := by
  decide

end Run

end Bucket
